import Mathlib

/-!
# Verification of the jianpu-notation ↔ MIDI codec

A shallow embedding, in Lean 4, of the music-conversion core of this
repository (notation parser, pitch mapper, MIDI writer, MIDI reader and
score reconstructor), together with proofs and refutations of the
specified properties.

Modelling conventions, used throughout:

* JavaScript numbers are modelled as `ℚ` (for beat/volume/bpm
  quantities, which in the source are IEEE doubles but in every run
  relevant to the claims only ever hold small dyadic rationals that
  doubles represent exactly) and as `ℤ`/`ℕ` (for tick, pitch and byte
  quantities, which in the source always hold integers).
* `Math.round` is `jsRound` (round half toward +∞: `⌊q + 1/2⌋`),
  `Math.floor` on an exact integer quotient is `Int.fdiv`, the
  JavaScript `%` operator on integers is `Int.tmod` (truncated,
  sign of the dividend).
* `Uint8Array`/`Buffer` values are `List ℕ` with every element < 256;
  an out-of-range JavaScript read yields `undefined`, modelled as
  `Option ℕ` (`none`) where the distinction is observable.
* JavaScript `Array.prototype.sort` (spec-mandated stable) is
  `List.insertionSort` with the comparator's `≤` relation, which is a
  stable sort.
* Fallible functions return `Except String`; loops whose JavaScript
  form advances an index are written with an explicit fuel argument
  that the top-level wrapper instantiates with a bound that the loop,
  consuming at least one unit of input per iteration, can never
  exhaust.  This keeps every definition executable by kernel
  reduction.
-/

namespace MusicBox

deriving instance DecidableEq for Except

/-! ## Basic JavaScript-arithmetic helpers -/

/-- `clamp(value, min, max) = Math.max(min, Math.min(max, value))`. -/
def clampQ (v lo hi : ℚ) : ℚ := max lo (min hi v)

/-- `clamp` specialised to integer arguments (the source uses the same
`clamp` function; on integer inputs the result is the integer clamp). -/
def clampZ (v lo hi : ℤ) : ℤ := max lo (min hi v)

/-- `Math.round`: round half toward positive infinity. -/
def jsRound (q : ℚ) : ℤ := ⌊q + 1/2⌋

/-! ## Data model (`DEFAULT_HEADER`, `MAJOR_SCALE`, `KEY_OFFSETS`,
`ScoreHeader`, `NoteSpec`, `ScoreEvent`, `ParsedScore`) -/

/-- `MAJOR_SCALE = [0, 2, 4, 5, 7, 9, 11]`. -/
def MAJOR_SCALE : List ℤ := [0, 2, 4, 5, 7, 9, 11]

/-- The 12-pitch-class key table `KEY_OFFSETS` (17 spellings). -/
def KEY_OFFSETS : List (String × ℤ) :=
  [("C", 0), ("C#", 1), ("Db", 1), ("D", 2), ("D#", 3), ("Eb", 3),
   ("E", 4), ("F", 5), ("F#", 6), ("Gb", 6), ("G", 7), ("G#", 8),
   ("Ab", 8), ("A", 9), ("A#", 10), ("Bb", 10), ("B", 11)]

/-- `KEY_OFFSETS[key] ?? 0`. -/
def keyOffsetOf (k : String) : ℤ := (KEY_OFFSETS.lookup k).getD 0

structure ScoreHeader where
  key : String
  bpm : ℚ
  volume : ℚ
  octave : ℤ
  program : ℕ
deriving Repr, DecidableEq

/-- `DEFAULT_HEADER = { key: "C", bpm: 120, volume: 0.8, octave: 4, program: 0 }`. -/
def DEFAULT_HEADER : ScoreHeader :=
  { key := "C", bpm := 120, volume := 0.8, octave := 4, program := 0 }

structure NoteSpec where
  degree : ℕ
  octaveShift : ℤ
  accidental : ℤ
deriving Repr, DecidableEq

/-- The `type` field of a `ScoreEvent` (`"note" | "chord" | "rest"`). -/
inductive EventType where
  | note
  | chord
  | rest
deriving Repr, DecidableEq

structure ScoreEvent where
  type : EventType
  durationBeats : ℚ
  notes : List NoteSpec
deriving Repr, DecidableEq

structure ParsedScore where
  header : ScoreHeader
  events : List ScoreEvent
  totalBeats : ℚ
deriving Repr, DecidableEq

/-! ## Pitch mapper: `degreeToMidi` (forward) -/

/-- The value `tonic + scaleOffset + accidental + octaveShift * 12`
computed by `degreeToMidi` before clamping.  All inputs are integers,
so the source's `Math.round` is the identity on it. -/
def degreeToMidiRaw (degree : ℕ) (octaveShift accidental : ℤ)
    (header : ScoreHeader) : ℤ :=
  let keyOffset := keyOffsetOf header.key
  let baseC := 12 * (header.octave + 1)
  let tonic := baseC + keyOffset
  let scaleOffset := MAJOR_SCALE.getD (degree - 1) 0
  tonic + scaleOffset + accidental + octaveShift * 12

/-- `degreeToMidi`: the raw pitch, clamped to `[0, 127]`. -/
def degreeToMidi (degree : ℕ) (octaveShift accidental : ℤ)
    (header : ScoreHeader) : ℤ :=
  clampZ (degreeToMidiRaw degree octaveShift accidental header) 0 127

/-! ## Pitch mapper: `midiNoteToSpec` (inverse) -/

/-- The candidate accidental for one degree: `pitchClass - scaleOffset`
with the source's two sequential `±12` adjustments. -/
def foldAccidental (pc scaleOffset : ℤ) : ℤ :=
  let a := pc - scaleOffset
  let a := if 6 < a then a - 12 else a
  if a < -6 then a + 12 else a

/-- The `for (degree = 1; degree <= 7; ...)` selection loop of
`midiNoteToSpec`: the running best `(bestDegree, bestAccidental,
bestDistance)` with `bestDistance = none` standing for the initial
`Infinity`; an update happens only on a strictly smaller distance. -/
def chooseBestDegree (pc : ℤ) : ℕ × ℤ × Option ℕ :=
  (List.range' 1 7).foldl
    (fun best degree =>
      let scaleOffset := MAJOR_SCALE.getD (degree - 1) 0
      let accidental := foldAccidental pc scaleOffset
      let distance := accidental.natAbs
      match best with
      | (_, _, none) => (degree, accidental, some distance)
      | (bd, ba, some bdist) =>
          if distance < bdist then (degree, accidental, some distance)
          else (bd, ba, some bdist))
    (1, 0, none)

/-- `midiNoteToSpec(note, header)`. -/
def midiNoteToSpec (note : ℤ) (header : ScoreHeader) : NoteSpec :=
  let keyOffset := keyOffsetOf header.key
  let tonic := 12 * (header.octave + 1) + keyOffset
  let diff := note - tonic
  let octaveShift := Int.fdiv diff 12
  let pitchClass := ((diff.tmod 12) + 12).tmod 12
  let best := chooseBestDegree pitchClass
  { degree := best.1, octaveShift := octaveShift, accidental := best.2.1 }

/-! ## Spec-side description of the inverse mapper (for the refinement
claim C3).  This definition follows the specification's words, not the
source: fold each candidate into `(-6, 6]`, take the degree of minimal
`|accidental|`, break ties by the lowest degree. -/

/-- Modelled from the spec: candidate accidental folded into `(-6, 6]`
by a `±12` adjustment. -/
def specFoldAccidental (pc scaleOffset : ℤ) : ℤ :=
  let a := pc - scaleOffset
  if 6 < a then a - 12 else if a ≤ -6 then a + 12 else a

/-- Modelled from the spec: the list of candidate `(degree, accidental)`
pairs for degrees 1–7. -/
def specCandidates (pc : ℤ) : List (ℕ × ℤ) :=
  (List.range' 1 7).map
    (fun d => (d, specFoldAccidental pc (MAJOR_SCALE.getD (d - 1) 0)))

/-- Modelled from the spec: the first candidate (ascending degree order)
whose `|accidental|` is minimal among all candidates. -/
def specBestCandidate (pc : ℤ) : ℕ × ℤ :=
  ((specCandidates pc).find?
    (fun c => decide (∀ c' ∈ specCandidates pc, c.2.natAbs ≤ c'.2.natAbs))).getD (1, 0)

/-- Modelled from the spec: `absolutePitchToDegree`, the specification's
description of `midiNoteToSpec`. -/
def specMidiNoteToSpec (note : ℤ) (header : ScoreHeader) : NoteSpec :=
  let tonic := 12 * (header.octave + 1) + keyOffsetOf header.key
  let diff := note - tonic
  let octaveShift := Int.fdiv diff 12
  let pitchClass := (diff % 12 + 12) % 12
  let best := specBestCandidate pitchClass
  { degree := best.1, octaveShift := octaveShift, accidental := best.2 }

/-! ## Notation parser: character classes and `Number()` -/

/-- The JavaScript regex class `\s` (ASCII part; the notation grammar
and the claims use only ASCII whitespace). -/
def isJsSpace (c : Char) : Bool :=
  c = ' ' ∨ c = '\t' ∨ c = '\n' ∨ c = '\r' ∨ c = '\x0b' ∨ c = '\x0c'

/-- The regex class `[1-7]`. -/
def isDigit17 (c : Char) : Bool := '1' ≤ c ∧ c ≤ '7'

/-- The regex class `[A-Za-z]`. -/
def isAsciiLetter (c : Char) : Bool :=
  ('A' ≤ c ∧ c ≤ 'Z') ∨ ('a' ≤ c ∧ c ≤ 'z')

/-- `String.prototype.trim`. -/
def jsTrim (s : List Char) : List Char :=
  ((s.dropWhile isJsSpace).reverse.dropWhile isJsSpace).reverse

/-- Decimal digits to a natural number. -/
def digitsToNat (ds : List Char) : ℕ :=
  ds.foldl (fun acc d => 10 * acc + (d.toNat - '0'.toNat)) 0

/-- JavaScript `Number(string)`, on the decimal-literal forms
(`[+-]?digits`, `[+-]?digits.digits?`, `[+-]?.digits`); `none` is
`NaN`.  The source only ever feeds this whitespace-free `key=value`
values; exponent/hex/`Infinity` forms are not modelled. -/
def jsNumber (s : List Char) : Option ℚ :=
  let signAndRest : ℚ × List Char :=
    match s with
    | '+' :: t => (1, t)
    | '-' :: t => (-1, t)
    | t => (1, t)
  let sign := signAndRest.1
  let intPart := signAndRest.2.takeWhile Char.isDigit
  let rest2 := signAndRest.2.dropWhile Char.isDigit
  match rest2 with
  | [] =>
      if intPart = [] then none
      else some (sign * digitsToNat intPart)
  | '.' :: t =>
      let fracPart := t.takeWhile Char.isDigit
      let rest3 := t.dropWhile Char.isDigit
      if rest3 ≠ [] then none
      else if intPart = [] ∧ fracPart = [] then none
      else some (sign * ((digitsToNat intPart : ℚ) +
        (digitsToNat fracPart : ℚ) / (10 : ℚ) ^ fracPart.length))
  | _ => none

/-- `value.charAt(0).toUpperCase() + value.slice(1)`. -/
def jsCapitalize (s : List Char) : List Char :=
  match s with
  | [] => []
  | c :: t => c.toUpper :: t

/-- `INSTRUMENT_MAP = { piano: 0 }`. -/
def INSTRUMENT_MAP : List (List Char × ℕ) := [("piano".data, 0)]

/-! ## Notation parser: `parseHeader` -/

/-- The leading-header regex `/^\s*\[([^\]]+)\]/`: skip whitespace,
expect `[`, at least one non-`]` character, then `]`.  Returns the
bracket content and the remainder after `]`. -/
def matchHeaderBracket (s : List Char) : Option (List Char × List Char) :=
  let t := s.dropWhile isJsSpace
  match t with
  | '[' :: u =>
      let content := u.takeWhile (fun c => c ≠ ']')
      match u.dropWhile (fun c => c ≠ ']') with
      | ']' :: v => if content = [] then none else some (content, v)
      | _ => none
  | _ => none

/-- One attempt of the regex `([A-Za-z]+)\s*=\s*([^\s]+)` anchored at
the current position: a maximal letter run, optional spaces, `=`,
optional spaces and a maximal non-space run (the letter run has
nothing to backtrack into, since neither a space nor `=` is a
letter).  Returns the `(key, value)` match and the rest of the input
after it, or `none` when the position does not start a match. -/
def tryPairAt (l : List Char) : Option ((List Char × List Char) × List Char) :=
  match l with
  | [] => none
  | c :: _ =>
    if isAsciiLetter c then
      let key := l.takeWhile isAsciiLetter
      let r2 := (l.dropWhile isAsciiLetter).dropWhile isJsSpace
      match r2 with
      | '=' :: r3 =>
          let r4 := r3.dropWhile isJsSpace
          let val := r4.takeWhile (fun x => !isJsSpace x)
          if val = [] then none
          else some ((key, val), r4.dropWhile (fun x => !isJsSpace x))
      | _ => none
    else none

/-- The `matchAll(/([A-Za-z]+)\s*=\s*([^\s]+)/g)` scan: on failure the
search advances one character, on success it resumes after the match.
`fuel` only bounds the recursion; each step consumes at least one
character, so the wrapper's `length + 1` never runs out. -/
def findPairsGo : ℕ → List Char → List (List Char × List Char)
  | 0, _ => []
  | _, [] => []
  | fuel + 1, c :: t =>
    match tryPairAt (c :: t) with
    | some (kv, rest) => kv :: findPairsGo fuel rest
    | none => findPairsGo fuel t

def findPairs (s : List Char) : List (List Char × List Char) :=
  findPairsGo (s.length + 1) s

/-- One iteration of the `for (const [, keyRaw, valueRaw] of pairs)`
loop of `parseHeader`. -/
def applyHeaderPair (h : ScoreHeader) (kv : List Char × List Char) : ScoreHeader :=
  let key := kv.1.map Char.toLower
  let value := jsTrim kv.2
  if key = "key".data then
    { h with key := String.mk (jsCapitalize value) }
  else if key = "instr".data ∨ key = "program".data then
    match jsNumber value with
    | some n => { h with program := (clampZ (jsRound n) 0 127).toNat }
    | none =>
        match INSTRUMENT_MAP.lookup (value.map Char.toLower) with
        | some m => { h with program := m }
        | none => h
  else if key = "bpm".data then
    match jsNumber value with
    | some n => if 0 < n then { h with bpm := n } else h
    | none => h
  else if key = "vol".data then
    match jsNumber value with
    | some v =>
        if 0 < v then
          { h with volume := if 1 < v then clampQ (v / 127) 0 1 else clampQ v 0 1 }
        else h
    | none => h
  else if key = "oct".data then
    match jsNumber value with
    | some n => { h with octave := jsRound n }
    | none => h
  else h

/-- The positional fallback of `parseHeader` (no `key=value` pairs):
token 1 = key name, token 2 = program number, token 3 = BPM. -/
def applyPositional (h : ScoreHeader) (content : List Char) : ScoreHeader :=
  let tokens := (content.splitOnP isJsSpace).filter (fun t => t ≠ [])
  let h1 :=
    match tokens.get? 0 with
    | some t0 => { h with key := String.mk (jsCapitalize t0) }
    | none => h
  let h2 :=
    match tokens.get? 1 with
    | some t1 =>
        match jsNumber t1 with
        | some n => { h1 with program := (clampZ (jsRound n) 0 127).toNat }
        | none => h1
    | none => h1
  match tokens.get? 2 with
  | some t2 =>
      match jsNumber t2 with
      | some n => if 0 < n then { h2 with bpm := n } else h2
      | none => h2
  | none => h2

/-- `parseHeader(input)`: header and remaining input. -/
def parseHeader (input : List Char) : ScoreHeader × List Char :=
  match matchHeaderBracket input with
  | none => (DEFAULT_HEADER, input)
  | some (content, rest) =>
      let headerText := jsTrim content
      let pairs := findPairs headerText
      if pairs = [] then (applyPositional DEFAULT_HEADER headerText, rest)
      else (pairs.foldl applyHeaderPair DEFAULT_HEADER, rest)

/-! ## Notation parser: note bodies and durations -/

/-- The modifier loop inside `parseNoteSpecs` (chord bodies): `+`, `-`,
`#`, `b`, `_` accumulate; whitespace is skipped; anything else ends
the loop. -/
def chordMods : List Char → ℤ → ℤ → ℤ × ℤ × List Char
  | [], os, acc => (os, acc, [])
  | c :: t, os, acc =>
    if c = '+' then chordMods t (os + 1) acc
    else if c = '-' then chordMods t (os - 1) acc
    else if c = '#' then chordMods t os (acc + 1)
    else if c = 'b' then chordMods t os (acc - 1)
    else if c = '_' then chordMods t os (acc + 1)
    else if isJsSpace c then chordMods t os acc
    else (os, acc, c :: t)

/-- The modifier loop of the single-note branch of `parseScore`
(identical to `chordMods` except that whitespace ends the loop). -/
def noteMods : List Char → ℤ → ℤ → ℤ × ℤ × List Char
  | [], os, acc => (os, acc, [])
  | c :: t, os, acc =>
    if c = '+' then noteMods t (os + 1) acc
    else if c = '-' then noteMods t (os - 1) acc
    else if c = '#' then noteMods t os (acc + 1)
    else if c = 'b' then noteMods t os (acc - 1)
    else if c = '_' then noteMods t os (acc + 1)
    else (os, acc, c :: t)

/-- `parseNoteSpecs(segment)`: the notes of a chord body.  `fuel`
bounds the outer loop; each note consumes at least its degree digit,
so the wrapper's `length + 1` never runs out (the `fuel = 0` branch is
unreachable). -/
def parseNoteSpecsGo : ℕ → List Char → Except String (List NoteSpec)
  | _, [] => .ok []
  | 0, _ :: _ => .error "内部燃料耗尽"
  | fuel + 1, c :: t =>
    if isJsSpace c then parseNoteSpecsGo fuel t
    else if isDigit17 c then
      let degree := c.toNat - '0'.toNat
      let m := chordMods t 0 0
      match parseNoteSpecsGo fuel m.2.2 with
      | .ok notes => .ok (⟨degree, m.1, m.2.1⟩ :: notes)
      | .error e => .error e
    else .error "和弦内仅允许音符与音高修饰符"

def parseNoteSpecs (segment : List Char) : Except String (List NoteSpec) :=
  parseNoteSpecsGo (segment.length + 1) segment

/-- The `.`/`~` scan of `parseDuration` (dots and sustains accumulate
in any order until another character appears). -/
def durationChars : List Char → ℕ → ℕ → ℕ × ℕ × List Char
  | [], dots, sus => (dots, sus, [])
  | c :: t, dots, sus =>
    if c = '.' then durationChars t (dots + 1) sus
    else if c = '~' then durationChars t dots (sus + 1)
    else (dots, sus, c :: t)

/-- `parseDuration`: `1 * 1.5^dots + sustains` beats and the remaining
input.  (`Math.pow(1.5, n)` is exact in doubles for every dot count a
claim exercises; it is modelled exactly.) -/
def parseDuration (s : List Char) : ℚ × List Char :=
  let d := durationChars s 0 0
  (1 * (3 / 2 : ℚ) ^ d.1 + (d.2.1 : ℚ), d.2.2)

/-- `rest.indexOf(")", i + 1)` and the two slices around it: the chord
body before the first `)` and the remainder after it, or `none` when
there is no closing parenthesis. -/
def splitAtChordClose (t : List Char) : Option (List Char × List Char) :=
  let body := t.takeWhile (fun c => c ≠ ')')
  match t.dropWhile (fun c => c ≠ ')') with
  | ')' :: after => some (body, after)
  | _ => none

/-! ## Notation parser: `parseScore` -/

/-- The main event loop of `parseScore`.  Events are appended in
source order and every consumed duration is added to the running
`totalBeats`.  `fuel` bounds the loop; every iteration consumes at
least one character, so the wrapper's `length + 1` never runs out. -/
def parseScoreGo (header : ScoreHeader) :
    ℕ → List Char → List ScoreEvent → ℚ → Except String ParsedScore
  | _, [], events, total => .ok ⟨header, events, total⟩
  | 0, _ :: _, _, _ => .error "内部燃料耗尽"
  | fuel + 1, c :: t, events, total =>
    if isJsSpace c then parseScoreGo header fuel t events total
    else if c = '(' then
      match splitAtChordClose t with
      | none => .error "和弦缺少右括号 )"
      | some (body, after) =>
          match parseNoteSpecs body with
          | .error e => .error e
          | .ok notes =>
              if notes = [] then .error "和弦内必须包含至少一个音符"
              else
                let d := parseDuration after
                parseScoreGo header fuel d.2
                  (events ++ [⟨.chord, d.1, notes⟩]) (total + d.1)
    else if c = '0' then
      let d := parseDuration t
      parseScoreGo header fuel d.2 (events ++ [⟨.rest, d.1, []⟩]) (total + d.1)
    else if isDigit17 c then
      let degree := c.toNat - '0'.toNat
      let m := noteMods t 0 0
      let d := parseDuration m.2.2
      parseScoreGo header fuel d.2
        (events ++ [⟨.note, d.1, [⟨degree, m.1, m.2.1⟩]⟩]) (total + d.1)
    else .error "无法识别的符号"

/-- `parseScore(input)`. -/
def parseScore (input : String) : Except String ParsedScore :=
  let hr := parseHeader input.data
  parseScoreGo hr.1 (hr.2.length + 1) hr.2 [] 0

/-- The sum of the `durationBeats` of a list of events (the quantity
the `totalBeats` invariant is stated against). -/
def evSum (l : List ScoreEvent) : ℚ :=
  (l.map (fun e => e.durationBeats)).sum

/-! ## MIDI writer: `createMidiFile` -/

/-- The writer-internal `MidiEvent` record: absolute tick, tie-break
class, raw status+data bytes. -/
structure MidiEvent where
  tick : ℤ
  order : ℕ
  bytes : List ℕ
deriving Repr, DecidableEq

/-- `velocity = clamp(Math.round(header.volume * 127), 1, 127)`. -/
def velocityOf (header : ScoreHeader) : ℤ :=
  clampZ (jsRound (header.volume * 127)) 1 127

/-- `tempo = Math.round(60000000 / bpm)`. -/
def tempoOf (header : ScoreHeader) : ℤ :=
  jsRound (60000000 / header.bpm)

/-- The three tick-0 messages of `createMidiFile`: tempo meta
(`FF 51 03` + 24-bit big-endian µs-per-beat, via `>> 16`, `>> 8` and
`& 0xff` — exact for the non-negative, below-2³¹ tempi every header
with positive bpm produces), program change and channel-volume
controller. -/
def metaMessages (header : ScoreHeader) : List MidiEvent :=
  let tempo := (tempoOf header).toNat
  [{ tick := 0, order := 0,
     bytes := [0xff, 0x51, 0x03, tempo / 2 ^ 16 % 256, tempo / 2 ^ 8 % 256, tempo % 256] },
   { tick := 0, order := 1, bytes := [0xc0, header.program % 128] },
   { tick := 0, order := 2, bytes := [0xb0, 0x07, (velocityOf header).toNat] }]

/-- The per-event message loop of `createMidiFile`: rests only advance
the tick cursor; note and chord events emit a note-on (order 3) at the
event start and a note-off (order 0) at start + duration for each
resolved pitch. -/
def noteMessagesGo (header : ScoreHeader) (tpb : ℕ) :
    List ScoreEvent → ℤ → List MidiEvent
  | [], _ => []
  | e :: rest, tick =>
    let durationTicks := jsRound (e.durationBeats * tpb)
    match e.type with
    | .rest => noteMessagesGo header tpb rest (tick + durationTicks)
    | _ =>
        let vel := (velocityOf header).toNat
        (e.notes.flatMap (fun n =>
          let note := (degreeToMidi n.degree n.octaveShift n.accidental header).toNat
          [{ tick := tick, order := 3, bytes := [0x90, note, vel] },
           { tick := tick + durationTicks, order := 0, bytes := [0x80, note, 0] }])) ++
          noteMessagesGo header tpb rest (tick + durationTicks)

/-- The full (unsorted) `midiEvents` list of `createMidiFile`. -/
def midiEventsOf (header : ScoreHeader) (events : List ScoreEvent) (tpb : ℕ) :
    List MidiEvent :=
  metaMessages header ++ noteMessagesGo header tpb events 0

/-- The sort comparator `(a, b) => a.tick - b.tick || a.order - b.order`
as the `≤` relation it realises. -/
def midiEventLe (a b : MidiEvent) : Prop :=
  a.tick < b.tick ∨ (a.tick = b.tick ∧ a.order ≤ b.order)

instance : DecidableRel midiEventLe := fun a b => by
  unfold midiEventLe
  infer_instance

/-- `midiEvents.sort(...)`: `Array.prototype.sort` is stable, modelled
by the stable `List.insertionSort`. -/
def sortedMidiEvents (header : ScoreHeader) (events : List ScoreEvent) (tpb : ℕ) :
    List MidiEvent :=
  List.insertionSort midiEventLe (midiEventsOf header events tpb)

/-- The build loop of `writeVarLen`, restated as the big-endian 7-bit
groups it pushes (most significant first, continuation bit on all but
the last).  For values below 2²⁸ this is exactly the source's
`buffer`-packing loop; at 2²⁸ and beyond the source's 32-bit shifts
overflow and its emit loop does not terminate, so such values are
outside the model (no claim reaches them).  The fuel 5 covers every
value below 2³⁵. -/
def writeVarLenGo : ℕ → ℕ → List ℕ → List ℕ
  | 0, _, acc => acc
  | fuel + 1, v, acc =>
    if v = 0 then acc else writeVarLenGo fuel (v / 128) ((v % 128 + 128) :: acc)

def writeVarLen (value : ℕ) : List ℕ :=
  writeVarLenGo 5 (value / 128) [value % 128]

/-- The delta-encoding serialisation loop of `createMidiFile`.  On the
sorted message list ticks are non-decreasing, so `tick - lastTick` is
non-negative and `Int.toNat` is exact. -/
def deltaEncode : List MidiEvent → ℤ → List ℕ
  | [], _ => []
  | e :: rest, lastTick =>
      writeVarLen (e.tick - lastTick).toNat ++ e.bytes ++ deltaEncode rest e.tick

/-- The last message tick of a list, else a default: the `lastTick`
cursor `deltaEncode` carries (proof-side helper). -/
def lastTickOf : List MidiEvent → ℤ → ℤ
  | [], last => last
  | m :: rest, _ => lastTickOf rest m.tick

/-- `Buffer.writeUInt32BE`. -/
def uint32BE (n : ℕ) : List ℕ :=
  [n / 2 ^ 24 % 256, n / 2 ^ 16 % 256, n / 2 ^ 8 % 256, n % 256]

/-- `Buffer.writeUInt16BE`. -/
def uint16BE (n : ℕ) : List ℕ :=
  [n / 2 ^ 8 % 256, n % 256]

/-- The track byte stream: delta-encoded sorted messages plus the
end-of-track meta event `00 FF 2F 00`. -/
def trackDataOf (header : ScoreHeader) (events : List ScoreEvent) (tpb : ℕ) : List ℕ :=
  deltaEncode (sortedMidiEvents header events tpb) 0 ++ [0x00, 0xff, 0x2f, 0x00]

/-- `createMidiFile(header, events, ticksPerBeat = 480)`: `MThd` chunk
(length 6, format 0, one track, ticksPerBeat) followed by the single
`MTrk` chunk. -/
def createMidiFile (header : ScoreHeader) (events : List ScoreEvent)
    (tpb : ℕ := 480) : List ℕ :=
  let trackData := trackDataOf header events tpb
  ([0x4d, 0x54, 0x68, 0x64] ++ uint32BE 6 ++ uint16BE 0 ++ uint16BE 1 ++ uint16BE tpb) ++
    ([0x4d, 0x54, 0x72, 0x6b] ++ uint32BE trackData.length) ++ trackData

/-- `scoreToMidiBuffer(score)`. -/
def scoreToMidiBuffer (score : ParsedScore) : List ℕ :=
  createMidiFile score.header score.events

/-- "is a note-on message" (status byte `0x90`), as serialized. -/
def isNoteOnMsg (e : MidiEvent) : Prop := e.bytes.head? = some 0x90

/-- "is a note-off message" (status byte `0x80`), as serialized. -/
def isNoteOffMsg (e : MidiEvent) : Prop := e.bytes.head? = some 0x80

/-! ## MIDI reader: byte access, `readVarLen`, `parseMidiTrack` -/

/-- `data[offset]` on a `Uint8Array`: `none` is JavaScript's
`undefined` for an out-of-range read. -/
def jsByte (data : List ℕ) (offset : ℕ) : Option ℕ := data.get? offset

/-- `readUInt32BE(data, offset)`.  An out-of-range byte is `undefined`
in JavaScript; shifted and or-ed it contributes 0, exactly as `getD 0`
does. -/
def readUInt32BE (data : List ℕ) (offset : ℕ) : ℕ :=
  (data.getD offset 0) * 2 ^ 24 + (data.getD (offset + 1) 0) * 2 ^ 16 +
    (data.getD (offset + 2) 0) * 2 ^ 8 + data.getD (offset + 3) 0

/-- The inline `(data[o] << 8) | data[o + 1]` reads of
`parseMidiBuffer` (same `undefined`-contributes-0 remark). -/
def readUInt16BE (data : List ℕ) (offset : ℕ) : ℕ :=
  (data.getD offset 0) * 2 ^ 8 + data.getD (offset + 1) 0

/-- The `readVarLen` loop over the remaining bytes: accumulate 7-bit
groups until a byte with a clear continuation bit, or the end of the
whole buffer (the loop is bounded by `data.length`, not by the current
track).  Returns the value and the number of bytes consumed. -/
def readVarLenGo : List ℕ → ℕ → ℕ → ℕ × ℕ
  | [], value, consumed => (value, consumed)
  | b :: t, value, consumed =>
      let value' := value * 128 + (b &&& 0x7f)
      if b &&& 0x80 = 0 then (value', consumed + 1)
      else readVarLenGo t value' (consumed + 1)

/-- `readVarLen(data, offset)`: `{ value, next }`. -/
def readVarLen (data : List ℕ) (offset : ℕ) : ℕ × ℕ :=
  let r := readVarLenGo (data.drop offset) 0 0
  (r.1, offset + r.2)

/-- The reader's `MidiNoteEvent`.  `note` and `velocity` are the raw
`data1`/`data2` reads and can in principle be `undefined` (a message
truncated at the very end of the buffer); they are therefore
`Option ℕ`. -/
structure MidiNoteEvent where
  startTick : ℕ
  endTick : ℕ
  note : Option ℕ
  velocity : Option ℕ
deriving Repr, DecidableEq

/-- The mutable state of the `parseMidiTrack` loop.  `runningStatus`
starts as the number 0 and becomes `none` (`undefined`) if a status
read ever falls off the end of the buffer.  `active` is the
`activeNotes` map, keyed by `(channel, note)` — the JavaScript string
key `` `${channel}-${note}` `` is injective on these pairs (`note` may
be `undefined`, which collides with no number). -/
structure TrackState where
  offset : ℕ
  tick : ℕ
  runningStatus : Option ℕ
  program : ℕ
  volume : ℚ
  tempo : ℕ
  active : List ((ℕ × Option ℕ) × ℕ × Option ℕ)
  noteEvents : List MidiNoteEvent
deriving Repr, DecidableEq

/-- `Map.get`. -/
def activeGet : List ((ℕ × Option ℕ) × ℕ × Option ℕ) → ℕ × Option ℕ → Option (ℕ × Option ℕ)
  | [], _ => none
  | (k', v') :: t, k => if k' = k then some v' else activeGet t k

/-- `Map.set` (keys stay unique; an existing key is updated in
place). -/
def activeSet (m : List ((ℕ × Option ℕ) × ℕ × Option ℕ)) (k : ℕ × Option ℕ)
    (v : ℕ × Option ℕ) : List ((ℕ × Option ℕ) × ℕ × Option ℕ) :=
  match m with
  | [] => [(k, v)]
  | (k', v') :: t => if k' = k then (k, v) :: t else (k', v') :: activeSet t k v

/-- `Map.delete`. -/
def activeDelete : List ((ℕ × Option ℕ) × ℕ × Option ℕ) → ℕ × Option ℕ →
    List ((ℕ × Option ℕ) × ℕ × Option ℕ)
  | [], _ => []
  | (k', v') :: t, k => if k' = k then t else (k', v') :: activeDelete t k

/-- One-shot description of the `while (offset < trackEnd)` loop of
`parseMidiTrack`.  Notable JavaScript corners, modelled faithfully:

* a status read past the end of the buffer yields `undefined`, which
  fails the `< 0x80` test, becomes the running status, fails every
  status comparison, has `eventType` 0 (`undefined & 0xf0`) and falls
  through to the two-byte default skip;
* a data byte read with an `undefined` running status behaves the same
  way except that no status byte is consumed;
* a `note-on` with `velocity === 0` closes the `(channel, note)` key
  only when it is open; a plain note-off does the same; in both cases
  a missing open entry is silently ignored;
* `program = data1` and the volume division read `data1`/`data2` as
  numbers; the `undefined` case (message truncated at the very end of
  the data) is modelled as byte 0 — no claim reaches a truncated
  program/controller message;
* the end-of-track meta `FF 2F` is an ordinary meta event.

Each iteration advances `offset` by at least one byte, so the
wrapper's fuel `trackLength + 1` never runs out (`fuel = 0` returns
the state unchanged, like reaching `trackEnd`). -/
def parseMidiTrackGo (data : List ℕ) (trackEnd : ℕ) : ℕ → TrackState → TrackState
  | 0, st => st
  | fuel + 1, st =>
    if st.offset ≥ trackEnd then st
    else
      let delta := readVarLen data st.offset
      let offset1 := delta.2
      let tick1 := st.tick + delta.1
      match jsByte data offset1 with
      | none =>
          parseMidiTrackGo data trackEnd fuel
            { st with offset := offset1 + 3, tick := tick1, runningStatus := none }
      | some b =>
          let so : Option ℕ × ℕ :=
            if b < 0x80 then (st.runningStatus, offset1) else (some b, offset1 + 1)
          let status := so.1
          let offset2 := so.2
          match status with
          | none =>
              parseMidiTrackGo data trackEnd fuel
                { st with offset := offset2 + 2, tick := tick1, runningStatus := none }
          | some s =>
              if s = 0xff then
                let metaType := jsByte data offset2
                let li := readVarLen data (offset2 + 1)
                let metaData := (data.drop li.2).take li.1
                let tempo' :=
                  if metaType = some 0x51 ∧ metaData.length = 3 then
                    (metaData.getD 0 0) * 2 ^ 16 + (metaData.getD 1 0) * 2 ^ 8 +
                      metaData.getD 2 0
                  else st.tempo
                parseMidiTrackGo data trackEnd fuel
                  { st with
                    offset := li.2 + li.1
                    tick := tick1
                    runningStatus := some s
                    tempo := tempo' }
              else if s = 0xf0 ∨ s = 0xf7 then
                let li := readVarLen data offset2
                parseMidiTrackGo data trackEnd fuel
                  { st with
                    offset := li.2 + li.1
                    tick := tick1
                    runningStatus := some s }
              else
                let eventType := s &&& 0xf0
                let channel := s &&& 0x0f
                let d1 := jsByte data offset2
                let d2 := jsByte data (offset2 + 1)
                if eventType = 0xc0 then
                  parseMidiTrackGo data trackEnd fuel
                    { st with
                      offset := offset2 + 1
                      tick := tick1
                      runningStatus := some s
                      program := d1.getD 0 }
                else if eventType = 0xb0 then
                  let volume' :=
                    if d1 = some 0x07 then clampQ ((d2.getD 0 : ℚ) / 127) 0 1
                    else st.volume
                  parseMidiTrackGo data trackEnd fuel
                    { st with
                      offset := offset2 + 2
                      tick := tick1
                      runningStatus := some s
                      volume := volume' }
                else if eventType = 0x90 then
                  if d2 = some 0 then
                    match activeGet st.active (channel, d1) with
                    | some a =>
                        parseMidiTrackGo data trackEnd fuel
                          { st with
                            offset := offset2 + 2
                            tick := tick1
                            runningStatus := some s
                            active := activeDelete st.active (channel, d1)
                            noteEvents := st.noteEvents ++
                              [{ startTick := a.1, endTick := tick1, note := d1,
                                 velocity := a.2 }] }
                    | none =>
                        parseMidiTrackGo data trackEnd fuel
                          { st with
                            offset := offset2 + 2
                            tick := tick1
                            runningStatus := some s }
                  else
                    parseMidiTrackGo data trackEnd fuel
                      { st with
                        offset := offset2 + 2
                        tick := tick1
                        runningStatus := some s
                        active := activeSet st.active (channel, d1) (tick1, d2) }
                else if eventType = 0x80 then
                  match activeGet st.active (channel, d1) with
                  | some a =>
                      parseMidiTrackGo data trackEnd fuel
                        { st with
                          offset := offset2 + 2
                          tick := tick1
                          runningStatus := some s
                          active := activeDelete st.active (channel, d1)
                          noteEvents := st.noteEvents ++
                            [{ startTick := a.1, endTick := tick1, note := d1,
                               velocity := a.2 }] }
                  | none =>
                      parseMidiTrackGo data trackEnd fuel
                        { st with
                          offset := offset2 + 2
                          tick := tick1
                          runningStatus := some s }
                else
                  parseMidiTrackGo data trackEnd fuel
                    { st with
                      offset := offset2 +
                        (if eventType = 0xc0 ∨ eventType = 0xd0 then 1 else 2)
                      tick := tick1
                      runningStatus := some s }

/-- The record `parseMidiTrack` returns. -/
structure TrackResult where
  program : ℕ
  volume : ℚ
  noteEvents : List MidiNoteEvent
  tempo : ℕ
deriving Repr, DecidableEq

/-- `parseMidiTrack(data, offset, trackLength, tempoHint)`.  Only the
accumulated `noteEvents` are returned; whatever is still pending in
`activeNotes` at the end of the track is discarded. -/
def parseMidiTrack (data : List ℕ) (offset trackLength tempoHint : ℕ) : TrackResult :=
  let st := parseMidiTrackGo data (offset + trackLength) (trackLength + 1)
    { offset := offset, tick := 0, runningStatus := some 0, program := 0,
      volume := 0.8, tempo := tempoHint, active := [], noteEvents := [] }
  { program := st.program, volume := st.volume, noteEvents := st.noteEvents,
    tempo := st.tempo }

/-! ## MIDI reader: `parseMidiBuffer` -/

/-- What `parseMidiBuffer` pushes per track (the track-local tempo is
dropped). -/
structure ParsedMidiTrack where
  program : ℕ
  volume : ℚ
  noteEvents : List MidiNoteEvent
deriving Repr, DecidableEq

structure ParsedMidiData where
  ticksPerBeat : ℕ
  tempo : ℕ
  tracks : List ParsedMidiTrack
deriving Repr, DecidableEq

/-- The `for (trackIndex = 0; trackIndex < numTracks; ...)` loop of
`parseMidiBuffer`, structurally recursive on the remaining track
count.  Only track 0's parsed tempo replaces the file tempo. -/
def parseTracksGo (data : List ℕ) :
    ℕ → ℕ → ℕ → ℕ → List ParsedMidiTrack → Except String (ℕ × List ParsedMidiTrack)
  | 0, _, _, tempo, acc => .ok (tempo, acc)
  | remaining + 1, trackIndex, offset, tempo, acc =>
      if (data.drop offset).take 4 = [0x4d, 0x54, 0x72, 0x6b] then
        let trackLength := readUInt32BE data (offset + 4)
        let parsed := parseMidiTrack data (offset + 8) trackLength tempo
        let tempo' := if trackIndex = 0 then parsed.tempo else tempo
        parseTracksGo data remaining (trackIndex + 1) (offset + 8 + trackLength) tempo'
          (acc ++ [{ program := parsed.program, volume := parsed.volume,
                     noteEvents := parsed.noteEvents }])
      else .error "MIDI 轨道头无效"

/-- `parseMidiBuffer(midiBuffer)`.  The `MThd` magic, the declared
track count and each expected `MTrk` magic are checked; a track's
declared byte length is *not* checked against the buffer size. -/
def parseMidiBuffer (data : List ℕ) : Except String ParsedMidiData :=
  if data.take 4 = [0x4d, 0x54, 0x68, 0x64] then
    let headerLength := readUInt32BE data 4
    let numTracks := readUInt16BE data 10
    let ticksPerBeat := readUInt16BE data 12
    if numTracks < 1 then .error "MIDI 轨道数量无效"
    else
      match parseTracksGo data numTracks 0 (8 + headerLength) 500000 [] with
      | .error e => .error e
      | .ok r => .ok { ticksPerBeat := ticksPerBeat, tempo := r.1, tracks := r.2 }
  else .error "MIDI 文件头无效"

/-! ## Score reconstructor: `buildScoreFromNoteEvents`, `midiToScores` -/

/-- `quantizeBeats(beats) = Math.max(0.5, Math.round(beats * 2) / 2)`. -/
def quantizeBeats (beats : ℚ) : ℚ :=
  max (1 / 2) ((jsRound (beats * 2) : ℚ) / 2)

/-- Insert a note event into the `grouped` map (`Map.set` with
append-on-new-key insertion order; the string key
`` `${startTick}-${endTick}` `` is injective on pairs of naturals and
is modelled as the pair). -/
def groupInsert (m : List ((ℕ × ℕ) × List MidiNoteEvent)) (k : ℕ × ℕ)
    (e : MidiNoteEvent) : List ((ℕ × ℕ) × List MidiNoteEvent) :=
  match m with
  | [] => [(k, [e])]
  | (k', l) :: t => if k' = k then (k', l ++ [e]) :: t else (k', l) :: groupInsert t k e

/-- `grouped.get(key) ?? []`. -/
def groupGet : List ((ℕ × ℕ) × List MidiNoteEvent) → ℕ × ℕ → List MidiNoteEvent
  | [], _ => []
  | (k', l) :: t, k => if k' = k then l else groupGet t k

/-- The `grouped` map of `buildScoreFromNoteEvents` (built over
`normalizeNoteEvents`, which is the identity). -/
def groupedOf (noteEvents : List MidiNoteEvent) :
    List ((ℕ × ℕ) × List MidiNoteEvent) :=
  noteEvents.foldl (fun m e => groupInsert m (e.startTick, e.endTick) e) []

/-- `timePoints`: the map keys in insertion order, sorted by
`startTick` ascending (stable). -/
def timePointsOf (g : List ((ℕ × ℕ) × List MidiNoteEvent)) : List (ℕ × ℕ) :=
  List.insertionSort (fun a b : ℕ × ℕ => a.1 ≤ b.1) (g.map Prod.fst)

/-- The comparator `(a, b) => a.note - b.note` as a relation.  When
either note is `undefined` the comparator yields `NaN`, which
`Array.prototype.sort` treats as 0 (equal); such events never reach
this sort for any input a claim evaluates. -/
def noteLe (a b : MidiNoteEvent) : Prop :=
  match a.note, b.note with
  | some x, some y => x ≤ y
  | _, _ => True

instance : DecidableRel noteLe := fun a b => by
  unfold noteLe
  exact match a.note, b.note with
  | some _, some _ => inferInstanceAs (Decidable (_ ≤ _))
  | some _, none => inferInstanceAs (Decidable True)
  | none, some _ => inferInstanceAs (Decidable True)
  | none, none => inferInstanceAs (Decidable True)

/-- `midiNoteToSpec(noteEvent.note, header)`.  For an `undefined` note
the JavaScript arithmetic produces `NaN` throughout and the loop never
updates its initial best, returning degree 1, accidental 0 and a `NaN`
octave shift (which prints as no octave marks, exactly like 0); the
`none` case is modelled as that value. -/
def noteEventToSpec (e : MidiNoteEvent) (header : ScoreHeader) : NoteSpec :=
  match e.note with
  | some n => midiNoteToSpec n header
  | none => { degree := 1, octaveShift := 0, accidental := 0 }

/-- The `for (const timePoint of timePoints)` loop of
`buildScoreFromNoteEvents`: emit a quantized rest for a positive gap,
then the group's event (a chord when it holds more than one note,
notes sorted by ascending MIDI pitch before spelling), accumulating
`totalBeats` and moving the cursor to the group's `endTick`. -/
def buildGo (header : ScoreHeader) (tpb : ℕ)
    (g : List ((ℕ × ℕ) × List MidiNoteEvent)) :
    List (ℕ × ℕ) → ℕ → ℚ → List ScoreEvent → List ScoreEvent × ℚ
  | [], _, total, evs => (evs, total)
  | tp :: rest, currentTick, total, evs =>
      let gap : List ScoreEvent × ℚ :=
        if currentTick < tp.1 then
          let restBeats := quantizeBeats (((tp.1 : ℚ) - currentTick) / tpb)
          ([{ type := .rest, durationBeats := restBeats, notes := [] }], restBeats)
        else ([], 0)
      let notes := groupGet g tp
      let durationBeats := quantizeBeats (((tp.2 : ℚ) - tp.1) / tpb)
      let noteSpecs := (List.insertionSort noteLe notes).map
        (fun e => noteEventToSpec e header)
      let ev : ScoreEvent :=
        { type := if 1 < noteSpecs.length then .chord else .note,
          durationBeats := durationBeats, notes := noteSpecs }
      buildGo header tpb g rest tp.2 (total + gap.2 + durationBeats)
        (evs ++ gap.1 ++ [ev])

/-- `buildScoreFromNoteEvents(noteEvents, header, ticksPerBeat)`. -/
def buildScoreFromNoteEvents (noteEvents : List MidiNoteEvent)
    (header : ScoreHeader) (ticksPerBeat : ℕ) : ParsedScore :=
  let g := groupedOf noteEvents
  let r := buildGo header ticksPerBeat g (timePointsOf g) 0 0 []
  { header := header, events := r.1, totalBeats := r.2 }

/-! ## Verification-side views of the writer's message stream (used by
the round-trip proof).  These are not source functions: they name the
pieces the proofs compare the source functions against. -/

/-- The tick length of one event, `Math.round(durationBeats * 480)`. -/
def durTicksOf (e : ScoreEvent) : ℤ := jsRound (e.durationBeats * 480)

/-- The resolved pitch byte of a note. -/
def pitchByteOf (header : ScoreHeader) (n : NoteSpec) : ℕ :=
  (degreeToMidi n.degree n.octaveShift n.accidental header).toNat

/-- The velocity byte of a header. -/
def velByteOf (header : ScoreHeader) : ℕ := (velocityOf header).toNat

/-- A note-on message as the writer builds it. -/
def onMsg (header : ScoreHeader) (t : ℤ) (n : NoteSpec) : MidiEvent :=
  { tick := t, order := 3, bytes := [0x90, pitchByteOf header n, velByteOf header] }

/-- A note-off message as the writer builds it. -/
def offMsg (header : ScoreHeader) (t : ℤ) (n : NoteSpec) : MidiEvent :=
  { tick := t, order := 0, bytes := [0x80, pitchByteOf header n, 0] }

/-- The writer's message stream *after* sorting, stated directly: per
event, all note-ons at the start tick followed by all note-offs at the
end tick; blocks in event order. -/
def sortedMsgs (header : ScoreHeader) : List ScoreEvent → ℤ → List MidiEvent
  | [], _ => []
  | e :: rest, t =>
      (if e.type = .rest then [] else
        e.notes.map (onMsg header t) ++
          e.notes.map (offMsg header (t + durTicksOf e))) ++
        sortedMsgs header rest (t + durTicksOf e)

/-- The note events the reader recovers from the writer's stream: one
per non-rest note, spanning the event's tick interval. -/
def expectedNotes (header : ScoreHeader) : List ScoreEvent → ℤ → List MidiNoteEvent
  | [], _ => []
  | e :: rest, t =>
      (if e.type = .rest then [] else
        e.notes.map (fun n =>
          { startTick := t.toNat, endTick := (t + durTicksOf e).toNat,
            note := some (pitchByteOf header n),
            velocity := some (velByteOf header) })) ++
        expectedNotes header rest (t + durTicksOf e)

/-- The grouped map `buildScoreFromNoteEvents` builds over the expected
note events, in closed form: one entry per non-rest event (proof-side
helper). -/
def groupedBlocks (header : ScoreHeader) : List ScoreEvent → ℤ →
    List ((ℕ × ℕ) × List MidiNoteEvent)
  | [], _ => []
  | e :: rest, t =>
      (if e.type = .rest then [] else
        [((t.toNat, (t + durTicksOf e).toNat),
          e.notes.map (fun n =>
            { startTick := t.toNat, endTick := (t + durTicksOf e).toNat,
              note := some (pitchByteOf header n),
              velocity := some (velByteOf header) }))]) ++
        groupedBlocks header rest (t + durTicksOf e)

/-- `midiToScores(midiBuffer)`.  The reconstruction header fixes key C
and octave 4; `bpm = max(30, round(60000000 / tempo))` (a zero tempo
gives `Infinity` in JavaScript — no parsed file with a tempo meta
event produces one; the model's division by zero yields 30). -/
def midiToScores (data : List ℕ) : Except String (List ParsedScore) :=
  match parseMidiBuffer data with
  | .error e => .error e
  | .ok d =>
      let bpm : ℚ := ((max 30 (jsRound ((60000000 : ℚ) / (d.tempo : ℚ)))) : ℤ)
      .ok (d.tracks.map (fun track =>
        buildScoreFromNoteEvents track.noteEvents
          { key := "C", bpm := bpm, volume := track.volume, octave := 4,
            program := track.program } d.ticksPerBeat))

end MusicBox

namespace MusicBox

/-! # Theorems -/

/-! ## Arithmetic bridge lemmas -/

theorem neg_tmod_twelve (d : ℤ) : (-d).tmod 12 = -(d.tmod 12) := by
  rw [Int.tmod_def, Int.tmod_def, Int.neg_tdiv]
  ring

theorem tmod_chain_eq_emod (d : ℤ) : ((d.tmod 12) + 12).tmod 12 = d % 12 := by
  have h1 : d.tmod 12 + 12 * d.tdiv 12 = d := Int.tmod_add_tdiv d 12
  have h2 : d.tmod 12 < 12 := Int.tmod_lt_of_pos d (by norm_num)
  have h3 : -12 < d.tmod 12 := by
    have h := Int.tmod_lt_of_pos (-d) (b := 12) (by norm_num)
    rw [neg_tmod_twelve] at h
    omega
  have h4 : (0 : ℤ) ≤ d.tmod 12 + 12 := by omega
  rw [Int.tmod_eq_emod h4 (by norm_num)]
  omega

theorem emod_chain_eq_emod (d : ℤ) : (d % 12 + 12) % 12 = d % 12 := by
  omega

theorem pitchClass_nonneg (d : ℤ) : 0 ≤ d % 12 := Int.emod_nonneg d (by norm_num)

theorem pitchClass_lt (d : ℤ) : d % 12 < 12 := Int.emod_lt_of_pos d (by norm_num)

/-! ## C10, C3, C9, C2: properties of the pitch mapper -/

theorem chooseBest_range :
    ∀ pc : ℤ, 0 ≤ pc → pc < 12 →
      1 ≤ (chooseBestDegree pc).1 ∧ (chooseBestDegree pc).1 ≤ 7 ∧
      ((chooseBestDegree pc).2.1 = -1 ∨ (chooseBestDegree pc).2.1 = 0 ∨
        (chooseBestDegree pc).2.1 = 1) := by
  intro pc h0 h12
  interval_cases pc <;> decide

theorem midiNoteToSpec_eq_chooseBest (note : ℤ) (header : ScoreHeader) :
    midiNoteToSpec note header =
      { degree := (chooseBestDegree ((note - (12 * (header.octave + 1) +
            keyOffsetOf header.key)) % 12)).1,
        octaveShift := (note - (12 * (header.octave + 1) +
            keyOffsetOf header.key)) / 12,
        accidental := (chooseBestDegree ((note - (12 * (header.octave + 1) +
            keyOffsetOf header.key)) % 12)).2.1 } := by
  simp only [midiNoteToSpec]
  rw [tmod_chain_eq_emod, Int.fdiv_eq_ediv _ (by norm_num)]

/-- C10: for every MIDI pitch and every header, the `NoteSpec` returned
by `midiNoteToSpec` has a degree in `[1, 7]` and an accidental in
`{-1, 0, 1}`: every pitch class lies within one semitone of a
major-scale tone, so reconstructed notation never contains a double
sharp or double flat. -/
theorem c10_midiNoteToSpec_degree_accidental_range (note : ℤ) (header : ScoreHeader) :
    1 ≤ (midiNoteToSpec note header).degree ∧
    (midiNoteToSpec note header).degree ≤ 7 ∧
    ((midiNoteToSpec note header).accidental = -1 ∨
      (midiNoteToSpec note header).accidental = 0 ∨
      (midiNoteToSpec note header).accidental = 1) := by
  rw [midiNoteToSpec_eq_chooseBest]
  exact chooseBest_range _ (pitchClass_nonneg _) (pitchClass_lt _)

theorem specMidi_eq_chooseBest_aux :
    ∀ pc : ℤ, 0 ≤ pc → pc < 12 →
      specBestCandidate pc = ((chooseBestDegree pc).1, (chooseBestDegree pc).2.1) := by
  intro pc h0 h12
  interval_cases pc <;> decide

/-- C3: for every MIDI pitch and header, `midiNoteToSpec` agrees with
the specification's description: `octaveShift = ⌊(pitch − tonic)/12⌋`,
`pitchClass = ((pitch − tonic) mod 12 + 12) mod 12`, and the returned
degree/accidental pair is the first (lowest-degree) candidate of
minimal `|accidental|` among the seven candidates folded into
`(-6, 6]`. -/
theorem c3_midiNoteToSpec_matches_spec (note : ℤ) (header : ScoreHeader) :
    midiNoteToSpec note header = specMidiNoteToSpec note header := by
  rw [midiNoteToSpec_eq_chooseBest]
  simp only [specMidiNoteToSpec]
  rw [emod_chain_eq_emod, Int.fdiv_eq_ediv _ (by norm_num)]
  rw [specMidi_eq_chooseBest_aux _ (pitchClass_nonneg _) (pitchClass_lt _)]

theorem chooseBest_reconstructs :
    ∀ pc : ℤ, 0 ≤ pc → pc < 12 →
      MAJOR_SCALE.getD ((chooseBestDegree pc).1 - 1) 0 + (chooseBestDegree pc).2.1 = pc := by
  intro pc h0 h12
  interval_cases pc <;> decide

theorem degreeToMidi_of_pitch_eq (degree : ℕ) (octaveShift accidental : ℤ)
    (header : ScoreHeader) (p : ℤ) (hlo : 0 ≤ p) (hhi : p ≤ 127)
    (hraw : degreeToMidiRaw degree octaveShift accidental header = p) :
    degreeToMidi degree octaveShift accidental header = p := by
  unfold degreeToMidi clampZ
  rw [hraw]
  omega

/-- C9: for every MIDI pitch `p ∈ [0, 127]` and every header whose key
is in the key table, applying `degreeToMidi` to the degree, octave
shift and accidental returned by `midiNoteToSpec p header` (with the
same header) returns exactly `p`: the lossy inverse loses the spelling
but never the absolute pitch. -/
theorem c9_degreeToMidi_midiNoteToSpec_roundtrip (p : ℤ) (header : ScoreHeader)
    (hlo : 0 ≤ p) (hhi : p ≤ 127) (_hkey : (KEY_OFFSETS.lookup header.key).isSome) :
    degreeToMidi (midiNoteToSpec p header).degree
      (midiNoteToSpec p header).octaveShift
      (midiNoteToSpec p header).accidental header = p := by
  rw [midiNoteToSpec_eq_chooseBest]
  apply degreeToMidi_of_pitch_eq _ _ _ _ _ hlo hhi
  simp only [degreeToMidiRaw]
  generalize 12 * (header.octave + 1) + keyOffsetOf header.key = tonic
  have hrec := chooseBest_reconstructs ((p - tonic) % 12)
    (pitchClass_nonneg _) (pitchClass_lt _)
  have hdm : (p - tonic) % 12 + 12 * ((p - tonic) / 12) = p - tonic :=
    Int.emod_add_ediv (p - tonic) 12
  omega

theorem scale_getD_bounds (d : ℕ) (h1 : 1 ≤ d) (h7 : d ≤ 7) :
    0 ≤ MAJOR_SCALE.getD (d - 1) 0 ∧ MAJOR_SCALE.getD (d - 1) 0 < 12 := by
  interval_cases d <;> decide

theorem chooseBest_at_scale (d : ℕ) (h1 : 1 ≤ d) (h7 : d ≤ 7) :
    chooseBestDegree (MAJOR_SCALE.getD (d - 1) 0) = (d, 0, some 0) := by
  interval_cases d <;> decide

theorem degreeToMidi_eq_raw (degree : ℕ) (octaveShift accidental : ℤ)
    (header : ScoreHeader)
    (hlo : 0 ≤ degreeToMidiRaw degree octaveShift accidental header)
    (hhi : degreeToMidiRaw degree octaveShift accidental header ≤ 127) :
    degreeToMidi degree octaveShift accidental header =
      degreeToMidiRaw degree octaveShift accidental header := by
  unfold degreeToMidi clampZ
  omega

/-- The exact inverse property for in-scale notes: a degree with no
accidental maps back to itself (with the same octave shift) whenever
the forward pitch needs no clamping. -/
theorem spec_roundtrip_in_scale (degree : ℕ) (octaveShift : ℤ)
    (header : ScoreHeader) (hd1 : 1 ≤ degree) (hd7 : degree ≤ 7)
    (hlo : 0 ≤ degreeToMidiRaw degree octaveShift 0 header)
    (hhi : degreeToMidiRaw degree octaveShift 0 header ≤ 127) :
    midiNoteToSpec (degreeToMidi degree octaveShift 0 header) header =
      { degree := degree, octaveShift := octaveShift, accidental := 0 } := by
  rw [degreeToMidi_eq_raw _ _ _ _ hlo hhi, midiNoteToSpec_eq_chooseBest]
  have hsc := scale_getD_bounds degree hd1 hd7
  have hdiff : degreeToMidiRaw degree octaveShift 0 header -
      (12 * (header.octave + 1) + keyOffsetOf header.key) =
      MAJOR_SCALE.getD (degree - 1) 0 + octaveShift * 12 := by
    simp only [degreeToMidiRaw]
    ring
  rw [hdiff]
  have hmod : (MAJOR_SCALE.getD (degree - 1) 0 + octaveShift * 12) % 12 =
      MAJOR_SCALE.getD (degree - 1) 0 := by omega
  have hdiv : (MAJOR_SCALE.getD (degree - 1) 0 + octaveShift * 12) / 12 =
      octaveShift := by omega
  rw [hmod, hdiv, chooseBest_at_scale degree hd1 hd7]

/-- C2 counterexample: at degree 2, octave shift 0, accidental −1 and
the default header, the forward pitch is 61 (within `[0, 127]`), yet
`midiNoteToSpec` returns degree 1 with accidental +1, not the original
`(2, 0, -1)`: the claimed exact round trip for accidentals in
`{-1, 0, 1}` fails. -/
theorem c2_counterexample :
    degreeToMidiRaw 2 0 (-1) DEFAULT_HEADER = 61 ∧
    (0 : ℤ) ≤ 61 ∧ (61 : ℤ) ≤ 127 ∧
    midiNoteToSpec (degreeToMidi 2 0 (-1) DEFAULT_HEADER) DEFAULT_HEADER =
      { degree := 1, octaveShift := 0, accidental := 1 } ∧
    ({ degree := 1, octaveShift := 0, accidental := 1 } : NoteSpec) ≠
      { degree := 2, octaveShift := 0, accidental := -1 } := by
  refine ⟨by decide, by decide, by decide, by decide, by decide⟩

/-- C2 (amended): for every degree in 1–7, every octave shift and
accidental, and every header whose key is in the key table, provided
the forward pitch lies in `[0, 127]` before clamping, the `NoteSpec`
returned by `midiNoteToSpec` at that pitch has `|accidental'| ≤
|accidental|`; and for accidental = 0 and octave shift 0 the round trip
is exact.  (The original claim's exactness for accidentals ±1 is
refuted by `c2_counterexample`.) -/
theorem c2_amended_spelling_no_worse (degree : ℕ) (octaveShift accidental : ℤ)
    (header : ScoreHeader) (hd1 : 1 ≤ degree) (hd7 : degree ≤ 7)
    (_hkey : (KEY_OFFSETS.lookup header.key).isSome)
    (hlo : 0 ≤ degreeToMidiRaw degree octaveShift accidental header)
    (hhi : degreeToMidiRaw degree octaveShift accidental header ≤ 127) :
    (midiNoteToSpec (degreeToMidi degree octaveShift accidental header)
        header).accidental.natAbs ≤ accidental.natAbs ∧
    (accidental = 0 → octaveShift = 0 →
      midiNoteToSpec (degreeToMidi degree octaveShift accidental header) header =
        { degree := degree, octaveShift := 0, accidental := 0 }) := by
  constructor
  · by_cases hacc : accidental = 0
    · subst hacc
      rw [spec_roundtrip_in_scale degree octaveShift header hd1 hd7 hlo hhi]
    · have h10 := c10_midiNoteToSpec_degree_accidental_range
        (degreeToMidi degree octaveShift accidental header) header
      have h1 : (midiNoteToSpec (degreeToMidi degree octaveShift accidental header)
          header).accidental.natAbs ≤ 1 := by
        rcases h10.2.2 with h | h | h <;> rw [h] <;> decide
      have h2 : 1 ≤ accidental.natAbs := by
        omega
      omega
  · intro hacc hos
    subst hacc
    subst hos
    exact spec_roundtrip_in_scale degree 0 header hd1 hd7 hlo hhi

/-- C2 witness: the amended theorem applied at degree 3, octave shift
0, accidental 0 with the default header. -/
theorem c2_witness :
    (midiNoteToSpec (degreeToMidi 3 0 0 DEFAULT_HEADER)
        DEFAULT_HEADER).accidental.natAbs ≤ (0 : ℤ).natAbs ∧
    ((0 : ℤ) = 0 → (0 : ℤ) = 0 →
      midiNoteToSpec (degreeToMidi 3 0 0 DEFAULT_HEADER) DEFAULT_HEADER =
        { degree := 3, octaveShift := 0, accidental := 0 }) :=
  c2_amended_spelling_no_worse 3 0 0 DEFAULT_HEADER (by decide) (by decide)
    (by decide) (by decide) (by decide)

/-! ## The parser keeps `totalBeats` in step with its events (for C5) -/

theorem evSum_append_one (l : List ScoreEvent) (e : ScoreEvent) :
    evSum (l ++ [e]) = evSum l + e.durationBeats := by
  simp [evSum]

theorem parseScoreGo_totalBeats (header : ScoreHeader) :
    ∀ (fuel : ℕ) (chars : List Char) (events : List ScoreEvent) (total : ℚ)
      (s : ParsedScore), total = evSum events →
      parseScoreGo header fuel chars events total = .ok s →
      s.totalBeats = evSum s.events := by
  intro fuel
  induction fuel with
  | zero =>
      intro chars events total s hinv heq
      cases chars with
      | nil =>
          simp only [parseScoreGo] at heq
          cases heq
          exact hinv
      | cons c t =>
          simp only [parseScoreGo] at heq
          exact Except.noConfusion heq
  | succ fuel ih =>
      intro chars events total s hinv heq
      cases chars with
      | nil =>
          simp only [parseScoreGo] at heq
          cases heq
          exact hinv
      | cons c t =>
          simp only [parseScoreGo] at heq
          repeat' split at heq
          all_goals
            first
            | exact Except.noConfusion heq
            | exact ih _ _ _ _ hinv heq
            | exact ih _ _ _ _ (by rw [evSum_append_one, hinv]) heq

theorem parseScore_totalBeats (input : String) (s : ParsedScore)
    (h : parseScore input = .ok s) : s.totalBeats = evSum s.events := by
  unfold parseScore at h
  exact parseScoreGo_totalBeats _ _ _ _ _ _ (by simp [evSum]) h

/-! ## C8: the `Vol` header rule -/

theorem dropWhile_all_neg {p : Char → Bool} {l : List Char}
    (h : ∀ a ∈ l, ¬ p a) : l.dropWhile p = l := by
  cases l with
  | nil => rfl
  | cons c t =>
      rw [List.dropWhile_cons]
      simp [h c (by simp)]

theorem jsTrim_all_nonspace {l : List Char} (h : ∀ a ∈ l, ¬ isJsSpace a) :
    jsTrim l = l := by
  unfold jsTrim
  rw [dropWhile_all_neg h, dropWhile_all_neg (by simpa using h), List.reverse_reverse]

theorem takeWhile_all_pos {p : Char → Bool} {l : List Char}
    (h : ∀ a ∈ l, p a) : l.takeWhile p = l := by
  induction l with
  | nil => rfl
  | cons c t ih =>
      rw [List.takeWhile_cons]
      simp only [h c (by simp), if_true]
      rw [ih (fun a ha => h a (by simp [ha]))]

theorem dropWhile_all_pos {p : Char → Bool} {l : List Char}
    (h : ∀ a ∈ l, p a) : l.dropWhile p = [] := by
  induction l with
  | nil => rfl
  | cons c t ih =>
      rw [List.dropWhile_cons]
      simp only [h c (by simp), if_true]
      exact ih (fun a ha => h a (by simp [ha]))

theorem findPairsGo_nil (fuel : ℕ) : findPairsGo fuel [] = [] := by
  cases fuel <;> rfl

/-- C8 counterexample: the bracket `[Vol=0]` parses with volume 0.8
(the default is retained because the source requires `vol > 0`), not
the claimed clamped value 0. -/
theorem c8_counterexample :
    (parseHeader (String.data "[Vol=0]")).1.volume = 0.8 ∧
      (0.8 : ℚ) ≠ clampQ 0 0 1 := by
  constructor
  · with_unfolding_all decide
  · with_unfolding_all decide

/-- C8 (amended): a recognized `Vol=v` pair with `v` parsing as a
number `q` sets the volume to `q/127` clamped to `[0,1]` when `q > 1`,
to `q` clamped to `[0,1]` when `0 < q ≤ 1`, and leaves the default
volume 0.8 untouched when `q ≤ 0` (the source requires `vol > 0`; in
particular `Vol=0` keeps the 0.8 default, contra the claim). -/
theorem c8_amended_vol_rule (v : List Char) (q : ℚ)
    (hne : v ≠ [])
    (hv : ∀ c ∈ v, ¬ isJsSpace c ∧ c ≠ ']')
    (hq : jsNumber v = some q) :
    (parseHeader (('[' :: 'V' :: 'o' :: 'l' :: '=' :: v) ++ [']'])).1.volume =
      (if 1 < q then clampQ (q / 127) 0 1
       else if 0 < q then clampQ q 0 1
       else DEFAULT_HEADER.volume) := by
  have hvns : ∀ c ∈ v, ¬ isJsSpace c := fun c hc => (hv c hc).1
  have hvnb : ∀ c ∈ v, (c ≠ ']') := fun c hc => (hv c hc).2
  obtain ⟨c₀, v', rfl⟩ : ∃ c₀ v', v = c₀ :: v' := by
    cases v with
    | nil => exact absurd rfl hne
    | cons a b => exact ⟨a, b, rfl⟩
  have hbracket : matchHeaderBracket (('[' :: 'V' :: 'o' :: 'l' :: '=' :: c₀ :: v') ++ [']']) =
      some ('V' :: 'o' :: 'l' :: '=' :: c₀ :: v', []) := by
    have htk : (('V' :: 'o' :: 'l' :: '=' :: c₀ :: v') ++ [']']).takeWhile
        (fun c => decide (c ≠ ']')) = 'V' :: 'o' :: 'l' :: '=' :: c₀ :: v' := by
      rw [List.takeWhile_append_of_pos (by
        intro a ha
        simp only [List.mem_cons] at ha
        rcases ha with rfl | rfl | rfl | rfl | h
        · decide
        · decide
        · decide
        · decide
        · simpa using hvnb a (List.mem_cons.mpr h))]
      simp [List.takeWhile_cons]
    have hdr : (('V' :: 'o' :: 'l' :: '=' :: c₀ :: v') ++ [']']).dropWhile
        (fun c => decide (c ≠ ']')) = [']'] := by
      rw [List.dropWhile_append_of_pos (by
        intro a ha
        simp only [List.mem_cons] at ha
        rcases ha with rfl | rfl | rfl | rfl | h
        · decide
        · decide
        · decide
        · decide
        · simpa using hvnb a (List.mem_cons.mpr h))]
      simp [List.dropWhile_cons]
    simp only [matchHeaderBracket]
    rw [show (('[' :: 'V' :: 'o' :: 'l' :: '=' :: c₀ :: v') ++ [']']).dropWhile isJsSpace =
        '[' :: (('V' :: 'o' :: 'l' :: '=' :: c₀ :: v') ++ [']']) from by
      simp [List.dropWhile_cons, isJsSpace]]
    simp only [htk, hdr]
    simp
  have hallns : ∀ a ∈ ('V' :: 'o' :: 'l' :: '=' :: c₀ :: v'), ¬ isJsSpace a = true := by
    intro a ha
    simp only [List.mem_cons] at ha
    rcases ha with rfl | rfl | rfl | rfl | h
    · decide
    · decide
    · decide
    · decide
    · exact hvns a (List.mem_cons.mpr h)
  have hvallns : ∀ a ∈ (c₀ :: v'), ¬ isJsSpace a = true := by
    intro a ha
    apply hallns
    simp only [List.mem_cons] at ha ⊢
    tauto
  have htry : tryPairAt ('V' :: 'o' :: 'l' :: '=' :: c₀ :: v') =
      some ((['V', 'o', 'l'], c₀ :: v'), []) := by
    have hk : ('V' :: 'o' :: 'l' :: '=' :: c₀ :: v').takeWhile isAsciiLetter =
        ['V', 'o', 'l'] := by
      simp [List.takeWhile_cons, isAsciiLetter]
    have hk' : ('V' :: 'o' :: 'l' :: '=' :: c₀ :: v').dropWhile isAsciiLetter =
        '=' :: c₀ :: v' := by
      simp [List.dropWhile_cons, isAsciiLetter]
    simp only [tryPairAt, if_pos (show isAsciiLetter 'V' = true from by decide)]
    rw [hk, hk']
    rw [show ('=' :: c₀ :: v').dropWhile isJsSpace = '=' :: c₀ :: v' from by
      simp [List.dropWhile_cons, isJsSpace]]
    simp only
    rw [dropWhile_all_neg hvallns]
    rw [takeWhile_all_pos (p := fun x => !isJsSpace x)
      (by intro a ha; simpa using hvallns a ha)]
    rw [dropWhile_all_pos (p := fun x => !isJsSpace x)
      (by intro a ha; simpa using hvallns a ha)]
    simp
  have hpairs : findPairs ('V' :: 'o' :: 'l' :: '=' :: c₀ :: v') =
      [(['V', 'o', 'l'], c₀ :: v')] := by
    unfold findPairs
    rw [show ('V' :: 'o' :: 'l' :: '=' :: c₀ :: v').length + 1 =
      (('V' :: 'o' :: 'l' :: '=' :: c₀ :: v').length) + 1 from rfl]
    simp only [findPairsGo, htry, findPairsGo_nil]
  simp only [parseHeader, hbracket]
  rw [jsTrim_all_nonspace hallns, hpairs]
  simp only [List.foldl_cons, List.foldl_nil, reduceCtorEq, if_false]
  simp only [applyHeaderPair]
  rw [jsTrim_all_nonspace hvallns]
  rw [if_neg (by decide), if_neg (by decide), if_neg (by decide), if_pos (by decide)]
  rw [hq]
  by_cases h1 : 1 < q
  · have h0 : 0 < q := by linarith
    simp [h0, h1]
  · by_cases h0 : 0 < q
    · simp [h0, h1]
    · simp [h0, h1]

/-- C8 witness: the amended rule applied to the concrete bracket
`[Vol=200]` (a MIDI-scale value, divided by 127 and clamped). -/
theorem c8_witness :
    (parseHeader (('[' :: 'V' :: 'o' :: 'l' :: '=' :: ['2', '0', '0']) ++ [']'])).1.volume =
      (if (1 : ℚ) < 200 then clampQ ((200 : ℚ) / 127) 0 1
       else if (0 : ℚ) < 200 then clampQ 200 0 1
       else DEFAULT_HEADER.volume) :=
  c8_amended_vol_rule ['2', '0', '0'] 200 (by decide) (by decide)
    (by with_unfolding_all decide)

/-! ## C4: the writer's message ordering -/

instance : IsTotal MidiEvent midiEventLe :=
  ⟨fun a b => by unfold midiEventLe; omega⟩

instance : IsTrans MidiEvent midiEventLe :=
  ⟨fun a b c hab hbc => by unfold midiEventLe at *; omega⟩

theorem noteMessagesGo_shape (header : ScoreHeader) (tpb : ℕ) :
    ∀ (events : List ScoreEvent) (tick : ℤ),
      ∀ e ∈ noteMessagesGo header tpb events tick,
        (e.order = 3 ∧ e.bytes.head? = some 0x90) ∨
        (e.order = 0 ∧ e.bytes.head? = some 0x80) := by
  intro events
  induction events with
  | nil => intro tick e he; cases he
  | cons ev rest ih =>
      intro tick e he
      cases hty : ev.type with
      | rest =>
          simp only [noteMessagesGo, hty] at he
          exact ih _ e he
      | note =>
          simp only [noteMessagesGo, hty] at he
          rw [List.mem_append] at he
          rcases he with hf | hr
          · rw [List.mem_flatMap] at hf
            obtain ⟨n, _, hn⟩ := hf
            simp only [List.mem_cons, List.not_mem_nil, or_false] at hn
            rcases hn with rfl | rfl
            · exact Or.inl ⟨rfl, rfl⟩
            · exact Or.inr ⟨rfl, rfl⟩
          · exact ih _ e hr
      | chord =>
          simp only [noteMessagesGo, hty] at he
          rw [List.mem_append] at he
          rcases he with hf | hr
          · rw [List.mem_flatMap] at hf
            obtain ⟨n, _, hn⟩ := hf
            simp only [List.mem_cons, List.not_mem_nil, or_false] at hn
            rcases hn with rfl | rfl
            · exact Or.inl ⟨rfl, rfl⟩
            · exact Or.inr ⟨rfl, rfl⟩
          · exact ih _ e hr

theorem midiEventsOf_order_inv (header : ScoreHeader) (events : List ScoreEvent)
    (tpb : ℕ) :
    ∀ e ∈ midiEventsOf header events tpb,
      (isNoteOnMsg e → e.order = 3) ∧ (isNoteOffMsg e → e.order = 0) := by
  intro e he
  unfold midiEventsOf at he
  rw [List.mem_append] at he
  rcases he with hm | hn
  · unfold metaMessages at hm
    simp only [List.mem_cons, List.not_mem_nil, or_false] at hm
    rcases hm with rfl | rfl | rfl
    · exact ⟨fun h => by simp [isNoteOnMsg] at h, fun h => by simp [isNoteOffMsg] at h⟩
    · exact ⟨fun h => by simp [isNoteOnMsg] at h, fun h => by simp [isNoteOffMsg] at h⟩
    · exact ⟨fun h => by simp [isNoteOnMsg] at h, fun h => by simp [isNoteOffMsg] at h⟩
  · rcases noteMessagesGo_shape header tpb events 0 e hn with ⟨h3, _⟩ | ⟨h0, hh⟩
    · refine ⟨fun _ => h3, fun hoff => ?_⟩
      unfold isNoteOffMsg at hoff
      rename_i hh
      rw [hh] at hoff
      exact absurd hoff (by decide)
    · refine ⟨fun hon => ?_, fun _ => h0⟩
      unfold isNoteOnMsg at hon
      rw [hh] at hon
      exact absurd hon (by decide)

/-- C4: in the MIDI writer, for every header and event list the
message list that feeds the delta-encoder is sorted by `(tick, order)`
ascending (tempo order 0, program 1, volume controller 2, note-on 3,
note-off 0); consequently every note-on at a given tick comes after
every note-off at that same tick in the serialized track. -/
theorem c4_writer_message_ordering (header : ScoreHeader) (events : List ScoreEvent) :
    (sortedMidiEvents header events 480).Pairwise midiEventLe ∧
    (sortedMidiEvents header events 480).Pairwise
      (fun a b => a.tick = b.tick → isNoteOnMsg a → ¬ isNoteOffMsg b) := by
  have hsorted : (sortedMidiEvents header events 480).Pairwise midiEventLe :=
    List.sorted_insertionSort midiEventLe _
  refine ⟨hsorted, ?_⟩
  have hmem : ∀ e ∈ sortedMidiEvents header events 480,
      (isNoteOnMsg e → e.order = 3) ∧ (isNoteOffMsg e → e.order = 0) := by
    intro e he
    exact midiEventsOf_order_inv _ _ _ e ((List.mem_insertionSort _).mp he)
  refine List.Pairwise.imp_of_mem ?_ hsorted
  intro a b ha hb hle htick hon hoff
  have h3 := (hmem a ha).1 hon
  have h0 := (hmem b hb).2 hoff
  unfold midiEventLe at hle
  omega

/-! ## C6: `parseMidiBuffer` failure conditions -/

/-- The concrete buffer of the C6 counterexample: a well-formed `MThd`
chunk declaring one track, then an `MTrk` chunk that declares 100 data
bytes but is followed by none. -/
def c6Buffer : List ℕ :=
  [0x4d, 0x54, 0x68, 0x64, 0, 0, 0, 6, 0, 0, 0, 1, 1, 224,
   0x4d, 0x54, 0x72, 0x6b, 0, 0, 0, 12]

/-- C6 counterexample: the final track's declared byte length (12)
reads out of bounds of the 22-byte buffer, yet `parseMidiBuffer` does
not fail: it walks the missing bytes as `undefined` reads and returns
a track with no notes. -/
theorem c6_counterexample :
    readUInt32BE c6Buffer 18 = 12 ∧
    22 + 12 > c6Buffer.length ∧
    parseMidiBuffer c6Buffer =
      .ok { ticksPerBeat := 480, tempo := 500000,
            tracks := [{ program := 0, volume := 0.8, noteEvents := [] }] } := by
  refine ⟨by decide, by decide, ?_⟩
  simp [c6Buffer, parseMidiBuffer, parseTracksGo, parseMidiTrack, parseMidiTrackGo,
    readVarLen, readVarLenGo, readUInt32BE, readUInt16BE, jsByte]

theorem take_four_ne_of_short {data : List ℕ} {off : ℕ} (h : data.length < off + 4)
    (magic : List ℕ) (hm : magic.length = 4) : (data.drop off).take 4 ≠ magic := by
  intro heq
  have hlen : ((data.drop off).take 4).length = magic.length := by rw [heq]
  rw [List.length_take, List.length_drop, hm] at hlen
  omega

/-- C6 (amended): `parseMidiBuffer` fails with a MIDI format error,
returning no partial result, whenever the input lacks the `MThd`
magic, declares zero tracks, or lacks the `MTrk` magic where a track
chunk is expected — which includes a non-final track whose declared
byte length overruns the buffer, since the next expected `MTrk` magic
is then missing.  An out-of-bounds declared length on the *final*
expected track chunk is not detected (see `c6_counterexample`): the
parser reads the missing bytes as `undefined` and returns normally. -/
theorem c6_amended_format_errors :
    (∀ data : List ℕ, data.take 4 ≠ [0x4d, 0x54, 0x68, 0x64] →
      parseMidiBuffer data = .error "MIDI 文件头无效") ∧
    (∀ data : List ℕ, data.take 4 = [0x4d, 0x54, 0x68, 0x64] →
      readUInt16BE data 10 = 0 →
      parseMidiBuffer data = .error "MIDI 轨道数量无效") ∧
    (∀ data : List ℕ, data.take 4 = [0x4d, 0x54, 0x68, 0x64] →
      1 ≤ readUInt16BE data 10 →
      (data.drop (8 + readUInt32BE data 4)).take 4 ≠ [0x4d, 0x54, 0x72, 0x6b] →
      parseMidiBuffer data = .error "MIDI 轨道头无效") ∧
    (∀ (data : List ℕ) (k trackIndex offset tempo : ℕ)
        (acc : List ParsedMidiTrack), data.length < offset + 4 →
      parseTracksGo data (k + 1) trackIndex offset tempo acc =
        .error "MIDI 轨道头无效") := by
  refine ⟨?_, ?_, ?_, ?_⟩
  · intro data hmagic
    unfold parseMidiBuffer
    rw [if_neg hmagic]
  · intro data hmagic hzero
    unfold parseMidiBuffer
    rw [if_pos hmagic, if_pos (by omega)]
  · intro data hmagic hpos hmtrk
    unfold parseMidiBuffer
    rw [if_pos hmagic, if_neg (by omega)]
    obtain ⟨k, hk⟩ : ∃ k, readUInt16BE data 10 = k + 1 :=
      ⟨readUInt16BE data 10 - 1, by omega⟩
    rw [hk]
    unfold parseTracksGo
    rw [if_neg hmtrk]
  · intro data k trackIndex offset tempo acc hshort
    unfold parseTracksGo
    rw [if_neg (take_four_ne_of_short hshort _ (by decide))]

/-- C6 witness: the three error conditions of the amended claim at
concrete buffers (no magic at all; `MThd` with a zero track count;
`MThd` but garbage where `MTrk` should start), and the short-buffer
track loop. -/
theorem c6_witness :
    parseMidiBuffer [0, 1, 2, 3] = .error "MIDI 文件头无效" ∧
    parseMidiBuffer [0x4d, 0x54, 0x68, 0x64, 0, 0, 0, 6, 0, 0, 0, 0, 1, 224] =
      .error "MIDI 轨道数量无效" ∧
    parseMidiBuffer [0x4d, 0x54, 0x68, 0x64, 0, 0, 0, 6, 0, 0, 0, 1, 1, 224,
      9, 9, 9, 9, 0, 0, 0, 0] = .error "MIDI 轨道头无效" ∧
    parseTracksGo [] 1 0 0 500000 [] = .error "MIDI 轨道头无效" :=
  ⟨c6_amended_format_errors.1 [0, 1, 2, 3] (by decide),
   c6_amended_format_errors.2.1 _ (by decide) (by decide),
   c6_amended_format_errors.2.2.1 _ (by decide) (by decide) (by decide),
   c6_amended_format_errors.2.2.2 [] 0 0 0 500000 [] (by decide)⟩

/-! ## C5: `totalBeats` equals the sum of event durations -/

theorem buildGo_totalBeats (header : ScoreHeader) (tpb : ℕ)
    (g : List ((ℕ × ℕ) × List MidiNoteEvent)) :
    ∀ (tps : List (ℕ × ℕ)) (currentTick : ℕ) (total : ℚ) (evs : List ScoreEvent),
      total = evSum evs →
      (buildGo header tpb g tps currentTick total evs).2 =
        evSum (buildGo header tpb g tps currentTick total evs).1 := by
  intro tps
  induction tps with
  | nil =>
      intro currentTick total evs hinv
      simpa [buildGo] using hinv
  | cons tp rest ih =>
      intro currentTick total evs hinv
      simp only [buildGo]
      by_cases hgap : currentTick < tp.1
      · simp only [hgap, if_true]
        refine ih _ _ _ ?_
        simp [evSum, hinv]
        ring
      · simp only [hgap, if_false]
        refine ih _ _ _ ?_
        simp [evSum, hinv]

theorem buildScore_totalBeats (noteEvents : List MidiNoteEvent)
    (header : ScoreHeader) (tpb : ℕ) :
    (buildScoreFromNoteEvents noteEvents header tpb).totalBeats =
      evSum (buildScoreFromNoteEvents noteEvents header tpb).events := by
  unfold buildScoreFromNoteEvents
  exact buildGo_totalBeats _ _ _ _ _ _ _ (by simp [evSum])

/-- C5: every `Score` returned by `parseScore`, and every `Score`
produced by the reconstructor (`buildScoreFromNoteEvents`, hence every
score returned by `midiToScores`), has `totalBeats` equal to the sum
of the `durationBeats` of its events. -/
theorem c5_totalBeats_invariant :
    (∀ (input : String) (s : ParsedScore), parseScore input = .ok s →
      s.totalBeats = evSum s.events) ∧
    (∀ (noteEvents : List MidiNoteEvent) (header : ScoreHeader) (tpb : ℕ),
      (buildScoreFromNoteEvents noteEvents header tpb).totalBeats =
        evSum (buildScoreFromNoteEvents noteEvents header tpb).events) ∧
    (∀ (data : List ℕ) (scores : List ParsedScore) (s : ParsedScore),
      midiToScores data = .ok scores → s ∈ scores →
      s.totalBeats = evSum s.events) := by
  refine ⟨parseScore_totalBeats, buildScore_totalBeats, ?_⟩
  intro data scores s hok hmem
  unfold midiToScores at hok
  cases hbuf : parseMidiBuffer data with
  | error e => rw [hbuf] at hok; exact Except.noConfusion hok
  | ok d =>
      rw [hbuf] at hok
      simp only [Except.ok.injEq] at hok
      subst hok
      rw [List.mem_map] at hmem
      obtain ⟨track, _, rfl⟩ := hmem
      exact buildScore_totalBeats _ _ _

/-- C5 witness: the invariant at the concrete text `"1 0 2."` and at a
concrete reconstruction. -/
theorem c5_witness :
    ((match parseScore "1 0 2." with
      | .ok s => s.totalBeats = evSum s.events
      | .error _ => False) ∧
     (buildScoreFromNoteEvents
        [{ startTick := 0, endTick := 480, note := some 60, velocity := some 102 }]
        DEFAULT_HEADER 480).totalBeats =
      evSum (buildScoreFromNoteEvents
        [{ startTick := 0, endTick := 480, note := some 60, velocity := some 102 }]
        DEFAULT_HEADER 480).events) := by
  constructor
  · cases hp : parseScore "1 0 2." with
    | ok s => exact c5_totalBeats_invariant.1 _ s hp
    | error e =>
        have : (parseScore "1 0 2.").isOk = true := by
          with_unfolding_all decide
        rw [hp] at this
        exact Bool.noConfusion this
  · exact c5_totalBeats_invariant.2.1 _ _ _

/-! ## C7: unmatched closes are dropped, pending opens are dropped -/

theorem parseMidiTrackGo_stop (data : List ℕ) (trackEnd fuel : ℕ) (st : TrackState)
    (h : trackEnd ≤ st.offset) : parseMidiTrackGo data trackEnd fuel st = st := by
  cases fuel with
  | zero => rfl
  | succ fuel =>
      simp only [parseMidiTrackGo]
      rw [if_pos (by omega)]

theorem land_f0_ne (b m : ℕ) (hmask : b &&& 0xf0 = m) (c : ℕ) (hc : c &&& 0xf0 ≠ m) :
    ¬ b = c := fun h => hc (h ▸ hmask)

/-- C7: during track parsing (i) a note-off (`0x80`) whose
`(channel, note)` key has no open pending note emits no `NoteEvent`,
raises no error and leaves the state — accumulated events and open
notes — untouched apart from the advanced position, so the rest of
the track is parsed normally; (ii) the same for a zero-velocity
note-on; (iii) reaching the end of the track returns exactly the
accumulated events, discarding `activeNotes`; and (iv) in particular a
note-on still open when the end of the track is reached contributes no
`NoteEvent`. -/
theorem c7_unmatched_and_pending_notes_dropped :
    (∀ (data : List ℕ) (trackEnd fuel : ℕ) (st : TrackState) (b : ℕ),
      st.offset < trackEnd →
      jsByte data (readVarLen data st.offset).2 = some b →
      0x80 ≤ b → b &&& 0xf0 = 0x80 →
      activeGet st.active
        (b &&& 0x0f, jsByte data ((readVarLen data st.offset).2 + 1)) = none →
      parseMidiTrackGo data trackEnd (fuel + 1) st =
        parseMidiTrackGo data trackEnd fuel
          { st with
            offset := (readVarLen data st.offset).2 + 3
            tick := st.tick + (readVarLen data st.offset).1
            runningStatus := some b }) ∧
    (∀ (data : List ℕ) (trackEnd fuel : ℕ) (st : TrackState) (b : ℕ),
      st.offset < trackEnd →
      jsByte data (readVarLen data st.offset).2 = some b →
      0x80 ≤ b → b &&& 0xf0 = 0x90 →
      jsByte data ((readVarLen data st.offset).2 + 2) = some 0 →
      activeGet st.active
        (b &&& 0x0f, jsByte data ((readVarLen data st.offset).2 + 1)) = none →
      parseMidiTrackGo data trackEnd (fuel + 1) st =
        parseMidiTrackGo data trackEnd fuel
          { st with
            offset := (readVarLen data st.offset).2 + 3
            tick := st.tick + (readVarLen data st.offset).1
            runningStatus := some b }) ∧
    (∀ (data : List ℕ) (trackEnd fuel : ℕ) (st : TrackState),
      trackEnd ≤ st.offset →
      parseMidiTrackGo data trackEnd fuel st = st) ∧
    (∀ (data : List ℕ) (trackEnd fuel : ℕ) (st : TrackState) (b v : ℕ),
      st.offset < trackEnd →
      jsByte data (readVarLen data st.offset).2 = some b →
      0x80 ≤ b → b &&& 0xf0 = 0x90 →
      jsByte data ((readVarLen data st.offset).2 + 2) = some v → v ≠ 0 →
      trackEnd ≤ (readVarLen data st.offset).2 + 3 →
      (parseMidiTrackGo data trackEnd (fuel + 1) st).noteEvents = st.noteEvents) := by
  refine ⟨?_, ?_, parseMidiTrackGo_stop, ?_⟩
  · intro data trackEnd fuel st b hlt hb hge hmask hact
    have h255 : ¬ b = 0xff := land_f0_ne b _ hmask 0xff (by decide)
    have hf07 : ¬ (b = 0xf0 ∨ b = 0xf7) := by
      rintro (rfl | rfl) <;> exact absurd hmask (by decide)
    have hnlt : ¬ st.offset ≥ trackEnd := by omega
    have hnb : ¬ b < 0x80 := by omega
    simp only [parseMidiTrackGo, hnlt, hb, hnb, hmask, h255, hf07, hact,
      if_false, if_true]
    norm_num
  · intro data trackEnd fuel st b hlt hb hge hmask hv0 hact
    have h255 : ¬ b = 0xff := land_f0_ne b _ hmask 0xff (by decide)
    have hf07 : ¬ (b = 0xf0 ∨ b = 0xf7) := by
      rintro (rfl | rfl) <;> exact absurd hmask (by decide)
    have hnlt : ¬ st.offset ≥ trackEnd := by omega
    have hnb : ¬ b < 0x80 := by omega
    simp only [parseMidiTrackGo, hnlt, hb, hnb, hmask, h255, hf07, hv0, hact,
      if_false, if_true]
    norm_num
  · intro data trackEnd fuel st b v hlt hb hge hmask hv hvne hend
    have h255 : ¬ b = 0xff := land_f0_ne b _ hmask 0xff (by decide)
    have hf07 : ¬ (b = 0xf0 ∨ b = 0xf7) := by
      rintro (rfl | rfl) <;> exact absurd hmask (by decide)
    have hnlt : ¬ st.offset ≥ trackEnd := by omega
    have hnb : ¬ b < 0x80 := by omega
    have hvs : ¬ (some v = some 0) := by simp [hvne]
    simp only [parseMidiTrackGo, hnlt, hb, hnb, hmask, h255, hf07, hv, hvs,
      if_false, if_true]
    norm_num
    rw [parseMidiTrackGo_stop data trackEnd fuel _ (by simpa using hend)]

/-- C7 witness: a lone unmatched note-off advances the state without
emitting anything, and a track that ends with a still-open note-on
returns no `NoteEvent`. -/
theorem c7_witness :
    parseMidiTrackGo [0, 0x80, 60, 0] 4 4
        ⟨0, 0, some 0, 0, 0.8, 500000, [], []⟩ =
      parseMidiTrackGo [0, 0x80, 60, 0] 4 3
        ⟨4, 0, some 0x80, 0, 0.8, 500000, [], []⟩ ∧
    (parseMidiTrackGo [0, 0x90, 60, 50] 4 4
        ⟨0, 0, some 0, 0, 0.8, 500000, [], []⟩).noteEvents = [] :=
  ⟨c7_unmatched_and_pending_notes_dropped.1 [0, 0x80, 60, 0] 4 3
      ⟨0, 0, some 0, 0, 0.8, 500000, [], []⟩ 0x80
      (by decide) (by decide) (by decide) (by decide) (by decide),
   c7_unmatched_and_pending_notes_dropped.2.2.2 [0, 0x90, 60, 50] 4 3
      ⟨0, 0, some 0, 0, 0.8, 500000, [], []⟩ 0x90 50
      (by decide) (by decide) (by decide) (by decide) (by decide) (by decide)
      (by decide)⟩

/-! ## C1, stage 1: variable-length-quantity round trip -/

theorem land_127_eq_mod (b : ℕ) : b &&& 127 = b % 128 := by
  have h := Nat.and_pow_two_sub_one_eq_mod b 7
  norm_num at h
  exact h

theorem land_128_testBit (b : ℕ) : b &&& 128 = (b.testBit 7).toNat * 128 := by
  have h := Nat.and_two_pow b 7
  norm_num at h
  exact h

theorem land_128_eq_zero {b : ℕ} (h : b < 128) : b &&& 128 = 0 := by
  rw [land_128_testBit, Nat.testBit_to_div_mod]
  have h7 : (2 : ℕ) ^ 7 = 128 := by norm_num
  rw [h7]
  have : b / 128 % 2 = 0 := by omega
  simp [this]

theorem land_128_ne_zero {b : ℕ} (h1 : 128 ≤ b) (h2 : b < 256) : b &&& 128 ≠ 0 := by
  rw [land_128_testBit, Nat.testBit_to_div_mod]
  have h7 : (2 : ℕ) ^ 7 = 128 := by norm_num
  rw [h7]
  have : b / 128 % 2 = 1 := by omega
  simp [this]

theorem writeVarLenGo_peel (fuel : ℕ) :
    ∀ (v : ℕ) (acc : List ℕ),
      writeVarLenGo fuel v acc = writeVarLenGo fuel v [] ++ acc := by
  induction fuel with
  | zero => intro v acc; rfl
  | succ fuel ih =>
      intro v acc
      by_cases hv : v = 0
      · simp [writeVarLenGo, hv]
      · simp only [writeVarLenGo, hv, if_false]
        rw [ih (v / 128) [v % 128 + 128], ih (v / 128) ((v % 128 + 128) :: acc)]
        simp

theorem writeVarLenGo_bytes_range (fuel : ℕ) :
    ∀ (v : ℕ) (b : ℕ), b ∈ writeVarLenGo fuel v [] → 128 ≤ b ∧ b < 256 := by
  induction fuel with
  | zero => intro v b hb; cases hb
  | succ fuel ih =>
      intro v b hb
      by_cases hv : v = 0
      · simp [writeVarLenGo, hv] at hb
      · simp only [writeVarLenGo, hv, if_false] at hb
        rw [writeVarLenGo_peel] at hb
        rcases List.mem_append.mp hb with h | h
        · exact ih _ _ h
        · simp at h
          omega

theorem readVarLenGo_write (fuel : ℕ) :
    ∀ (v : ℕ), v < 128 ^ fuel → ∀ (next : List ℕ) (a c : ℕ),
      readVarLenGo (writeVarLenGo fuel v [] ++ next) a c =
        readVarLenGo next (a * 128 ^ (writeVarLenGo fuel v []).length + v)
          (c + (writeVarLenGo fuel v []).length) := by
  induction fuel with
  | zero =>
      intro v hv next a c
      interval_cases v
      simp [writeVarLenGo]
  | succ fuel ih =>
      intro v hv next a c
      by_cases hz : v = 0
      · simp [writeVarLenGo, hz]
      · have hstep : writeVarLenGo (fuel + 1) v [] =
            writeVarLenGo fuel (v / 128) [] ++ [v % 128 + 128] := by
          simp only [writeVarLenGo, hz, if_false]
          exact writeVarLenGo_peel fuel (v / 128) [v % 128 + 128]
        rw [hstep]
        have hdiv : v / 128 < 128 ^ fuel := by
          rw [pow_succ] at hv
          exact Nat.div_lt_of_lt_mul (by omega)
        rw [List.append_assoc, ih (v / 128) hdiv ([v % 128 + 128] ++ next) a c]
        have hmem : 128 ≤ v % 128 + 128 ∧ v % 128 + 128 < 256 := by
          have := Nat.mod_lt v (y := 128) (by norm_num)
          omega
        simp only [List.singleton_append, readVarLenGo]
        rw [if_neg (land_128_ne_zero hmem.1 hmem.2)]
        rw [land_127_eq_mod]
        have hmod : (v % 128 + 128) % 128 = v % 128 := by omega
        rw [hmod]
        have hlen : (writeVarLenGo fuel (v / 128) [] ++ [v % 128 + 128]).length =
            (writeVarLenGo fuel (v / 128) []).length + 1 := by simp
        rw [hlen]
        have harith : (a * 128 ^ (writeVarLenGo fuel (v / 128) []).length + v / 128) *
            128 + v % 128 =
            a * 128 ^ ((writeVarLenGo fuel (v / 128) []).length + 1) + v := by
          have hdm : 128 * (v / 128) + v % 128 = v := Nat.div_add_mod v 128
          calc (a * 128 ^ (writeVarLenGo fuel (v / 128) []).length + v / 128) * 128 +
                v % 128 =
              a * (128 ^ (writeVarLenGo fuel (v / 128) []).length * 128) +
                (128 * (v / 128) + v % 128) := by ring
            _ = a * 128 ^ ((writeVarLenGo fuel (v / 128) []).length + 1) + v := by
                rw [hdm, pow_succ]
        rw [harith]
        congr 1

/-- The variable-length quantity round trip: reading a `writeVarLen`
encoding followed by anything recovers the value and consumes exactly
the encoding. -/
theorem readVarLen_write (pre : List ℕ) (v : ℕ) (rest : List ℕ) (hv : v < 2 ^ 28) :
    readVarLen (pre ++ (writeVarLen v ++ rest)) pre.length =
      (v, pre.length + (writeVarLen v).length) := by
  unfold readVarLen
  rw [List.drop_left]
  unfold writeVarLen
  rw [writeVarLenGo_peel]
  have hdiv : v / 128 < 128 ^ 5 := by
    have : (128 : ℕ) ^ 5 = 2 ^ 35 := by norm_num
    rw [this]
    have h1 : v / 128 ≤ v := Nat.div_le_self v 128
    have h2 : (2 : ℕ) ^ 28 ≤ 2 ^ 35 := by norm_num
    omega
  rw [List.append_assoc, readVarLenGo_write 5 (v / 128) hdiv ([v % 128] ++ rest) 0 0]
  simp only [List.singleton_append, readVarLenGo]
  rw [if_pos (land_128_eq_zero (by omega))]
  rw [land_127_eq_mod]
  have hm : v % 128 % 128 = v % 128 := by omega
  rw [hm]
  dsimp only
  rw [Prod.mk.injEq]
  constructor
  · simp only [zero_mul, zero_add]
    omega
  · rw [List.length_append]
    simp

theorem writeVarLen_length_le (v : ℕ) : (writeVarLen v).length ≤ 6 := by
  have h : ∀ fuel v acc, (writeVarLenGo fuel v acc : List ℕ).length ≤ fuel + acc.length := by
    intro fuel
    induction fuel with
    | zero => intro v acc; simp [writeVarLenGo]
    | succ fuel ih =>
        intro v acc
        by_cases hv : v = 0
        · simp [writeVarLenGo, hv]
        · simp only [writeVarLenGo, hv, if_false]
          have := ih (v / 128) ((v % 128 + 128) :: acc)
          simp only [List.length_cons] at this
          omega
  have := h 5 (v / 128) [v % 128]
  unfold writeVarLen
  simp only [List.length_singleton] at this
  omega

theorem writeVarLen_length_pos (v : ℕ) : 1 ≤ (writeVarLen v).length := by
  unfold writeVarLen
  rw [writeVarLenGo_peel]
  simp

/-! ## C1, stage 2: the sorted message stream in closed form -/

theorem oi_append_left {α : Type} (r : α → α → Prop) [DecidableRel r] (x : α)
    (u v : List α) (hv : ∀ b ∈ v, r x b) :
    List.orderedInsert r x (u ++ v) = List.orderedInsert r x u ++ v := by
  induction u with
  | nil =>
      simp only [List.nil_append]
      cases v with
      | nil => rfl
      | cons b v' =>
          rw [List.orderedInsert_of_le r v' (hv b (List.mem_cons_self b v'))]
          rfl
  | cons y u' ih =>
      simp only [List.cons_append, List.orderedInsert]
      by_cases h : r x y
      · simp [h]
      · simp [h, ih]

theorem oi_append_right {α : Type} (r : α → α → Prop) [DecidableRel r] (x : α)
    (u v : List α) (hu : ∀ a ∈ u, ¬ r x a) :
    List.orderedInsert r x (u ++ v) = u ++ List.orderedInsert r x v := by
  induction u with
  | nil => rfl
  | cons y u' ih =>
      simp only [List.cons_append, List.orderedInsert, List.append_eq]
      rw [if_neg (hu y (List.mem_cons_self y u'))]
      rw [ih (fun a ha => hu a (List.mem_cons_of_mem y ha))]

theorem isort_append {α : Type} (r : α → α → Prop) [DecidableRel r]
    (u v : List α) (h : ∀ a ∈ u, ∀ b ∈ v, r a b) :
    List.insertionSort r (u ++ v) =
      List.insertionSort r u ++ List.insertionSort r v := by
  induction u with
  | nil => simp
  | cons a u' ih =>
      simp only [List.cons_append, List.insertionSort, List.append_eq]
      rw [ih (fun a' ha' b hb => h a' (List.mem_cons_of_mem a ha') b hb)]
      exact oi_append_left r a _ _
        (fun b hb => h a (List.mem_cons_self a u') b ((List.mem_insertionSort r).mp hb))

theorem onMsg_tick (header : ScoreHeader) (t : ℤ) (n : NoteSpec) :
    (onMsg header t n).tick = t := rfl

theorem offMsg_tick (header : ScoreHeader) (t : ℤ) (n : NoteSpec) :
    (offMsg header t n).tick = t := rfl

/-- Sorting one event's interleaved on/off pairs puts all note-ons
before all note-offs, preserving note order. -/
theorem isort_on_off_block (header : ScoreHeader) (t d : ℤ) (hd : 0 < d)
    (ns : List NoteSpec) :
    List.insertionSort midiEventLe
        (ns.flatMap (fun n => [onMsg header t n, offMsg header (t + d) n])) =
      ns.map (onMsg header t) ++ ns.map (offMsg header (t + d)) := by
  induction ns with
  | nil => rfl
  | cons n ns' ih =>
      have hstep : List.insertionSort midiEventLe
          ((n :: ns').flatMap (fun m => [onMsg header t m, offMsg header (t + d) m])) =
          List.orderedInsert midiEventLe (onMsg header t n)
            (List.orderedInsert midiEventLe (offMsg header (t + d) n)
              (List.insertionSort midiEventLe
                (ns'.flatMap (fun m => [onMsg header t m, offMsg header (t + d) m])))) := rfl
      rw [hstep, ih]
      have hoff : List.orderedInsert midiEventLe (offMsg header (t + d) n)
          (ns'.map (onMsg header t) ++ ns'.map (offMsg header (t + d))) =
          ns'.map (onMsg header t) ++
            (offMsg header (t + d) n :: ns'.map (offMsg header (t + d))) := by
        rw [oi_append_right]
        · congr 1
          cases ns' with
          | nil => rfl
          | cons m ms =>
              simp only [List.map_cons]
              rw [List.orderedInsert_of_le]
              simp [midiEventLe, offMsg]
        · intro a ha
          rcases List.mem_map.mp ha with ⟨m, _, rfl⟩
          simp only [midiEventLe, onMsg, offMsg]
          push_neg
          constructor
          · omega
          · intro h; omega
      rw [hoff]
      simp only [List.map_cons, List.cons_append]
      cases ns' with
      | nil =>
          simp only [List.map_nil, List.nil_append]
          rw [List.orderedInsert_of_le]
          exact Or.inl (show t < t + d by omega)
      | cons m ms =>
          simp only [List.map_cons, List.cons_append]
          rw [List.orderedInsert_of_le]
          exact Or.inr ⟨rfl, Nat.le_refl 3⟩

theorem durTicks_cast (e : ScoreEvent) :
    jsRound (e.durationBeats * ((480 : ℕ) : ℚ)) = durTicksOf e := by
  norm_num [durTicksOf]

/-- Every message the writer emits for events starting at tick `t` sits
at tick `t` or later; note-offs sit a full event duration later. -/
theorem noteMessagesGo_tick_lb (header : ScoreHeader) :
    ∀ (es : List ScoreEvent) (t : ℤ), (∀ e ∈ es, 480 ≤ durTicksOf e) →
      ∀ b ∈ noteMessagesGo header 480 es t,
        t ≤ b.tick ∧ (b.order = 0 → t + 480 ≤ b.tick) := by
  intro es
  induction es with
  | nil => intro t _ b hb; simp [noteMessagesGo] at hb
  | cons e rest ih =>
      intro t hdur b hb
      have hde : 480 ≤ durTicksOf e := hdur e (List.mem_cons_self e rest)
      have hrest : ∀ e' ∈ rest, 480 ≤ durTicksOf e' :=
        fun e' he' => hdur e' (List.mem_cons_of_mem e he')
      cases hty : e.type
      case rest =>
          simp only [noteMessagesGo, hty, durTicks_cast] at hb
          have := ih (t + durTicksOf e) hrest b hb
          constructor
          · omega
          · intro h0; have := this.2 h0; omega
      all_goals
          simp only [noteMessagesGo, hty, durTicks_cast, List.mem_append,
            List.mem_flatMap] at hb
          rcases hb with ⟨n, _, hn⟩ | hb
          · simp only [List.mem_cons, List.not_mem_nil, or_false] at hn
            rcases hn with rfl | rfl
            · constructor
              · simp
              · intro h; simp at h
            · constructor
              · simp; omega
              · intro _; simp; omega
          · have := ih (t + durTicksOf e) hrest b hb
            constructor
            · omega
            · intro h0; have := this.2 h0; omega

/-- Sorting the writer's raw per-event message stream yields the
per-event closed form `sortedMsgs`: blocks stay in event order, and
within a block ons precede offs. -/
theorem isort_noteMessages (header : ScoreHeader) :
    ∀ (es : List ScoreEvent) (t : ℤ), (∀ e ∈ es, 480 ≤ durTicksOf e) →
      List.insertionSort midiEventLe (noteMessagesGo header 480 es t) =
        sortedMsgs header es t := by
  intro es
  induction es with
  | nil => intro t _; rfl
  | cons e rest ih =>
      intro t hdur
      have hde : 480 ≤ durTicksOf e := hdur e (List.mem_cons_self e rest)
      have hrest : ∀ e' ∈ rest, 480 ≤ durTicksOf e' :=
        fun e' he' => hdur e' (List.mem_cons_of_mem e he')
      cases hty : e.type
      case rest =>
          simp only [noteMessagesGo, hty, durTicks_cast, sortedMsgs, if_pos]
          exact ih (t + durTicksOf e) hrest
      all_goals
          have hblock : (e.notes.flatMap (fun n =>
              let note := (degreeToMidi n.degree n.octaveShift n.accidental header).toNat
              [{ tick := t, order := 3,
                 bytes := [0x90, note, (velocityOf header).toNat] },
               { tick := t + durTicksOf e, order := 0, bytes := [0x80, note, 0] }])) =
              e.notes.flatMap (fun n =>
                [onMsg header t n, offMsg header (t + durTicksOf e) n]) := by
            simp [onMsg, offMsg, pitchByteOf, velByteOf]
          simp only [noteMessagesGo, hty, durTicks_cast, hblock]
          rw [isort_append]
          · rw [isort_on_off_block header t (durTicksOf e) (by omega) e.notes,
              ih (t + durTicksOf e) hrest]
            simp [sortedMsgs, hty]
          · intro a ha b hb
            have hbt := noteMessagesGo_tick_lb header rest (t + durTicksOf e) hrest b hb
            rcases List.mem_flatMap.mp ha with ⟨n, _, hn⟩
            simp only [List.mem_cons, List.not_mem_nil, or_false] at hn
            rcases hn with rfl | rfl
            · exact Or.inl (by rw [onMsg_tick]; omega)
            · rcases lt_or_eq_of_le hbt.1 with hlt | heq
              · exact Or.inl (by rw [offMsg_tick]; omega)
              · exact Or.inr ⟨by rw [offMsg_tick, heq], Nat.zero_le _⟩

/-- The three tick-0 meta messages are already sorted. -/
theorem metaMessages_sorted (header : ScoreHeader) :
    List.Sorted midiEventLe (metaMessages header) := by
  simp [metaMessages, List.sorted_cons, midiEventLe]

/-- The writer's fully sorted stream in closed form: the three meta
messages, then per-event on/off blocks in event order. -/
theorem sortedMidiEvents_eq (header : ScoreHeader) (es : List ScoreEvent)
    (hdur : ∀ e ∈ es, 480 ≤ durTicksOf e) :
    sortedMidiEvents header es 480 =
      metaMessages header ++ sortedMsgs header es 0 := by
  unfold sortedMidiEvents midiEventsOf
  rw [isort_append]
  · rw [List.Sorted.insertionSort_eq (metaMessages_sorted header),
      isort_noteMessages header es 0 hdur]
  · intro a ha b hb
    have hbt := noteMessagesGo_tick_lb header es 0 hdur b hb
    have hat : a.tick = 0 ∧ a.order ≤ 2 := by
      simp only [metaMessages, List.mem_cons, List.not_mem_nil, or_false] at ha
      rcases ha with rfl | rfl | rfl <;> simp
    have hbo := noteMessagesGo_shape header 480 es 0 b hb
    rcases lt_or_eq_of_le hbt.1 with hlt | heq
    · exact Or.inl (by omega)
    · refine Or.inr ⟨by omega, ?_⟩
      rcases hbo with ⟨h3, _⟩ | ⟨h0, _⟩
      · omega
      · have := hbt.2 h0
        omega

/-! ## C1, stage 3: one reader iteration per serialized message -/

theorem jsByte_at (u l : List ℕ) (i : ℕ) :
    jsByte (u ++ l) (u.length + i) = l.get? i := by
  simp [jsByte, List.get?_eq_getElem?, List.getElem?_append_right]

theorem readVarLen_single (u l : List ℕ) (n b : ℕ) (hb : b < 128) (hn : n = u.length) :
    readVarLen (u ++ b :: l) n = (b, n + 1) := by
  subst hn
  unfold readVarLen
  rw [show u.length = u.length + 0 from rfl, List.drop_append 0]
  simp only [List.drop_zero, readVarLenGo, land_128_eq_zero hb, land_127_eq_mod,
    Nat.mod_eq_of_lt hb, reduceIte, Nat.zero_mul, Nat.zero_add]

theorem trackStep_on (pre rest : List ℕ) (trackEnd fuel : ℕ) (dl p v : ℕ)
    (tk pg tp : ℕ) (vl : ℚ) (rso : Option ℕ)
    (ac : List ((ℕ × Option ℕ) × ℕ × Option ℕ)) (ne : List MidiNoteEvent)
    (hend : pre.length < trackEnd) (hdl : dl < 2 ^ 28) (hv : v ≠ 0) :
    parseMidiTrackGo (pre ++ (writeVarLen dl ++ (0x90 :: p :: v :: rest))) trackEnd
        (fuel + 1)
        { offset := pre.length, tick := tk, runningStatus := rso, program := pg,
          volume := vl, tempo := tp, active := ac, noteEvents := ne } =
      parseMidiTrackGo (pre ++ (writeVarLen dl ++ (0x90 :: p :: v :: rest))) trackEnd
        fuel
        { offset := (pre ++ (writeVarLen dl ++ [0x90, p, v])).length, tick := tk + dl,
          runningStatus := some 0x90, program := pg, volume := vl, tempo := tp,
          active := activeSet ac (0, some p) (tk + dl, some v), noteEvents := ne } := by
  simp only [parseMidiTrackGo]
  rw [if_neg (show ¬ pre.length ≥ trackEnd by omega)]
  rw [readVarLen_write pre dl (0x90 :: p :: v :: rest) hdl]
  have hb : jsByte (pre ++ (writeVarLen dl ++ (0x90 :: p :: v :: rest)))
      (pre.length + (writeVarLen dl).length) = some 0x90 := by
    have := jsByte_at (pre ++ writeVarLen dl) (0x90 :: p :: v :: rest) 0
    rw [List.length_append] at this
    rw [List.append_assoc] at this
    simpa using this
  have hp : jsByte (pre ++ (writeVarLen dl ++ 0x90 :: p :: v :: rest))
      (pre.length + (writeVarLen dl).length + 1) = some p := by
    have := jsByte_at (pre ++ writeVarLen dl) (0x90 :: p :: v :: rest) 1
    rw [List.length_append, List.append_assoc] at this
    simpa using this
  have hv2 : jsByte (pre ++ (writeVarLen dl ++ 0x90 :: p :: v :: rest))
      (pre.length + (writeVarLen dl).length + 1 + 1) = some v := by
    have := jsByte_at (pre ++ writeVarLen dl) (0x90 :: p :: v :: rest) 2
    rw [List.length_append, List.append_assoc] at this
    rw [show pre.length + (writeVarLen dl).length + 1 + 1 =
      pre.length + (writeVarLen dl).length + 2 from by omega]
    simpa using this
  have e1 : (144 &&& 240 : ℕ) = 144 := by decide
  have e2 : (144 &&& 15 : ℕ) = 0 := by decide
  simp only [hb, hp, hv2, e1, e2, Nat.reduceLT, Nat.reduceEqDiff, reduceIte,
    Option.some.injEq, Option.getD_some, hv, or_self, false_or, ite_false, ite_true]
  congr 1
  simp only [TrackState.mk.injEq, List.length_append, List.length_cons, List.length_nil,
    and_true, true_and]
  omega

theorem trackStep_off (pre rest : List ℕ) (trackEnd fuel : ℕ) (dl p z : ℕ)
    (tk pg tp : ℕ) (vl : ℚ) (rso : Option ℕ)
    (ac : List ((ℕ × Option ℕ) × ℕ × Option ℕ)) (av : ℕ × Option ℕ)
    (ne : List MidiNoteEvent)
    (hend : pre.length < trackEnd) (hdl : dl < 2 ^ 28)
    (hget : activeGet ac (0, some p) = some av) :
    parseMidiTrackGo (pre ++ (writeVarLen dl ++ (0x80 :: p :: z :: rest))) trackEnd
        (fuel + 1)
        { offset := pre.length, tick := tk, runningStatus := rso, program := pg,
          volume := vl, tempo := tp, active := ac, noteEvents := ne } =
      parseMidiTrackGo (pre ++ (writeVarLen dl ++ (0x80 :: p :: z :: rest))) trackEnd
        fuel
        { offset := (pre ++ (writeVarLen dl ++ [0x80, p, z])).length, tick := tk + dl,
          runningStatus := some 0x80, program := pg, volume := vl, tempo := tp,
          active := activeDelete ac (0, some p),
          noteEvents := ne ++ [⟨av.1, tk + dl, some p, av.2⟩] } := by
  simp only [parseMidiTrackGo]
  rw [if_neg (show ¬ pre.length ≥ trackEnd by omega)]
  rw [readVarLen_write pre dl (0x80 :: p :: z :: rest) hdl]
  have hb : jsByte (pre ++ (writeVarLen dl ++ 0x80 :: p :: z :: rest))
      (pre.length + (writeVarLen dl).length) = some 0x80 := by
    have := jsByte_at (pre ++ writeVarLen dl) (0x80 :: p :: z :: rest) 0
    rw [List.length_append, List.append_assoc] at this
    simpa using this
  have hp : jsByte (pre ++ (writeVarLen dl ++ 0x80 :: p :: z :: rest))
      (pre.length + (writeVarLen dl).length + 1) = some p := by
    have := jsByte_at (pre ++ writeVarLen dl) (0x80 :: p :: z :: rest) 1
    rw [List.length_append, List.append_assoc] at this
    simpa using this
  have e1 : (128 &&& 240 : ℕ) = 128 := by decide
  have e2 : (128 &&& 15 : ℕ) = 0 := by decide
  simp only [hb, hp, e1, e2, hget, Nat.reduceLT, Nat.reduceEqDiff, reduceIte,
    Option.some.injEq, Option.getD_some, or_self, false_or, ite_false, ite_true]
  congr 1
  simp only [TrackState.mk.injEq, List.length_append, List.length_cons, List.length_nil,
    and_true, true_and]
  omega

theorem trackStep_tempo (pre rest : List ℕ) (trackEnd fuel : ℕ) (dl b2 b1 b0 : ℕ)
    (tk pg tp : ℕ) (vl : ℚ) (rso : Option ℕ)
    (ac : List ((ℕ × Option ℕ) × ℕ × Option ℕ)) (ne : List MidiNoteEvent)
    (hend : pre.length < trackEnd) (hdl : dl < 2 ^ 28) :
    parseMidiTrackGo
        (pre ++ (writeVarLen dl ++ (0xff :: 0x51 :: 0x03 :: b2 :: b1 :: b0 :: rest)))
        trackEnd (fuel + 1)
        { offset := pre.length, tick := tk, runningStatus := rso, program := pg,
          volume := vl, tempo := tp, active := ac, noteEvents := ne } =
      parseMidiTrackGo
        (pre ++ (writeVarLen dl ++ (0xff :: 0x51 :: 0x03 :: b2 :: b1 :: b0 :: rest)))
        trackEnd fuel
        { offset := (pre ++ (writeVarLen dl ++ [0xff, 0x51, 0x03, b2, b1, b0])).length,
          tick := tk + dl,
          runningStatus := some 0xff, program := pg, volume := vl,
          tempo := b2 * 2 ^ 16 + b1 * 2 ^ 8 + b0, active := ac, noteEvents := ne } := by
  simp only [parseMidiTrackGo]
  rw [if_neg (show ¬ pre.length ≥ trackEnd by omega)]
  rw [readVarLen_write pre dl _ hdl]
  have hb : jsByte (pre ++ (writeVarLen dl ++ 0xff :: 0x51 :: 0x03 :: b2 :: b1 :: b0 :: rest))
      (pre.length + (writeVarLen dl).length) = some 0xff := by
    have := jsByte_at (pre ++ writeVarLen dl) (0xff :: 0x51 :: 0x03 :: b2 :: b1 :: b0 :: rest) 0
    rw [List.length_append, List.append_assoc] at this
    simpa using this
  have hmt : jsByte (pre ++ (writeVarLen dl ++ 0xff :: 0x51 :: 0x03 :: b2 :: b1 :: b0 :: rest))
      (pre.length + (writeVarLen dl).length + 1) = some 0x51 := by
    have := jsByte_at (pre ++ writeVarLen dl) (0xff :: 0x51 :: 0x03 :: b2 :: b1 :: b0 :: rest) 1
    rw [List.length_append, List.append_assoc] at this
    simpa using this
  have hlen : readVarLen (pre ++ (writeVarLen dl ++ 0xff :: 0x51 :: 0x03 :: b2 :: b1 :: b0 :: rest))
      (pre.length + (writeVarLen dl).length + 1 + 1) =
      (3, pre.length + (writeVarLen dl).length + 1 + 1 + 1) := by
    have := readVarLen_single (pre ++ writeVarLen dl ++ [0xff, 0x51])
      (b2 :: b1 :: b0 :: rest) (pre.length + (writeVarLen dl).length + 1 + 1) 3
      (by norm_num) (by simp [List.length_append]; omega)
    rw [List.append_assoc, List.append_assoc] at this
    simpa using this
  have hdrop : (pre ++ (writeVarLen dl ++ 0xff :: 0x51 :: 0x03 :: b2 :: b1 :: b0 :: rest)).drop
      (pre.length + (writeVarLen dl).length + 1 + 1 + 1) = b2 :: b1 :: b0 :: rest := by
    have h5 : pre.length + (writeVarLen dl).length + 1 + 1 + 1 =
        (pre ++ writeVarLen dl).length + 3 := by
      rw [List.length_append]
    rw [h5, ← List.append_assoc, List.drop_append 3]
    rfl
  simp only [hb, hmt, hlen, hdrop, Nat.reduceLT, Nat.reduceEqDiff, reduceIte,
    Option.some.injEq, Option.getD_some, or_self, false_or, ite_false, ite_true,
    and_self, List.take_succ_cons, List.take_zero, List.length_cons, List.length_nil,
    List.getD, List.get?_cons_zero, List.get?_cons_succ, List.getD_cons_zero,
    List.getD_cons_succ]
  congr 1
  simp only [TrackState.mk.injEq, List.length_append, List.length_cons, List.length_nil,
    and_true, true_and]
  omega

theorem trackStep_program (pre rest : List ℕ) (trackEnd fuel : ℕ) (dl g : ℕ)
    (tk pg tp : ℕ) (vl : ℚ) (rso : Option ℕ)
    (ac : List ((ℕ × Option ℕ) × ℕ × Option ℕ)) (ne : List MidiNoteEvent)
    (hend : pre.length < trackEnd) (hdl : dl < 2 ^ 28) :
    parseMidiTrackGo (pre ++ (writeVarLen dl ++ (0xc0 :: g :: rest))) trackEnd
        (fuel + 1)
        { offset := pre.length, tick := tk, runningStatus := rso, program := pg,
          volume := vl, tempo := tp, active := ac, noteEvents := ne } =
      parseMidiTrackGo (pre ++ (writeVarLen dl ++ (0xc0 :: g :: rest))) trackEnd fuel
        { offset := (pre ++ (writeVarLen dl ++ [0xc0, g])).length, tick := tk + dl,
          runningStatus := some 0xc0, program := g, volume := vl, tempo := tp,
          active := ac, noteEvents := ne } := by
  simp only [parseMidiTrackGo]
  rw [if_neg (show ¬ pre.length ≥ trackEnd by omega)]
  rw [readVarLen_write pre dl (0xc0 :: g :: rest) hdl]
  have hb : jsByte (pre ++ (writeVarLen dl ++ 0xc0 :: g :: rest))
      (pre.length + (writeVarLen dl).length) = some 0xc0 := by
    have := jsByte_at (pre ++ writeVarLen dl) (0xc0 :: g :: rest) 0
    rw [List.length_append, List.append_assoc] at this
    simpa using this
  have hg : jsByte (pre ++ (writeVarLen dl ++ 0xc0 :: g :: rest))
      (pre.length + (writeVarLen dl).length + 1) = some g := by
    have := jsByte_at (pre ++ writeVarLen dl) (0xc0 :: g :: rest) 1
    rw [List.length_append, List.append_assoc] at this
    simpa using this
  have e1 : (192 &&& 240 : ℕ) = 192 := by decide
  simp only [hb, hg, e1, Nat.reduceLT, Nat.reduceEqDiff, reduceIte,
    Option.some.injEq, Option.getD_some, or_self, false_or, ite_false, ite_true]
  congr 1
  simp only [TrackState.mk.injEq, List.length_append, List.length_cons, List.length_nil,
    and_true, true_and]
  omega

theorem trackStep_controller (pre rest : List ℕ) (trackEnd fuel : ℕ) (dl w : ℕ)
    (tk pg tp : ℕ) (vl : ℚ) (rso : Option ℕ)
    (ac : List ((ℕ × Option ℕ) × ℕ × Option ℕ)) (ne : List MidiNoteEvent)
    (hend : pre.length < trackEnd) (hdl : dl < 2 ^ 28) :
    parseMidiTrackGo (pre ++ (writeVarLen dl ++ (0xb0 :: 0x07 :: w :: rest))) trackEnd
        (fuel + 1)
        { offset := pre.length, tick := tk, runningStatus := rso, program := pg,
          volume := vl, tempo := tp, active := ac, noteEvents := ne } =
      parseMidiTrackGo (pre ++ (writeVarLen dl ++ (0xb0 :: 0x07 :: w :: rest))) trackEnd
        fuel
        { offset := (pre ++ (writeVarLen dl ++ [0xb0, 0x07, w])).length, tick := tk + dl,
          runningStatus := some 0xb0, program := pg,
          volume := clampQ ((w : ℚ) / 127) 0 1, tempo := tp,
          active := ac, noteEvents := ne } := by
  simp only [parseMidiTrackGo]
  rw [if_neg (show ¬ pre.length ≥ trackEnd by omega)]
  rw [readVarLen_write pre dl (0xb0 :: 0x07 :: w :: rest) hdl]
  have hb : jsByte (pre ++ (writeVarLen dl ++ 0xb0 :: 0x07 :: w :: rest))
      (pre.length + (writeVarLen dl).length) = some 0xb0 := by
    have := jsByte_at (pre ++ writeVarLen dl) (0xb0 :: 0x07 :: w :: rest) 0
    rw [List.length_append, List.append_assoc] at this
    simpa using this
  have hd1 : jsByte (pre ++ (writeVarLen dl ++ 0xb0 :: 0x07 :: w :: rest))
      (pre.length + (writeVarLen dl).length + 1) = some 0x07 := by
    have := jsByte_at (pre ++ writeVarLen dl) (0xb0 :: 0x07 :: w :: rest) 1
    rw [List.length_append, List.append_assoc] at this
    simpa using this
  have hd2 : jsByte (pre ++ (writeVarLen dl ++ 0xb0 :: 0x07 :: w :: rest))
      (pre.length + (writeVarLen dl).length + 1 + 1) = some w := by
    have := jsByte_at (pre ++ writeVarLen dl) (0xb0 :: 0x07 :: w :: rest) 2
    rw [List.length_append, List.append_assoc] at this
    rw [show pre.length + (writeVarLen dl).length + 1 + 1 =
      pre.length + (writeVarLen dl).length + 2 from by omega]
    simpa using this
  have e1 : (176 &&& 240 : ℕ) = 176 := by decide
  simp only [hb, hd1, hd2, e1, Nat.reduceLT, Nat.reduceEqDiff, reduceIte,
    Option.some.injEq, Option.getD_some, or_self, false_or, ite_false, ite_true]
  congr 1
  simp only [TrackState.mk.injEq, List.length_append, List.length_cons, List.length_nil,
    and_true, true_and]
  omega

theorem trackStep_eot (pre : List ℕ) (trackEnd fuel : ℕ)
    (tk pg tp : ℕ) (vl : ℚ) (rso : Option ℕ)
    (ac : List ((ℕ × Option ℕ) × ℕ × Option ℕ)) (ne : List MidiNoteEvent)
    (hend1 : pre.length < trackEnd) (hend2 : trackEnd ≤ pre.length + 4)
    (hfuel : 2 ≤ fuel) :
    parseMidiTrackGo (pre ++ [0x00, 0xff, 0x2f, 0x00]) trackEnd fuel
        { offset := pre.length, tick := tk, runningStatus := rso, program := pg,
          volume := vl, tempo := tp, active := ac, noteEvents := ne } =
      { offset := pre.length + 4, tick := tk, runningStatus := some 0xff,
        program := pg, volume := vl, tempo := tp, active := ac,
        noteEvents := ne } := by
  obtain ⟨f, rfl⟩ : ∃ f, fuel = f + 2 := ⟨fuel - 2, by omega⟩
  show parseMidiTrackGo (pre ++ [0x00, 0xff, 0x2f, 0x00]) trackEnd (f + 1 + 1) _ = _
  simp only [parseMidiTrackGo]
  rw [if_neg (show ¬ pre.length ≥ trackEnd by omega)]
  have hrv : readVarLen (pre ++ [0x00, 0xff, 0x2f, 0x00]) pre.length =
      (0, pre.length + 1) := by
    have := readVarLen_single pre [0xff, 0x2f, 0x00] pre.length 0 (by norm_num) rfl
    simpa using this
  have hb : jsByte (pre ++ [0x00, 0xff, 0x2f, 0x00]) (pre.length + 1) = some 0xff := by
    have := jsByte_at pre [0x00, 0xff, 0x2f, 0x00] 1
    simpa using this
  have hmt : jsByte (pre ++ [0x00, 0xff, 0x2f, 0x00]) (pre.length + 1 + 1) =
      some 0x2f := by
    have := jsByte_at pre [0x00, 0xff, 0x2f, 0x00] 2
    rw [show pre.length + 1 + 1 = pre.length + 2 from by omega]
    simpa using this
  have hlen : readVarLen (pre ++ [0x00, 0xff, 0x2f, 0x00]) (pre.length + 1 + 1 + 1) =
      (0, pre.length + 1 + 1 + 1 + 1) := by
    have := readVarLen_single (pre ++ [0x00, 0xff, 0x2f]) [] (pre.length + 1 + 1 + 1) 0
      (by norm_num) (by simp)
    rw [show (pre ++ [0x00, 0xff, 0x2f]) ++ [(0 : ℕ)] = pre ++ [0x00, 0xff, 0x2f, 0x00]
      from by simp] at this
    exact this
  simp only [hrv, hb, hmt, hlen, Nat.reduceLT, Nat.reduceEqDiff, reduceIte,
    Option.some.injEq, Option.getD_some, or_self, false_or, false_and, ite_false,
    ite_true, List.take_zero, Nat.add_zero]
  rw [if_pos (show pre.length + 1 + 1 + 1 + 1 ≥ trackEnd by omega)]

/-! ## C1, stage 3b: the reader over the whole serialized message stream -/

theorem deltaEncode_append (a : List MidiEvent) :
    ∀ (b : List MidiEvent) (last : ℤ),
      deltaEncode (a ++ b) last =
        deltaEncode a last ++ deltaEncode b (lastTickOf a last) := by
  induction a with
  | nil => intro b last; rfl
  | cons m a' ih =>
      intro b last
      simp only [List.cons_append, deltaEncode, lastTickOf, ih, List.append_assoc,
        List.append_eq]

theorem activeSet_append (k : ℕ × Option ℕ) (v : ℕ × Option ℕ) :
    ∀ (ac : List ((ℕ × Option ℕ) × ℕ × Option ℕ)),
      (∀ e ∈ ac, e.1 ≠ k) → activeSet ac k v = ac ++ [(k, v)] := by
  intro ac
  induction ac with
  | nil => intro _; rfl
  | cons e t ih =>
      intro h
      simp only [activeSet]
      rw [if_neg (h e (List.mem_cons_self e t))]
      rw [ih (fun e' he' => h e' (List.mem_cons_of_mem e he'))]
      rfl

theorem lastTickOf_const (t : ℤ) :
    ∀ (msgs : List MidiEvent), (∀ m ∈ msgs, m.tick = t) → msgs ≠ [] →
      ∀ last, lastTickOf msgs last = t := by
  intro msgs
  induction msgs with
  | nil => intro _ h; exact absurd rfl h
  | cons m rest ih =>
      intro hall _ last
      show lastTickOf rest m.tick = t
      cases hr : rest with
      | nil =>
          subst hr
          exact hall m (List.mem_cons_self m [])
      | cons x xs =>
          subst hr
          exact ih (fun m' hm' => hall m' (List.mem_cons_of_mem _ hm')) (by simp) m.tick

theorem parse_ons {α : Type} (pitch : α → ℕ) (vb : ℕ) (t : ℤ) (trackEnd : ℕ)
    (hvb : vb ≠ 0) (ht0 : 0 ≤ t) (ht28 : t < 2 ^ 28) :
    ∀ (ns : List α) (pre suffix : List ℕ) (last : ℤ) (fuel : ℕ)
      (pg tp : ℕ) (vl : ℚ) (rso : Option ℕ)
      (ac : List ((ℕ × Option ℕ) × ℕ × Option ℕ)) (ne : List MidiNoteEvent),
      ns.length ≤ fuel →
      0 ≤ last → last ≤ t →
      (∀ n ∈ ns, ∀ e ∈ ac, e.1 ≠ ((0 : ℕ), some (pitch n))) →
      ns.Pairwise (fun a b => pitch a ≠ pitch b) →
      pre.length +
          (deltaEncode (ns.map (fun n => ⟨t, 3, [0x90, pitch n, vb]⟩)) last).length + 4 ≤
        trackEnd →
      parseMidiTrackGo
          (pre ++ (deltaEncode (ns.map (fun n => ⟨t, 3, [0x90, pitch n, vb]⟩)) last ++
            suffix)) trackEnd fuel
          { offset := pre.length, tick := last.toNat, runningStatus := rso,
            program := pg, volume := vl, tempo := tp, active := ac, noteEvents := ne } =
        parseMidiTrackGo
          (pre ++ (deltaEncode (ns.map (fun n => ⟨t, 3, [0x90, pitch n, vb]⟩)) last ++
            suffix)) trackEnd (fuel - ns.length)
          { offset := (pre ++
              deltaEncode (ns.map (fun n => ⟨t, 3, [0x90, pitch n, vb]⟩)) last).length,
            tick := if ns.isEmpty then last.toNat else t.toNat,
            runningStatus := if ns.isEmpty then rso else some 0x90,
            program := pg, volume := vl, tempo := tp,
            active := ac ++ ns.map (fun n => (((0 : ℕ), some (pitch n)),
              (t.toNat, some vb))),
            noteEvents := ne } := by
  intro ns
  induction ns with
  | nil =>
      intro pre suffix last fuel pg tp vl rso ac ne hfuel hl0 hlt hfresh hdist hend
      simp [deltaEncode]
  | cons n ns' ih =>
      intro pre suffix last fuel pg tp vl rso ac ne hfuel hl0 hlt hfresh hdist hend
      obtain ⟨f, rfl⟩ : ∃ f, fuel = f + 1 :=
        ⟨fuel - 1, by simp only [List.length_cons] at hfuel; omega⟩
      have hdE : deltaEncode
          ((n :: ns').map (fun n => (⟨t, 3, [0x90, pitch n, vb]⟩ : MidiEvent))) last =
          writeVarLen (t - last).toNat ++ [0x90, pitch n, vb] ++
            deltaEncode (ns'.map (fun n => (⟨t, 3, [0x90, pitch n, vb]⟩ : MidiEvent))) t :=
        rfl
      have hwpos := writeVarLen_length_pos (t - last).toNat
      have hdl : (t - last).toNat < 2 ^ 28 := by omega
      have hlen2 : (deltaEncode
          ((n :: ns').map (fun n => (⟨t, 3, [0x90, pitch n, vb]⟩ : MidiEvent))) last).length =
          (writeVarLen (t - last).toNat).length + 3 +
            (deltaEncode (ns'.map (fun n => (⟨t, 3, [0x90, pitch n, vb]⟩ : MidiEvent))) t).length := by
        rw [hdE]
        simp only [List.length_append, List.length_cons, List.length_nil]
      have hlen1 : (pre ++ (writeVarLen (t - last).toNat ++ [0x90, pitch n, vb])).length =
          pre.length + (writeVarLen (t - last).toNat).length + 3 := by
        simp only [List.length_append, List.length_cons, List.length_nil]
        omega
      rw [hdE]
      simp only [List.append_assoc, List.cons_append, List.nil_append]
      rw [trackStep_on pre
        (deltaEncode (ns'.map (fun n => (⟨t, 3, [0x90, pitch n, vb]⟩ : MidiEvent))) t ++
          suffix)
        trackEnd f (t - last).toNat (pitch n) vb last.toNat pg tp vl rso ac ne
        (by omega) hdl hvb]
      have htick : last.toNat + (t - last).toNat = t.toNat := by omega
      rw [htick]
      rw [activeSet_append ((0 : ℕ), some (pitch n)) (t.toNat, some vb) ac
        (hfresh n (List.mem_cons_self n ns'))]
      have hpw := List.pairwise_cons.mp hdist
      have key := ih (pre ++ (writeVarLen (t - last).toNat ++ [0x90, pitch n, vb])) suffix
        t f pg tp vl (some 0x90)
        (ac ++ [(((0 : ℕ), some (pitch n)), (t.toNat, some vb))]) ne
        (by simp only [List.length_cons] at hfuel; omega) ht0 le_rfl
        (by
          intro n' hn' e he
          rcases List.mem_append.mp he with hea | heb
          · exact hfresh n' (List.mem_cons_of_mem n hn') e hea
          · simp only [List.mem_singleton] at heb
            subst heb
            simp only [ne_eq, Prod.mk.injEq, Option.some.injEq]
            intro hcon
            exact hpw.1 n' hn' hcon.2)
        hpw.2
        (by rw [hlen1]; omega)
      simp only [List.append_assoc, List.cons_append, List.nil_append] at key
      rw [key]
      simp only [List.isEmpty_cons, List.isEmpty_nil, ite_self, Bool.false_eq_true,
        if_false, ite_false, List.map_cons, List.length_cons, Nat.succ_sub_succ,
        List.append_assoc, List.singleton_append, List.cons_append]

theorem parse_offs {α : Type} (pitch : α → ℕ) (vb ts : ℕ) (t : ℤ) (trackEnd : ℕ)
    (ht0 : 0 ≤ t) (ht28 : t < 2 ^ 28) :
    ∀ (ns : List α) (pre suffix : List ℕ) (last : ℤ) (fuel : ℕ)
      (pg tp : ℕ) (vl : ℚ) (rso : Option ℕ) (ne : List MidiNoteEvent),
      ns.length ≤ fuel →
      0 ≤ last → last ≤ t →
      pre.length +
          (deltaEncode (ns.map (fun n => ⟨t, 0, [0x80, pitch n, 0]⟩)) last).length + 4 ≤
        trackEnd →
      parseMidiTrackGo
          (pre ++ (deltaEncode (ns.map (fun n => ⟨t, 0, [0x80, pitch n, 0]⟩)) last ++
            suffix)) trackEnd fuel
          { offset := pre.length, tick := last.toNat, runningStatus := rso,
            program := pg, volume := vl, tempo := tp,
            active := ns.map (fun n => (((0 : ℕ), some (pitch n)), (ts, some vb))),
            noteEvents := ne } =
        parseMidiTrackGo
          (pre ++ (deltaEncode (ns.map (fun n => ⟨t, 0, [0x80, pitch n, 0]⟩)) last ++
            suffix)) trackEnd (fuel - ns.length)
          { offset := (pre ++
              deltaEncode (ns.map (fun n => ⟨t, 0, [0x80, pitch n, 0]⟩)) last).length,
            tick := if ns.isEmpty then last.toNat else t.toNat,
            runningStatus := if ns.isEmpty then rso else some 0x80,
            program := pg, volume := vl, tempo := tp, active := [],
            noteEvents := ne ++ ns.map (fun n =>
              ⟨ts, t.toNat, some (pitch n), some vb⟩) } := by
  intro ns
  induction ns with
  | nil =>
      intro pre suffix last fuel pg tp vl rso ne hfuel hl0 hlt hend
      simp [deltaEncode]
  | cons n ns' ih =>
      intro pre suffix last fuel pg tp vl rso ne hfuel hl0 hlt hend
      obtain ⟨f, rfl⟩ : ∃ f, fuel = f + 1 :=
        ⟨fuel - 1, by simp only [List.length_cons] at hfuel; omega⟩
      have hdE : deltaEncode
          ((n :: ns').map (fun n => (⟨t, 0, [0x80, pitch n, 0]⟩ : MidiEvent))) last =
          writeVarLen (t - last).toNat ++ [0x80, pitch n, 0] ++
            deltaEncode (ns'.map (fun n => (⟨t, 0, [0x80, pitch n, 0]⟩ : MidiEvent))) t :=
        rfl
      have hwpos := writeVarLen_length_pos (t - last).toNat
      have hdl : (t - last).toNat < 2 ^ 28 := by omega
      have hlen2 : (deltaEncode
          ((n :: ns').map (fun n => (⟨t, 0, [0x80, pitch n, 0]⟩ : MidiEvent))) last).length =
          (writeVarLen (t - last).toNat).length + 3 +
            (deltaEncode (ns'.map (fun n => (⟨t, 0, [0x80, pitch n, 0]⟩ : MidiEvent))) t).length := by
        rw [hdE]
        simp only [List.length_append, List.length_cons, List.length_nil]
      have hlen1 : (pre ++ (writeVarLen (t - last).toNat ++ [0x80, pitch n, 0])).length =
          pre.length + (writeVarLen (t - last).toNat).length + 3 := by
        simp only [List.length_append, List.length_cons, List.length_nil]
        omega
      rw [hdE]
      simp only [List.append_assoc, List.cons_append, List.nil_append, List.map_cons]
      rw [trackStep_off pre
        (deltaEncode (ns'.map (fun n => (⟨t, 0, [0x80, pitch n, 0]⟩ : MidiEvent))) t ++
          suffix)
        trackEnd f (t - last).toNat (pitch n) 0 last.toNat pg tp vl rso
        ((((0 : ℕ), some (pitch n)), (ts, some vb)) ::
          ns'.map (fun n => (((0 : ℕ), some (pitch n)), (ts, some vb))))
        (ts, some vb) ne (by omega) hdl (by simp [activeGet])]
      have htick : last.toNat + (t - last).toNat = t.toNat := by omega
      rw [htick]
      have hdel : activeDelete
          ((((0 : ℕ), some (pitch n)), (ts, some vb)) ::
            ns'.map (fun n => (((0 : ℕ), some (pitch n)), (ts, some vb))))
          ((0 : ℕ), some (pitch n)) =
          ns'.map (fun n => (((0 : ℕ), some (pitch n)), (ts, some vb))) := by
        simp [activeDelete]
      rw [hdel]
      have key := ih (pre ++ (writeVarLen (t - last).toNat ++ [0x80, pitch n, 0])) suffix
        t f pg tp vl (some 0x80)
        (ne ++ [⟨ts, t.toNat, some (pitch n), some vb⟩])
        (by simp only [List.length_cons] at hfuel; omega) ht0 le_rfl
        (by rw [hlen1]; omega)
      simp only [List.append_assoc, List.cons_append, List.nil_append] at key
      rw [key]
      simp only [List.isEmpty_cons, List.isEmpty_nil, ite_self, Bool.false_eq_true,
        if_false, ite_false, List.map_cons, List.length_cons, Nat.succ_sub_succ,
        List.append_assoc, List.singleton_append, List.cons_append]

theorem parse_stream (header : ScoreHeader) (trackEnd : ℕ)
    (hvb : velByteOf header ≠ 0) :
    ∀ (es : List ScoreEvent) (pre suffix : List ℕ) (last t : ℤ) (fuel : ℕ)
      (pg tp : ℕ) (vl : ℚ) (rso : Option ℕ) (ne : List MidiNoteEvent),
      (∀ e ∈ es, 480 ≤ durTicksOf e) →
      (∀ e ∈ es, e.type ≠ .rest → e.notes ≠ [] ∧
        e.notes.Pairwise (fun a b => pitchByteOf header a ≠ pitchByteOf header b)) →
      (sortedMsgs header es t).length ≤ fuel →
      0 ≤ last → last ≤ t →
      t + (es.map durTicksOf).sum < 2 ^ 28 →
      pre.length + (deltaEncode (sortedMsgs header es t) last).length + 4 ≤ trackEnd →
      ∃ tk rs,
        parseMidiTrackGo (pre ++ (deltaEncode (sortedMsgs header es t) last ++ suffix))
            trackEnd fuel
            { offset := pre.length, tick := last.toNat, runningStatus := rso,
              program := pg, volume := vl, tempo := tp, active := [],
              noteEvents := ne } =
          parseMidiTrackGo (pre ++ (deltaEncode (sortedMsgs header es t) last ++ suffix))
            trackEnd (fuel - (sortedMsgs header es t).length)
            { offset := (pre ++ deltaEncode (sortedMsgs header es t) last).length,
              tick := tk, runningStatus := rs, program := pg, volume := vl,
              tempo := tp, active := [],
              noteEvents := ne ++ expectedNotes header es t } := by
  intro es
  induction es with
  | nil =>
      intro pre suffix last t fuel pg tp vl rso ne hdur hwf hfuel hl0 hlt hbd hend
      exact ⟨last.toNat, rso, by simp [sortedMsgs, deltaEncode, expectedNotes]⟩
  | cons e rest ih =>
      intro pre suffix last t fuel pg tp vl rso ne hdur hwf hfuel hl0 hlt hbd hend
      have hde : 480 ≤ durTicksOf e := hdur e (List.mem_cons_self e rest)
      have hdurR : ∀ e' ∈ rest, 480 ≤ durTicksOf e' :=
        fun e' he' => hdur e' (List.mem_cons_of_mem e he')
      have hwfR : ∀ e' ∈ rest, e'.type ≠ .rest → e'.notes ≠ [] ∧
          e'.notes.Pairwise (fun a b => pitchByteOf header a ≠ pitchByteOf header b) :=
        fun e' he' => hwf e' (List.mem_cons_of_mem e he')
      have hsum0 : 0 ≤ (rest.map durTicksOf).sum := by
        apply List.sum_nonneg
        intro x hx
        rcases List.mem_map.mp hx with ⟨e', he', rfl⟩
        have := hdurR e' he'
        omega
      simp only [List.map_cons, List.sum_cons] at hbd
      cases hty : e.type
      case rest =>
          have hnil : sortedMsgs header (e :: rest) t =
              sortedMsgs header rest (t + durTicksOf e) := by
            simp [sortedMsgs, hty]
          have henil : expectedNotes header (e :: rest) t =
              expectedNotes header rest (t + durTicksOf e) := by
            simp [expectedNotes, hty]
          rw [hnil] at hfuel hend
          rw [hnil, henil]
          exact ih pre suffix last (t + durTicksOf e) fuel pg tp vl rso ne hdurR hwfR
            hfuel hl0 (by omega) (by omega) hend
      all_goals
      · have hblock := hwf e (List.mem_cons_self e rest) (by rw [hty]; decide)
        have hne := hblock.1
        have hpw := hblock.2
        have hni : e.notes.isEmpty = false := by
          cases hnn : e.notes with
          | nil => exact absurd hnn hne
          | cons a l => rfl
        have hmapne : ∀ (f : NoteSpec → MidiEvent), e.notes.map f ≠ [] := by
          intro f h
          exact hne (List.map_eq_nil_iff.mp h)
        have hsplit : sortedMsgs header (e :: rest) t =
            e.notes.map (fun n =>
                (⟨t, 3, [0x90, pitchByteOf header n, velByteOf header]⟩ : MidiEvent)) ++
              (e.notes.map (fun n =>
                (⟨t + durTicksOf e, 0, [0x80, pitchByteOf header n, 0]⟩ : MidiEvent)) ++
                sortedMsgs header rest (t + durTicksOf e)) := by
          show (if e.type = .rest then [] else _) ++ _ = _
          rw [if_neg (by rw [hty]; decide)]
          rw [List.append_assoc]
          rfl
        have hLon : lastTickOf (e.notes.map (fun n =>
            (⟨t, 3, [0x90, pitchByteOf header n, velByteOf header]⟩ : MidiEvent))) last =
            t := by
          apply lastTickOf_const
          · intro m hm
            rcases List.mem_map.mp hm with ⟨n, _, rfl⟩
            rfl
          · exact hmapne _
        have hLoff : lastTickOf (e.notes.map (fun n =>
            (⟨t + durTicksOf e, 0, [0x80, pitchByteOf header n, 0]⟩ : MidiEvent))) t =
            t + durTicksOf e := by
          apply lastTickOf_const
          · intro m hm
            rcases List.mem_map.mp hm with ⟨n, _, rfl⟩
            rfl
          · exact hmapne _
        have hdE3 : deltaEncode (sortedMsgs header (e :: rest) t) last =
            deltaEncode (e.notes.map (fun n =>
                (⟨t, 3, [0x90, pitchByteOf header n, velByteOf header]⟩ : MidiEvent))) last ++
              (deltaEncode (e.notes.map (fun n =>
                (⟨t + durTicksOf e, 0, [0x80, pitchByteOf header n, 0]⟩ : MidiEvent))) t ++
                deltaEncode (sortedMsgs header rest (t + durTicksOf e))
                  (t + durTicksOf e)) := by
          rw [hsplit, deltaEncode_append, hLon, deltaEncode_append, hLoff]
        have hlenS : (sortedMsgs header (e :: rest) t).length =
            e.notes.length + e.notes.length +
              (sortedMsgs header rest (t + durTicksOf e)).length := by
          rw [hsplit]
          simp only [List.length_append, List.length_map]
          omega
        have hLdE : (deltaEncode (sortedMsgs header (e :: rest) t) last).length =
            (deltaEncode (e.notes.map (fun n =>
                (⟨t, 3, [0x90, pitchByteOf header n, velByteOf header]⟩ : MidiEvent))) last).length +
              (deltaEncode (e.notes.map (fun n =>
                (⟨t + durTicksOf e, 0, [0x80, pitchByteOf header n, 0]⟩ : MidiEvent))) t).length +
              (deltaEncode (sortedMsgs header rest (t + durTicksOf e))
                (t + durTicksOf e)).length := by
          rw [hdE3]
          simp only [List.length_append]
          omega
        rw [hdE3]
        simp only [List.append_assoc]
        rw [parse_ons (pitchByteOf header) (velByteOf header) t trackEnd hvb
          (by omega) (by omega) e.notes pre
          (deltaEncode (e.notes.map (fun n =>
              (⟨t + durTicksOf e, 0, [0x80, pitchByteOf header n, 0]⟩ : MidiEvent))) t ++
            (deltaEncode (sortedMsgs header rest (t + durTicksOf e))
              (t + durTicksOf e) ++ suffix))
          last fuel pg tp vl rso [] ne
          (by rw [hlenS] at hfuel; omega)
          hl0 hlt (fun _ _ x hx => absurd hx (List.not_mem_nil x)) hpw (by omega)]
        simp only [hni, Bool.false_eq_true, if_false, ite_false, List.nil_append]
        have key2 := parse_offs (pitchByteOf header) (velByteOf header) t.toNat
          (t + durTicksOf e) trackEnd (by omega) (by omega) e.notes
          (pre ++ deltaEncode (e.notes.map (fun n =>
            (⟨t, 3, [0x90, pitchByteOf header n, velByteOf header]⟩ : MidiEvent))) last)
          (deltaEncode (sortedMsgs header rest (t + durTicksOf e))
            (t + durTicksOf e) ++ suffix)
          t (fuel - e.notes.length)
          pg tp vl (some 0x90) ne
          (by rw [hlenS] at hfuel; omega)
          (by omega) (by omega)
          (by
            simp only [List.length_append, List.length_map]
            rw [hLdE] at hend
            omega)
        simp only [List.append_assoc] at key2
        rw [key2]
        simp only [hni, Bool.false_eq_true, if_false, ite_false]
        have key3 := ih
          ((pre ++ deltaEncode (e.notes.map (fun n =>
              (⟨t, 3, [0x90, pitchByteOf header n, velByteOf header]⟩ : MidiEvent))) last) ++
            deltaEncode (e.notes.map (fun n =>
              (⟨t + durTicksOf e, 0, [0x80, pitchByteOf header n, 0]⟩ : MidiEvent))) t)
          suffix (t + durTicksOf e) (t + durTicksOf e)
          (fuel - e.notes.length - e.notes.length)
          pg tp vl (some 0x80)
          (ne ++ e.notes.map (fun n =>
            (⟨t.toNat, (t + durTicksOf e).toNat, some (pitchByteOf header n),
              some (velByteOf header)⟩ : MidiNoteEvent)))
          hdurR hwfR
          (by rw [hlenS] at hfuel; omega)
          (by omega) le_rfl (by omega)
          (by
            simp only [List.length_append, List.length_map]
            rw [hLdE] at hend
            omega)
        obtain ⟨tk3, rs3, hkey3⟩ := key3
        simp only [List.append_assoc] at hkey3
        rw [hkey3]
        refine ⟨tk3, rs3, ?_⟩
        have hexp : expectedNotes header (e :: rest) t =
            e.notes.map (fun n =>
              (⟨t.toNat, (t + durTicksOf e).toNat, some (pitchByteOf header n),
                some (velByteOf header)⟩ : MidiNoteEvent)) ++
              expectedNotes header rest (t + durTicksOf e) := by
          show (if e.type = .rest then [] else _) ++ _ = _
          rw [if_neg (by rw [hty]; decide)]
        congr 1
        · rw [hlenS]
          omega
        · rw [hexp]

/-! ## C1, stage 4: the reader applied to the writer's whole buffer -/

theorem velByteOf_pos (header : ScoreHeader) : 1 ≤ velByteOf header := by
  unfold velByteOf velocityOf clampZ
  have h1 : (1 : ℤ) ≤ max 1 (min 127 (jsRound (header.volume * 127))) :=
    le_max_left _ _
  omega

theorem velByteOf_ne_zero (header : ScoreHeader) : velByteOf header ≠ 0 := by
  have := velByteOf_pos header
  omega

theorem deltaEncode_length_ge :
    ∀ (msgs : List MidiEvent) (last : ℤ),
      msgs.length ≤ (deltaEncode msgs last).length := by
  intro msgs
  induction msgs with
  | nil => intro last; simp [deltaEncode]
  | cons m rest ih =>
      intro last
      have h1 := writeVarLen_length_pos (m.tick - last).toNat
      have h2 := ih m.tick
      simp only [deltaEncode, List.length_append, List.length_cons]
      omega

theorem getD_at (u l : List ℕ) (i : ℕ) :
    (u ++ l).getD (u.length + i) 0 = l.getD i 0 := by
  simp [List.getD, List.get?_eq_getElem?, List.getElem?_append_right]

theorem readUInt32BE_at (u : List ℕ) (n : ℕ) (rest : List ℕ) (hn : n < 2 ^ 32) :
    readUInt32BE (u ++ (uint32BE n ++ rest)) u.length = n := by
  unfold readUInt32BE uint32BE
  have h0 := getD_at u ([n / 2 ^ 24 % 256, n / 2 ^ 16 % 256, n / 2 ^ 8 % 256, n % 256] ++
    rest) 0
  have h1 := getD_at u ([n / 2 ^ 24 % 256, n / 2 ^ 16 % 256, n / 2 ^ 8 % 256, n % 256] ++
    rest) 1
  have h2 := getD_at u ([n / 2 ^ 24 % 256, n / 2 ^ 16 % 256, n / 2 ^ 8 % 256, n % 256] ++
    rest) 2
  have h3 := getD_at u ([n / 2 ^ 24 % 256, n / 2 ^ 16 % 256, n / 2 ^ 8 % 256, n % 256] ++
    rest) 3
  simp only [Nat.add_zero] at h0
  simp only [List.cons_append, List.nil_append] at h0 h1 h2 h3 ⊢
  rw [h0, h1, h2, h3]
  simp only [List.getD_cons_zero, List.getD_cons_succ]
  omega

theorem lastTickOf_meta (header : ScoreHeader) :
    lastTickOf (metaMessages header) 0 = 0 := rfl

/-- The meta block of the writer's track, serialized. -/
theorem metaSer (header : ScoreHeader) :
    deltaEncode (metaMessages header) 0 =
      writeVarLen 0 ++ (0xff :: 0x51 :: 0x03 :: (tempoOf header).toNat / 2 ^ 16 % 256 :: (tempoOf header).toNat / 2 ^ 8 % 256 :: (tempoOf header).toNat % 256 ::
        (writeVarLen 0 ++ (0xc0 :: header.program % 128 ::
          (writeVarLen 0 ++ [0xb0, 0x07, (velocityOf header).toNat])))) := by
  simp [metaMessages, deltaEncode, Int.sub_zero, Int.toNat_zero, List.append_assoc]

theorem metaSer_length (header : ScoreHeader) :
    (deltaEncode (metaMessages header) 0).length = 14 := by
  rw [metaSer]
  rfl

/-- `parseMidiTrack` applied to the writer's single track recovers the
program, the channel volume and exactly the expected note events. -/
theorem parseMidiTrack_writer (header : ScoreHeader) (es : List ScoreEvent)
    (hdur : ∀ e ∈ es, 480 ≤ durTicksOf e)
    (hwf : ∀ e ∈ es, e.type ≠ .rest → e.notes ≠ [] ∧
      e.notes.Pairwise (fun a b => pitchByteOf header a ≠ pitchByteOf header b))
    (hbd : (es.map durTicksOf).sum < 2 ^ 28) :
    ∃ tp, parseMidiTrack (createMidiFile header es 480) 22
        (trackDataOf header es 480).length 500000 =
      { program := header.program % 128,
        volume := clampQ (((velocityOf header).toNat : ℚ) / 127) 0 1,
        noteEvents := expectedNotes header es 0, tempo := tp } := by
  refine ⟨((tempoOf header).toNat / 2 ^ 16 % 256 * 2 ^ 16 + (tempoOf header).toNat / 2 ^ 8 % 256 * 2 ^ 8 + (tempoOf header).toNat % 256), ?_⟩
  have hwv0 : writeVarLen 0 = [0] := rfl
  have hP0len : ∀ X : ℕ, (([77, 84, 104, 100, 0, 0, 0, 6, 0, 0, 0, 1, 1, 224, 77, 84, 114, 107] : List ℕ) ++ uint32BE X).length = 22 := by
    intro X
    simp [uint32BE]
  have h22 := hP0len ((deltaEncode (sortedMsgs header es 0) 0).length + 18)
  have hTD2 : trackDataOf header es 480 =
      deltaEncode (metaMessages header ++ sortedMsgs header es 0) 0 ++
        [0x00, 0xff, 0x2f, 0x00] := by
    unfold trackDataOf
    rw [sortedMidiEvents_eq header es hdur]
  have hL18 : (trackDataOf header es 480).length = (deltaEncode (sortedMsgs header es 0) 0).length + 18 := by
    rw [hTD2, deltaEncode_append, lastTickOf_meta]
    simp only [List.length_append, metaSer_length, List.length_cons, List.length_nil]
    omega
  have hbuf : createMidiFile header es 480 =
      [77, 84, 104, 100, 0, 0, 0, 6, 0, 0, 0, 1, 1, 224, 77, 84, 114, 107] ++ (uint32BE (trackDataOf header es 480).length ++
        trackDataOf header es 480) := by
    simp [createMidiFile, uint16BE, uint32BE]
  have hdata : createMidiFile header es 480 =
      ([77, 84, 104, 100, 0, 0, 0, 6, 0, 0, 0, 1, 1, 224, 77, 84, 114, 107] ++ uint32BE ((deltaEncode (sortedMsgs header es 0) 0).length + 18)) ++ (writeVarLen 0 ++ (0xff :: 0x51 :: 0x03 :: (tempoOf header).toNat / 2 ^ 16 % 256 :: (tempoOf header).toNat / 2 ^ 8 % 256 :: (tempoOf header).toNat % 256 ::
        (writeVarLen 0 ++ (0xc0 :: header.program % 128 ::
          (writeVarLen 0 ++ (0xb0 :: 0x07 :: (velocityOf header).toNat ::
            ((deltaEncode (sortedMsgs header es 0) 0) ++ [0x00, 0xff, 0x2f, 0x00]))))))) := by
    rw [hbuf, hL18, hTD2, deltaEncode_append, lastTickOf_meta, metaSer]
    simp only [List.append_assoc, List.cons_append, List.nil_append, Nat.add_zero]
  have hge := deltaEncode_length_ge (sortedMsgs header es 0) 0
  have hP1len : ((([77, 84, 104, 100, 0, 0, 0, 6, 0, 0, 0, 1, 1, 224, 77, 84, 114, 107] ++ uint32BE ((deltaEncode (sortedMsgs header es 0) 0).length + 18)) ++ (writeVarLen 0 ++ [0xff, 0x51, 0x03, (tempoOf header).toNat / 2 ^ 16 % 256, (tempoOf header).toNat / 2 ^ 8 % 256, (tempoOf header).toNat % 256])) : List ℕ).length = 29 := by
    simp only [List.length_append, h22, hwv0, List.length_cons, List.length_nil]
  have hP2len : (((([77, 84, 104, 100, 0, 0, 0, 6, 0, 0, 0, 1, 1, 224, 77, 84, 114, 107] ++ uint32BE ((deltaEncode (sortedMsgs header es 0) 0).length + 18)) ++ (writeVarLen 0 ++ [0xff, 0x51, 0x03, (tempoOf header).toNat / 2 ^ 16 % 256, (tempoOf header).toNat / 2 ^ 8 % 256, (tempoOf header).toNat % 256])) ++ (writeVarLen 0 ++ [0xc0, header.program % 128])) : List ℕ).length = 32 := by
    simp only [List.length_append, h22, hwv0, List.length_cons, List.length_nil]
  have hP3len : ((((([77, 84, 104, 100, 0, 0, 0, 6, 0, 0, 0, 1, 1, 224, 77, 84, 114, 107] ++ uint32BE ((deltaEncode (sortedMsgs header es 0) 0).length + 18)) ++ (writeVarLen 0 ++ [0xff, 0x51, 0x03, (tempoOf header).toNat / 2 ^ 16 % 256, (tempoOf header).toNat / 2 ^ 8 % 256, (tempoOf header).toNat % 256])) ++ (writeVarLen 0 ++ [0xc0, header.program % 128])) ++ (writeVarLen 0 ++ [0xb0, 0x07, (velocityOf header).toNat])) : List ℕ).length = 36 := by
    simp only [List.length_append, h22, hwv0, List.length_cons, List.length_nil]
  have hP4len : (((((([77, 84, 104, 100, 0, 0, 0, 6, 0, 0, 0, 1, 1, 224, 77, 84, 114, 107] ++ uint32BE ((deltaEncode (sortedMsgs header es 0) 0).length + 18)) ++ (writeVarLen 0 ++ [0xff, 0x51, 0x03, (tempoOf header).toNat / 2 ^ 16 % 256, (tempoOf header).toNat / 2 ^ 8 % 256, (tempoOf header).toNat % 256])) ++ (writeVarLen 0 ++ [0xc0, header.program % 128])) ++ (writeVarLen 0 ++ [0xb0, 0x07, (velocityOf header).toNat])) ++ (deltaEncode (sortedMsgs header es 0) 0)) : List ℕ).length = 36 + (deltaEncode (sortedMsgs header es 0) 0).length := by
    rw [List.length_append, hP3len]
  simp only [parseMidiTrack]
  rw [hdata, hL18]
  rw [show (22 : ℕ) = (([77, 84, 104, 100, 0, 0, 0, 6, 0, 0, 0, 1, 1, 224, 77, 84, 114, 107] ++ uint32BE ((deltaEncode (sortedMsgs header es 0) 0).length + 18)) : List ℕ).length from h22.symm]
  simp only [List.append_assoc, List.cons_append, List.nil_append, Nat.add_zero]
  have k1 := trackStep_tempo ([77, 84, 104, 100, 0, 0, 0, 6, 0, 0, 0, 1, 1, 224, 77, 84, 114, 107] ++ uint32BE ((deltaEncode (sortedMsgs header es 0) 0).length + 18))
    (writeVarLen 0 ++ (0xc0 :: header.program % 128 ::
      (writeVarLen 0 ++ (0xb0 :: 0x07 :: (velocityOf header).toNat ::
        ((deltaEncode (sortedMsgs header es 0) 0) ++ [0x00, 0xff, 0x2f, 0x00])))))
    ((([77, 84, 104, 100, 0, 0, 0, 6, 0, 0, 0, 1, 1, 224, 77, 84, 114, 107] ++ uint32BE ((deltaEncode (sortedMsgs header es 0) 0).length + 18)) : List ℕ).length + ((deltaEncode (sortedMsgs header es 0) 0).length + 18)) ((deltaEncode (sortedMsgs header es 0) 0).length + 18) 0
    ((tempoOf header).toNat / 2 ^ 16 % 256) ((tempoOf header).toNat / 2 ^ 8 % 256) ((tempoOf header).toNat % 256) 0 0 500000 0.8 (some 0) [] []
    (by omega) (by norm_num)
  simp only [List.append_assoc, List.cons_append, List.nil_append, Nat.add_zero] at k1
  rw [k1]
  rw [show (deltaEncode (sortedMsgs header es 0) 0).length + 18 = (deltaEncode (sortedMsgs header es 0) 0).length + 17 + 1 from by omega]
  have k2 := trackStep_program (([77, 84, 104, 100, 0, 0, 0, 6, 0, 0, 0, 1, 1, 224, 77, 84, 114, 107] ++ uint32BE ((deltaEncode (sortedMsgs header es 0) 0).length + 18)) ++ (writeVarLen 0 ++ [0xff, 0x51, 0x03, (tempoOf header).toNat / 2 ^ 16 % 256, (tempoOf header).toNat / 2 ^ 8 % 256, (tempoOf header).toNat % 256]))
    (writeVarLen 0 ++ (0xb0 :: 0x07 :: (velocityOf header).toNat ::
      ((deltaEncode (sortedMsgs header es 0) 0) ++ [0x00, 0xff, 0x2f, 0x00])))
    ((([77, 84, 104, 100, 0, 0, 0, 6, 0, 0, 0, 1, 1, 224, 77, 84, 114, 107] ++ uint32BE ((deltaEncode (sortedMsgs header es 0) 0).length + 18)) : List ℕ).length + ((deltaEncode (sortedMsgs header es 0) 0).length + 18)) ((deltaEncode (sortedMsgs header es 0) 0).length + 17) 0
    (header.program % 128) 0 0 ((tempoOf header).toNat / 2 ^ 16 % 256 * 2 ^ 16 + (tempoOf header).toNat / 2 ^ 8 % 256 * 2 ^ 8 + (tempoOf header).toNat % 256) 0.8 (some 0xff) [] []
    (by rw [hP1len]; omega) (by norm_num)
  simp only [List.append_assoc, List.cons_append, List.nil_append, Nat.add_zero] at k2
  rw [k2]
  rw [show (deltaEncode (sortedMsgs header es 0) 0).length + 17 = (deltaEncode (sortedMsgs header es 0) 0).length + 16 + 1 from by omega]
  have k3 := trackStep_controller ((([77, 84, 104, 100, 0, 0, 0, 6, 0, 0, 0, 1, 1, 224, 77, 84, 114, 107] ++ uint32BE ((deltaEncode (sortedMsgs header es 0) 0).length + 18)) ++ (writeVarLen 0 ++ [0xff, 0x51, 0x03, (tempoOf header).toNat / 2 ^ 16 % 256, (tempoOf header).toNat / 2 ^ 8 % 256, (tempoOf header).toNat % 256])) ++ (writeVarLen 0 ++ [0xc0, header.program % 128]))
    ((deltaEncode (sortedMsgs header es 0) 0) ++ [0x00, 0xff, 0x2f, 0x00])
    ((([77, 84, 104, 100, 0, 0, 0, 6, 0, 0, 0, 1, 1, 224, 77, 84, 114, 107] ++ uint32BE ((deltaEncode (sortedMsgs header es 0) 0).length + 18)) : List ℕ).length + ((deltaEncode (sortedMsgs header es 0) 0).length + 18)) ((deltaEncode (sortedMsgs header es 0) 0).length + 16) 0
    ((velocityOf header).toNat) 0 (header.program % 128) ((tempoOf header).toNat / 2 ^ 16 % 256 * 2 ^ 16 + (tempoOf header).toNat / 2 ^ 8 % 256 * 2 ^ 8 + (tempoOf header).toNat % 256) 0.8 (some 0xc0) [] []
    (by rw [hP2len]; omega) (by norm_num)
  simp only [List.append_assoc, List.cons_append, List.nil_append, Nat.add_zero] at k3
  rw [k3]
  have kS := parse_stream header ((([77, 84, 104, 100, 0, 0, 0, 6, 0, 0, 0, 1, 1, 224, 77, 84, 114, 107] ++ uint32BE ((deltaEncode (sortedMsgs header es 0) 0).length + 18)) : List ℕ).length + ((deltaEncode (sortedMsgs header es 0) 0).length + 18))
    (velByteOf_ne_zero header) es (((([77, 84, 104, 100, 0, 0, 0, 6, 0, 0, 0, 1, 1, 224, 77, 84, 114, 107] ++ uint32BE ((deltaEncode (sortedMsgs header es 0) 0).length + 18)) ++ (writeVarLen 0 ++ [0xff, 0x51, 0x03, (tempoOf header).toNat / 2 ^ 16 % 256, (tempoOf header).toNat / 2 ^ 8 % 256, (tempoOf header).toNat % 256])) ++ (writeVarLen 0 ++ [0xc0, header.program % 128])) ++ (writeVarLen 0 ++ [0xb0, 0x07, (velocityOf header).toNat])) [0x00, 0xff, 0x2f, 0x00] 0 0
    ((deltaEncode (sortedMsgs header es 0) 0).length + 16) (header.program % 128) ((tempoOf header).toNat / 2 ^ 16 % 256 * 2 ^ 16 + (tempoOf header).toNat / 2 ^ 8 % 256 * 2 ^ 8 + (tempoOf header).toNat % 256) (clampQ (((velocityOf header).toNat : ℚ) / 127) 0 1) (some 0xb0) []
    hdur hwf (by omega) le_rfl le_rfl (by omega)
    (by rw [hP3len]; omega)
  obtain ⟨tkS, rsS, kS⟩ := kS
  simp only [List.append_assoc, List.cons_append, List.nil_append, Nat.add_zero,
    Int.toNat_zero] at kS
  rw [kS]
  have kE := trackStep_eot ((((([77, 84, 104, 100, 0, 0, 0, 6, 0, 0, 0, 1, 1, 224, 77, 84, 114, 107] ++ uint32BE ((deltaEncode (sortedMsgs header es 0) 0).length + 18)) ++ (writeVarLen 0 ++ [0xff, 0x51, 0x03, (tempoOf header).toNat / 2 ^ 16 % 256, (tempoOf header).toNat / 2 ^ 8 % 256, (tempoOf header).toNat % 256])) ++ (writeVarLen 0 ++ [0xc0, header.program % 128])) ++ (writeVarLen 0 ++ [0xb0, 0x07, (velocityOf header).toNat])) ++ (deltaEncode (sortedMsgs header es 0) 0))
    ((([77, 84, 104, 100, 0, 0, 0, 6, 0, 0, 0, 1, 1, 224, 77, 84, 114, 107] ++ uint32BE ((deltaEncode (sortedMsgs header es 0) 0).length + 18)) : List ℕ).length + ((deltaEncode (sortedMsgs header es 0) 0).length + 18))
    ((deltaEncode (sortedMsgs header es 0) 0).length + 16 - (sortedMsgs header es 0).length) tkS (header.program % 128) ((tempoOf header).toNat / 2 ^ 16 % 256 * 2 ^ 16 + (tempoOf header).toNat / 2 ^ 8 % 256 * 2 ^ 8 + (tempoOf header).toNat % 256)
    (clampQ (((velocityOf header).toNat : ℚ) / 127) 0 1) rsS [] (expectedNotes header es 0)
    (by rw [hP4len]; omega) (by rw [hP4len]; omega) (by omega)
  simp only [List.append_assoc, List.cons_append, List.nil_append, Nat.add_zero] at kE
  rw [kE]

/-- `parseMidiBuffer` applied to the writer's whole buffer. -/
theorem parseMidiBuffer_writer (header : ScoreHeader) (es : List ScoreEvent)
    (hdur : ∀ e ∈ es, 480 ≤ durTicksOf e)
    (hwf : ∀ e ∈ es, e.type ≠ .rest → e.notes ≠ [] ∧
      e.notes.Pairwise (fun a b => pitchByteOf header a ≠ pitchByteOf header b))
    (hbd : (es.map durTicksOf).sum < 2 ^ 28)
    (hL32 : (trackDataOf header es 480).length < 2 ^ 32) :
    ∃ tp, parseMidiBuffer (createMidiFile header es 480) =
      .ok { ticksPerBeat := 480, tempo := tp,
             tracks := [{ program := header.program % 128,
                          volume := clampQ (((velocityOf header).toNat : ℚ) / 127) 0 1,
                          noteEvents := expectedNotes header es 0 }] } := by
  obtain ⟨tp, htr⟩ := parseMidiTrack_writer header es hdur hwf hbd
  refine ⟨tp, ?_⟩
  have hbuf : createMidiFile header es 480 =
      [77, 84, 104, 100, 0, 0, 0, 6, 0, 0, 0, 1, 1, 224, 77, 84, 114, 107] ++ (uint32BE (trackDataOf header es 480).length ++
        trackDataOf header es 480) := by
    simp [createMidiFile, uint16BE, uint32BE]
  have htake : (createMidiFile header es 480).take 4 = [0x4d, 0x54, 0x68, 0x64] := by
    rw [hbuf]
    rfl
  have h4 : readUInt32BE (createMidiFile header es 480) 4 = 6 := by
    rw [hbuf]
    simp [readUInt32BE, List.cons_append, List.getD_cons_zero, List.getD_cons_succ]
  have h10 : readUInt16BE (createMidiFile header es 480) 10 = 1 := by
    rw [hbuf]
    simp [readUInt16BE, List.cons_append, List.getD_cons_zero, List.getD_cons_succ]
  have h12 : readUInt16BE (createMidiFile header es 480) 12 = 480 := by
    rw [hbuf]
    simp [readUInt16BE, List.cons_append, List.getD_cons_zero, List.getD_cons_succ]
  have hdrop : ((createMidiFile header es 480).drop (8 + 6)).take 4 =
      [0x4d, 0x54, 0x72, 0x6b] := by
    rw [hbuf]
    rfl
  have hlen : readUInt32BE (createMidiFile header es 480) (8 + 6 + 4) =
      (trackDataOf header es 480).length := by
    rw [hbuf]
    exact readUInt32BE_at [77, 84, 104, 100, 0, 0, 0, 6, 0, 0, 0, 1, 1, 224, 77, 84, 114, 107] (trackDataOf header es 480).length
      (trackDataOf header es 480) hL32
  have htracks : parseTracksGo (createMidiFile header es 480) 1 0 (8 + 6) 500000 [] =
      .ok (tp, [{ program := header.program % 128, volume := clampQ (((velocityOf header).toNat : ℚ) / 127) 0 1,
                   noteEvents := expectedNotes header es 0 }]) := by
    simp only [parseTracksGo]
    rw [hdrop, if_pos rfl, hlen]
    rw [show (8 : ℕ) + 6 + 8 = 22 from by norm_num]
    rw [htr]
    simp [parseTracksGo]
  unfold parseMidiBuffer
  rw [htake, if_pos rfl, h4, h10, h12]
  rw [if_neg (by norm_num)]
  rw [htracks]

/-! ## C1, stage 5: the reconstructor on the expected note events -/

theorem groupInsert_fresh (k : ℕ × ℕ) (x : MidiNoteEvent) :
    ∀ m, (∀ p ∈ m, p.1 ≠ k) → groupInsert m k x = m ++ [(k, [x])] := by
  intro m
  induction m with
  | nil => intro _; rfl
  | cons p rest ih =>
      intro h
      obtain ⟨k', l⟩ := p
      simp only [groupInsert]
      rw [if_neg (h (k', l) (List.mem_cons_self _ _))]
      rw [ih (fun p hp => h p (List.mem_cons_of_mem _ hp))]
      rfl

theorem groupInsert_last (k : ℕ × ℕ) (x : MidiNoteEvent) (acc : List MidiNoteEvent) :
    ∀ m, (∀ p ∈ m, p.1 ≠ k) →
      groupInsert (m ++ [(k, acc)]) k x = m ++ [(k, acc ++ [x])] := by
  intro m
  induction m with
  | nil => simp [groupInsert]
  | cons p rest ih =>
      intro h
      obtain ⟨k', l⟩ := p
      simp only [List.cons_append, groupInsert, List.append_eq]
      rw [if_neg (h (k', l) (List.mem_cons_self _ _))]
      rw [ih (fun p hp => h p (List.mem_cons_of_mem _ hp))]

theorem foldl_group_run (k : ℕ × ℕ) :
    ∀ (notes : List MidiNoteEvent) (m : List ((ℕ × ℕ) × List MidiNoteEvent))
      (acc : List MidiNoteEvent),
      (∀ p ∈ m, p.1 ≠ k) → (∀ x ∈ notes, (x.startTick, x.endTick) = k) →
      List.foldl (fun m e => groupInsert m (e.startTick, e.endTick) e)
          (m ++ [(k, acc)]) notes =
        m ++ [(k, acc ++ notes)] := by
  intro notes
  induction notes with
  | nil => intro m acc _ _; simp
  | cons x notes' ih =>
      intro m acc hm hx
      simp only [List.foldl_cons]
      rw [hx x (List.mem_cons_self _ _), groupInsert_last k x acc m hm]
      rw [ih m (acc ++ [x]) hm (fun y hy => hx y (List.mem_cons_of_mem _ hy))]
      simp

theorem groupedOf_expected (header : ScoreHeader) :
    ∀ (es : List ScoreEvent) (t : ℤ) (m : List ((ℕ × ℕ) × List MidiNoteEvent)),
      (∀ e ∈ es, 480 ≤ durTicksOf e) →
      (∀ e ∈ es, e.type ≠ .rest → e.notes ≠ []) →
      0 ≤ t →
      (∀ p ∈ m, p.1.1 < t.toNat) →
      List.foldl (fun m e => groupInsert m (e.startTick, e.endTick) e) m
          (expectedNotes header es t) =
        m ++ groupedBlocks header es t := by
  intro es
  induction es with
  | nil => intro t m _ _ _ _; simp [expectedNotes, groupedBlocks]
  | cons e rest ih =>
      intro t m hdur hne h0 hm
      have hde : 480 ≤ durTicksOf e := hdur e (List.mem_cons_self _ _)
      have hdurR : ∀ e' ∈ rest, 480 ≤ durTicksOf e' :=
        fun e' he' => hdur e' (List.mem_cons_of_mem _ he')
      have hneR : ∀ e' ∈ rest, e'.type ≠ .rest → e'.notes ≠ [] :=
        fun e' he' => hne e' (List.mem_cons_of_mem _ he')
      cases hty : e.type
      case rest =>
          simp only [expectedNotes, groupedBlocks, hty, reduceIte, List.nil_append]
          exact ih (t + durTicksOf e) m hdurR hneR (by omega)
            (fun p hp => by have := hm p hp; omega)
      all_goals
      · obtain ⟨n0, ns0, hnn⟩ := List.exists_cons_of_ne_nil
          (hne e (List.mem_cons_self _ _) (by rw [hty]; decide))
        have hnotes : expectedNotes header (e :: rest) t =
            e.notes.map (fun n =>
              ({ startTick := t.toNat, endTick := (t + durTicksOf e).toNat,
                 note := some (pitchByteOf header n),
                 velocity := some (velByteOf header) } : MidiNoteEvent)) ++
              expectedNotes header rest (t + durTicksOf e) := by
          show (if e.type = .rest then [] else _) ++ _ = _
          rw [if_neg (by rw [hty]; decide)]
        rw [hnotes, List.foldl_append, hnn, List.map_cons, List.foldl_cons]
        have hfresh : ∀ p ∈ m, p.1 ≠ (t.toNat, (t + durTicksOf e).toNat) := by
          intro p hp hcon
          have := hm p hp
          rw [hcon] at this
          omega
        have h1 : groupInsert m
            (({ startTick := t.toNat, endTick := (t + durTicksOf e).toNat,
                note := some (pitchByteOf header n0),
                velocity := some (velByteOf header) } : MidiNoteEvent).startTick,
             ({ startTick := t.toNat, endTick := (t + durTicksOf e).toNat,
                note := some (pitchByteOf header n0),
                velocity := some (velByteOf header) } : MidiNoteEvent).endTick)
            ({ startTick := t.toNat, endTick := (t + durTicksOf e).toNat,
               note := some (pitchByteOf header n0),
               velocity := some (velByteOf header) } : MidiNoteEvent) =
            m ++ [((t.toNat, (t + durTicksOf e).toNat),
              [{ startTick := t.toNat, endTick := (t + durTicksOf e).toNat,
                 note := some (pitchByteOf header n0),
                 velocity := some (velByteOf header) }])] :=
          groupInsert_fresh _ _ m hfresh
        rw [h1]
        rw [foldl_group_run (t.toNat, (t + durTicksOf e).toNat) _ m _ hfresh
          (by
            intro x hx
            rcases List.mem_map.mp hx with ⟨nn, _, rfl⟩
            rfl)]
        rw [ih (t + durTicksOf e) _ hdurR hneR (by omega)
          (by
            intro p hp
            rcases List.mem_append.mp hp with hpa | hpb
            · have := hm p hpa; omega
            · simp only [List.mem_singleton] at hpb
              subst hpb
              simp only
              omega)]
        have hgb : groupedBlocks header (e :: rest) t =
            [((t.toNat, (t + durTicksOf e).toNat),
              e.notes.map (fun n =>
                { startTick := t.toNat, endTick := (t + durTicksOf e).toNat,
                  note := some (pitchByteOf header n),
                  velocity := some (velByteOf header) }))] ++
              groupedBlocks header rest (t + durTicksOf e) := by
          show (if e.type = .rest then [] else _) ++ _ = _
          rw [if_neg (by rw [hty]; decide)]
        rw [hgb, hnn]
        simp [List.map_cons]

theorem groupedBlocks_key_lb (header : ScoreHeader) :
    ∀ (es : List ScoreEvent) (t : ℤ), 0 ≤ t → (∀ e ∈ es, 480 ≤ durTicksOf e) →
      ∀ p ∈ groupedBlocks header es t, t.toNat ≤ p.1.1 := by
  intro es
  induction es with
  | nil => intro t _ _ p hp; cases hp
  | cons e rest ih =>
      intro t h0 hdur p hp
      have hde : 480 ≤ durTicksOf e := hdur e (List.mem_cons_self _ _)
      have hdurR : ∀ e' ∈ rest, 480 ≤ durTicksOf e' :=
        fun e' he' => hdur e' (List.mem_cons_of_mem _ he')
      simp only [groupedBlocks, List.mem_append] at hp
      rcases hp with hpa | hpb
      · by_cases hty : e.type = .rest
        · rw [if_pos hty] at hpa
          cases hpa
        · rw [if_neg hty] at hpa
          simp only [List.mem_singleton] at hpa
          subst hpa
          simp
      · have := ih (t + durTicksOf e) (by omega) hdurR p hpb
        omega

theorem groupedBlocks_pairwise (header : ScoreHeader) :
    ∀ (es : List ScoreEvent) (t : ℤ), 0 ≤ t → (∀ e ∈ es, 480 ≤ durTicksOf e) →
      List.Pairwise (fun a b => a.1.1 < b.1.1) (groupedBlocks header es t) := by
  intro es
  induction es with
  | nil => intro t _ _; simp [groupedBlocks]
  | cons e rest ih =>
      intro t h0 hdur
      have hde : 480 ≤ durTicksOf e := hdur e (List.mem_cons_self _ _)
      have hdurR : ∀ e' ∈ rest, 480 ≤ durTicksOf e' :=
        fun e' he' => hdur e' (List.mem_cons_of_mem _ he')
      have htail := ih (t + durTicksOf e) (by omega) hdurR
      have hlb := groupedBlocks_key_lb header rest (t + durTicksOf e) (by omega) hdurR
      by_cases hty : e.type = .rest
      · simp only [groupedBlocks, if_pos hty, List.nil_append]
        exact htail
      · simp only [groupedBlocks, if_neg hty, List.singleton_append]
        refine List.Pairwise.cons ?_ htail
        intro p hp
        have := hlb p hp
        simp only
        omega

theorem groupGet_of_mem :
    ∀ (g : List ((ℕ × ℕ) × List MidiNoteEvent)),
      List.Pairwise (fun a b => a.1.1 < b.1.1) g →
      ∀ k b, (k, b) ∈ g → groupGet g k = b := by
  intro g
  induction g with
  | nil => intro _ k b hb; cases hb
  | cons p rest ih =>
      intro hpw k b hb
      obtain ⟨k', b'⟩ := p
      rcases List.mem_cons.mp hb with he | hm
      · obtain ⟨rfl, rfl⟩ := Prod.mk.injEq .. ▸ he
        injection he with h1 h2
        simp [groupGet]
      · have hk : k' ≠ k := by
          have := (List.pairwise_cons.mp hpw).1 (k, b) hm
          intro hcon
          rw [hcon] at this
          simp at this
        simp only [groupGet]
        rw [if_neg hk]
        exact ih (List.pairwise_cons.mp hpw).2 k b hm

theorem timePoints_blocks (header : ScoreHeader) (es : List ScoreEvent) (t : ℤ)
    (h0 : 0 ≤ t) (hdur : ∀ e ∈ es, 480 ≤ durTicksOf e) :
    timePointsOf (groupedBlocks header es t) =
      (groupedBlocks header es t).map Prod.fst := by
  unfold timePointsOf
  apply List.Sorted.insertionSort_eq
  have := groupedBlocks_pairwise header es t h0 hdur
  exact List.pairwise_map.mpr (this.imp (fun h => le_of_lt h))

theorem jsRound_intCast (z : ℤ) : jsRound (z : ℚ) = z := by
  unfold jsRound
  have h1 : (z : ℚ) ≤ (z : ℚ) + 1 / 2 := by norm_num
  have h2 : (z : ℚ) + 1 / 2 < z + 1 := by norm_num
  exact Int.floor_eq_iff.mpr ⟨h1, h2⟩

theorem quantize_half (k : ℕ) (hk : 1 ≤ k) :
    quantizeBeats ((k : ℚ) / 2) = (k : ℚ) / 2 := by
  unfold quantizeBeats
  have he : (k : ℚ) / 2 * 2 = ((k : ℤ) : ℚ) := by push_cast; ring
  rw [he, jsRound_intCast]
  rw [max_eq_right]
  · norm_num
  · rw [div_le_div_iff (by norm_num) (by norm_num)]
    push_cast
    have : (1 : ℚ) ≤ k := by exact_mod_cast hk
    nlinarith

theorem beats_of_ticks (a : ℤ) (k : ℕ) (h0 : 0 ≤ a) (hk : 1 ≤ k) :
    quantizeBeats ((((a + 240 * (k : ℤ)).toNat : ℚ) - (a.toNat : ℚ)) /
        ((480 : ℕ) : ℚ)) = (k : ℚ) / 2 := by
  have hb : (0 : ℤ) ≤ a + 240 * (k : ℤ) := by positivity
  have h1 : ((a + 240 * (k : ℤ)).toNat : ℚ) = (a : ℚ) + 240 * k := by
    have := Int.toNat_of_nonneg hb
    rw [show ((a + 240 * (k : ℤ)).toNat : ℚ) = (((a + 240 * (k : ℤ)).toNat : ℤ) : ℚ) by
      push_cast; ring]
    rw [this]
    push_cast
    ring
  have h2 : (a.toNat : ℚ) = (a : ℚ) := by
    rw [show (a.toNat : ℚ) = ((a.toNat : ℤ) : ℚ) by push_cast; ring]
    rw [Int.toNat_of_nonneg h0]
  rw [h1, h2]
  have h3 : ((a : ℚ) + 240 * k - a) / ((480 : ℕ) : ℚ) = (k : ℚ) / 2 := by
    push_cast
    field_simp
    ring
  rw [h3]
  exact quantize_half k hk

theorem durTicks_half (e : ScoreEvent) (k : ℕ) (h : e.durationBeats = (k : ℚ) / 2) :
    durTicksOf e = 240 * (k : ℤ) := by
  unfold durTicksOf
  rw [h]
  rw [show (k : ℚ) / 2 * 480 = ((240 * (k : ℤ) : ℤ) : ℚ) by push_cast; ring]
  exact jsRound_intCast _

theorem scoreEvent_eq (e : ScoreEvent) (ty : EventType) (db : ℚ) (ns : List NoteSpec)
    (h1 : ty = e.type) (h2 : db = e.durationBeats) (h3 : ns = e.notes) :
    ({ type := ty, durationBeats := db, notes := ns } : ScoreEvent) = e := by
  subst h1
  subst h2
  subst h3
  rfl

theorem blockNotes_sorted (origHeader : ScoreHeader) (notes : List NoteSpec)
    (hpw : notes.Pairwise (fun a b =>
      pitchByteOf origHeader a < pitchByteOf origHeader b)) (s e' : ℕ) :
    List.Sorted noteLe (notes.map (fun n =>
      ({ startTick := s, endTick := e', note := some (pitchByteOf origHeader n),
         velocity := some (velByteOf origHeader) } : MidiNoteEvent))) := by
  refine List.pairwise_map.mpr (hpw.imp ?_)
  intro a b hab
  show noteLe _ _
  unfold noteLe
  simp only
  exact le_of_lt hab

theorem blockNotes_specs (origHeader reconHeader : ScoreHeader)
    (notes : List NoteSpec) (s e' : ℕ)
    (hspec : ∀ n ∈ notes,
      midiNoteToSpec ((pitchByteOf origHeader n : ℕ) : ℤ) reconHeader = n) :
    (notes.map (fun n =>
      ({ startTick := s, endTick := e', note := some (pitchByteOf origHeader n),
         velocity := some (velByteOf origHeader) } : MidiNoteEvent))).map
      (fun ev => noteEventToSpec ev reconHeader) = notes := by
  rw [List.map_map]
  have h : ∀ n ∈ notes, ((fun ev => noteEventToSpec ev reconHeader) ∘ (fun n =>
      ({ startTick := s, endTick := e', note := some (pitchByteOf origHeader n),
         velocity := some (velByteOf origHeader) } : MidiNoteEvent))) n = id n := by
    intro n hn
    simp only [Function.comp_apply, id_eq]
    unfold noteEventToSpec
    simp only
    exact hspec n hn
  rw [List.map_congr_left h, List.map_id]

theorem buildGo_step (origHeader reconHeader : ScoreHeader) (f : ScoreEvent)
    (t' : ℤ) (kf : ℕ) (G : List ((ℕ × ℕ) × List MidiNoteEvent))
    (tps : List (ℕ × ℕ)) (ct : ℕ) (total : ℚ) (evs : List ScoreEvent)
    (h0 : 0 ≤ t') (hkf : 1 ≤ kf) (hkfb : f.durationBeats = (kf : ℚ) / 2)
    (hnef : f.type ≠ .rest)
    (hnoten : f.type = .note → f.notes.length = 1)
    (hchordn : f.type = .chord → 2 ≤ f.notes.length)
    (hasc : f.notes.Pairwise (fun a b =>
      pitchByteOf origHeader a < pitchByteOf origHeader b))
    (hspec : ∀ nn ∈ f.notes,
      midiNoteToSpec ((pitchByteOf origHeader nn : ℕ) : ℤ) reconHeader = nn)
    (hget : groupGet G (t'.toNat, (t' + durTicksOf f).toNat) =
      f.notes.map (fun nn =>
        { startTick := t'.toNat, endTick := (t' + durTicksOf f).toNat,
          note := some (pitchByteOf origHeader nn),
          velocity := some (velByteOf origHeader) })) :
    buildGo reconHeader 480 G ((t'.toNat, (t' + durTicksOf f).toNat) :: tps)
        ct total evs =
      buildGo reconHeader 480 G tps (t' + durTicksOf f).toNat
        (total + (if ct < t'.toNat then
            quantizeBeats (((t'.toNat : ℚ) - (ct : ℚ)) / ((480 : ℕ) : ℚ)) else 0) +
          f.durationBeats)
        (evs ++ (if ct < t'.toNat then
            [({ type := .rest,
                durationBeats :=
                  quantizeBeats (((t'.toNat : ℚ) - (ct : ℚ)) / ((480 : ℕ) : ℚ)),
                notes := [] } : ScoreEvent)]
          else []) ++ [f]) := by
  have hdtf : durTicksOf f = 240 * (kf : ℤ) := durTicks_half f kf hkfb
  have hdur : quantizeBeats ((((t' + durTicksOf f).toNat : ℚ) - (t'.toNat : ℚ)) /
      ((480 : ℕ) : ℚ)) = f.durationBeats := by
    rw [hkfb, hdtf]
    exact beats_of_ticks t' kf h0 hkf
  have hsorted := blockNotes_sorted origHeader f.notes hasc t'.toNat
    (t' + durTicksOf f).toNat
  have hspecs := blockNotes_specs origHeader reconHeader f.notes t'.toNat
    (t' + durTicksOf f).toNat hspec
  have hev : ScoreEvent.mk
      (if 1 < f.notes.length then EventType.chord else EventType.note)
      f.durationBeats f.notes = f := by
    apply scoreEvent_eq
    · cases hft : f.type
      case rest => exact absurd hft hnef
      case note =>
          rw [if_neg]
          have := hnoten hft
          omega
      case chord =>
          rw [if_pos]
          exact hchordn hft
    · rfl
    · rfl
  simp only [buildGo]
  rw [hget, List.Sorted.insertionSort_eq hsorted, hspecs]
  simp only [List.length_map] at *
  rw [hdur]
  rw [hev]
  rw [apply_ite Prod.snd, apply_ite Prod.fst]

theorem buildGo_expected (origHeader reconHeader : ScoreHeader) :
    ∀ (n : ℕ) (es : List ScoreEvent) (t : ℤ)
      (G : List ((ℕ × ℕ) × List MidiNoteEvent)) (total : ℚ) (evs : List ScoreEvent),
      es.length ≤ n → 0 ≤ t →
      (∀ e ∈ es, ∃ k : ℕ, 2 ≤ k ∧ e.durationBeats = (k : ℚ) / 2) →
      (∀ e ∈ es, e.type = .rest → e.notes = []) →
      (∀ e ∈ es, e.type = .note → e.notes.length = 1) →
      (∀ e ∈ es, e.type = .chord → 2 ≤ e.notes.length) →
      (∀ e ∈ es, e.notes.Pairwise (fun a b =>
        pitchByteOf origHeader a < pitchByteOf origHeader b)) →
      (∀ e ∈ es, ∀ nn ∈ e.notes,
        midiNoteToSpec ((pitchByteOf origHeader nn : ℕ) : ℤ) reconHeader = nn) →
      List.Chain' (fun a b => a.type = .rest → b.type ≠ .rest) es →
      (∀ l, es.getLast? = some l → l.type ≠ .rest) →
      (∀ p ∈ groupedBlocks origHeader es t, groupGet G p.1 = p.2) →
      (buildGo reconHeader 480 G ((groupedBlocks origHeader es t).map Prod.fst)
          t.toNat total evs).1 = evs ++ es := by
  intro n
  induction n with
  | zero =>
      intro es t G total evs hlen _ _ _ _ _ _ _ _ _ _
      cases es with
      | nil => simp [groupedBlocks, buildGo]
      | cons e rest => simp at hlen
  | succ m ihm =>
      intro es t G total evs hlen h0 hhalf hrestn hnoten hchordn hasc hspec hchain
        hlast hG
      cases es with
      | nil => simp [groupedBlocks, buildGo]
      | cons e rest =>
          obtain ⟨ke, hke2, hkeb⟩ := hhalf e (List.mem_cons_self _ _)
          have hdte : durTicksOf e = 240 * (ke : ℤ) := durTicks_half e ke hkeb
          by_cases hty : e.type = .rest
          case pos =>
            have hnotes0 : e.notes = [] := hrestn e (List.mem_cons_self _ _) hty
            cases rest with
            | nil =>
                exact absurd (hlast e (by simp)) (by simp [hty])
            | cons f rest2 =>
                have hmf : f ∈ e :: f :: rest2 := by simp
                have hnef : f.type ≠ .rest := (List.chain'_cons.mp hchain).1 hty
                obtain ⟨kf, hkf2, hkfb⟩ := hhalf f hmf
                have hdtf : durTicksOf f = 240 * (kf : ℤ) := durTicks_half f kf hkfb
                have hgb : groupedBlocks origHeader (e :: f :: rest2) t =
                    (((t + durTicksOf e).toNat,
                      (t + durTicksOf e + durTicksOf f).toNat),
                      f.notes.map (fun nn =>
                        { startTick := (t + durTicksOf e).toNat,
                          endTick := (t + durTicksOf e + durTicksOf f).toNat,
                          note := some (pitchByteOf origHeader nn),
                          velocity := some (velByteOf origHeader) })) ::
                      groupedBlocks origHeader rest2
                        (t + durTicksOf e + durTicksOf f) := by
                  show (if e.type = .rest then [] else _) ++
                    ((if f.type = .rest then [] else _) ++ _) = _
                  rw [if_pos hty, if_neg hnef]
                  rfl
                rw [hgb, List.map_cons]
                rw [buildGo_step origHeader reconHeader f (t + durTicksOf e) kf G
                  ((groupedBlocks origHeader rest2
                    (t + durTicksOf e + durTicksOf f)).map Prod.fst)
                  t.toNat total evs (by omega) (by omega) hkfb hnef
                  (hnoten f hmf) (hchordn f hmf) (hasc f hmf) (hspec f hmf)
                  (hG _ (by rw [hgb]; exact List.mem_cons_self _ _))]
                rw [if_pos (show t.toNat < (t + durTicksOf e).toNat by omega),
                  if_pos (show t.toNat < (t + durTicksOf e).toNat by omega)]
                have hgap : quantizeBeats ((((t + durTicksOf e).toNat : ℚ) -
                    (t.toNat : ℚ)) / ((480 : ℕ) : ℚ)) = e.durationBeats := by
                  rw [hkeb, hdte]
                  exact beats_of_ticks t ke h0 (by omega)
                rw [hgap]
                rw [show ScoreEvent.mk EventType.rest e.durationBeats [] = e from
                  scoreEvent_eq e _ _ _ hty.symm rfl hnotes0.symm]
                rw [ihm rest2 (t + durTicksOf e + durTicksOf f) G _ _
                  (by simp at hlen ⊢; omega) (by omega)
                  (fun x hx => hhalf x (by simp [hx]))
                  (fun x hx => hrestn x (by simp [hx]))
                  (fun x hx => hnoten x (by simp [hx]))
                  (fun x hx => hchordn x (by simp [hx]))
                  (fun x hx => hasc x (by simp [hx]))
                  (fun x hx => hspec x (by simp [hx]))
                  (hchain.tail.tail)
                  (by
                    intro l hl
                    apply hlast
                    cases rest2 with
                    | nil => cases hl
                    | cons g rest3 =>
                        rw [List.getLast?_cons_cons, List.getLast?_cons_cons]
                        exact hl)
                  (by
                    intro p hp
                    apply hG
                    rw [hgb]
                    exact List.mem_cons_of_mem _ hp)]
                simp
          case neg =>
            have hgb : groupedBlocks origHeader (e :: rest) t =
                ((t.toNat, (t + durTicksOf e).toNat),
                  e.notes.map (fun nn =>
                    { startTick := t.toNat,
                      endTick := (t + durTicksOf e).toNat,
                      note := some (pitchByteOf origHeader nn),
                      velocity := some (velByteOf origHeader) })) ::
                  groupedBlocks origHeader rest (t + durTicksOf e) := by
              show (if e.type = .rest then [] else _) ++ _ = _
              rw [if_neg hty]
              rfl
            rw [hgb, List.map_cons]
            rw [buildGo_step origHeader reconHeader e t ke G
              ((groupedBlocks origHeader rest (t + durTicksOf e)).map Prod.fst)
              t.toNat total evs h0 (by omega) hkeb hty
              (hnoten e (List.mem_cons_self _ _)) (hchordn e (List.mem_cons_self _ _))
              (hasc e (List.mem_cons_self _ _)) (hspec e (List.mem_cons_self _ _))
              (hG _ (by rw [hgb]; exact List.mem_cons_self _ _))]
            rw [if_neg (lt_irrefl t.toNat)]
            rw [ihm rest (t + durTicksOf e) G _ _
              (by simp at hlen ⊢; omega) (by omega)
              (fun x hx => hhalf x (by simp [hx]))
              (fun x hx => hrestn x (by simp [hx]))
              (fun x hx => hnoten x (by simp [hx]))
              (fun x hx => hchordn x (by simp [hx]))
              (fun x hx => hasc x (by simp [hx]))
              (fun x hx => hspec x (by simp [hx]))
              (hchain.tail)
              (by
                intro l hl
                apply hlast
                cases rest with
                | nil => cases hl
                | cons g rest3 =>
                    rw [List.getLast?_cons_cons]
                    exact hl)
              (by
                intro p hp
                apply hG
                rw [hgb]
                exact List.mem_cons_of_mem _ hp)]
            simp

theorem buildScore_expected (origHeader reconHeader : ScoreHeader)
    (es : List ScoreEvent)
    (hhalf : ∀ e ∈ es, ∃ k : ℕ, 2 ≤ k ∧ e.durationBeats = (k : ℚ) / 2)
    (hrestn : ∀ e ∈ es, e.type = .rest → e.notes = [])
    (hnoten : ∀ e ∈ es, e.type = .note → e.notes.length = 1)
    (hchordn : ∀ e ∈ es, e.type = .chord → 2 ≤ e.notes.length)
    (hasc : ∀ e ∈ es, e.notes.Pairwise (fun a b =>
      pitchByteOf origHeader a < pitchByteOf origHeader b))
    (hspec : ∀ e ∈ es, ∀ nn ∈ e.notes,
      midiNoteToSpec ((pitchByteOf origHeader nn : ℕ) : ℤ) reconHeader = nn)
    (hchain : List.Chain' (fun a b => a.type = .rest → b.type ≠ .rest) es)
    (hlast : ∀ l, es.getLast? = some l → l.type ≠ .rest) :
    (buildScoreFromNoteEvents (expectedNotes origHeader es 0) reconHeader 480).events =
      es := by
  have hdur : ∀ e ∈ es, 480 ≤ durTicksOf e := by
    intro e he
    obtain ⟨k, hk2, hkb⟩ := hhalf e he
    rw [durTicks_half e k hkb]
    omega
  have hne : ∀ e ∈ es, e.type ≠ .rest → e.notes ≠ [] := by
    intro e he hty hcon
    cases hft : e.type
    case rest => exact hty hft
    case note =>
        have := hnoten e he hft
        rw [hcon] at this
        simp at this
    case chord =>
        have := hchordn e he hft
        rw [hcon] at this
        simp at this
  have hg : groupedOf (expectedNotes origHeader es 0) = groupedBlocks origHeader es 0 := by
    unfold groupedOf
    have := groupedOf_expected origHeader es 0 [] hdur hne le_rfl (by simp)
    simpa using this
  have htp : timePointsOf (groupedBlocks origHeader es 0) =
      (groupedBlocks origHeader es 0).map Prod.fst :=
    timePoints_blocks origHeader es 0 le_rfl hdur
  have hG : ∀ p ∈ groupedBlocks origHeader es 0,
      groupGet (groupedBlocks origHeader es 0) p.1 = p.2 := by
    intro p hp
    exact groupGet_of_mem _ (groupedBlocks_pairwise origHeader es 0 le_rfl hdur)
      p.1 p.2 hp
  have key := buildGo_expected origHeader reconHeader es.length es 0
    (groupedBlocks origHeader es 0) 0 [] le_rfl le_rfl hhalf hrestn hnoten hchordn
    hasc hspec hchain hlast hG
  simp only [Int.toNat_zero] at key
  unfold buildScoreFromNoteEvents
  simp only [hg, htp]
  simp only [key, List.nil_append]

/-! ## C1, stage 6: size bounds and header congruence -/

theorem midiNoteToSpec_congr (p : ℤ) (h1 h2 : ScoreHeader)
    (hk : h1.key = h2.key) (ho : h1.octave = h2.octave) :
    midiNoteToSpec p h1 = midiNoteToSpec p h2 := by
  unfold midiNoteToSpec
  rw [hk, ho]

theorem pitchByteOf_le (header : ScoreHeader) (n : NoteSpec) :
    pitchByteOf header n ≤ 127 := by
  unfold pitchByteOf degreeToMidi clampZ
  omega

theorem length_le_of_pairwise_lt (l : List ℕ) (h : l.Pairwise (· < ·))
    (hb : ∀ x ∈ l, x ≤ 127) : l.length ≤ 128 := by
  have hnd : l.Nodup := h.imp (fun hx => Nat.ne_of_lt hx)
  have hsub : l.toFinset ⊆ Finset.range 128 := by
    intro x hx
    rw [List.mem_toFinset] at hx
    rw [Finset.mem_range]
    have := hb x hx
    omega
  have := Finset.card_le_card hsub
  rw [List.toFinset_card_of_nodup hnd] at this
  simpa using this

theorem notes_le_128 (header : ScoreHeader) (notes : List NoteSpec)
    (hasc : notes.Pairwise (fun a b =>
      pitchByteOf header a < pitchByteOf header b)) :
    notes.length ≤ 128 := by
  have h1 : (notes.map (pitchByteOf header)).Pairwise (· < ·) :=
    List.pairwise_map.mpr hasc
  have h2 := length_le_of_pairwise_lt (notes.map (pitchByteOf header)) h1
    (by
      intro x hx
      rcases List.mem_map.mp hx with ⟨n, _, rfl⟩
      exact pitchByteOf_le header n)
  simpa using h2

theorem sortedMsgs_length_le (header : ScoreHeader) :
    ∀ (es : List ScoreEvent) (t : ℤ),
      (∀ e ∈ es, e.notes.Pairwise (fun a b =>
        pitchByteOf header a < pitchByteOf header b)) →
      (sortedMsgs header es t).length ≤ 256 * es.length := by
  intro es
  induction es with
  | nil => intro t _; simp [sortedMsgs]
  | cons e rest ih =>
      intro t hasc
      have h1 := ih (t + durTicksOf e)
        (fun e' he' => hasc e' (List.mem_cons_of_mem _ he'))
      have h2 := notes_le_128 header e.notes (hasc e (List.mem_cons_self _ _))
      simp only [sortedMsgs, List.length_append, List.length_cons]
      by_cases hty : e.type = .rest
      · rw [if_pos hty]
        simp only [List.length_nil]
        omega
      · rw [if_neg hty]
        simp only [List.length_append, List.length_map]
        omega

theorem sortedMsgs_bytes (header : ScoreHeader) :
    ∀ (es : List ScoreEvent) (t : ℤ) (m : MidiEvent),
      m ∈ sortedMsgs header es t → m.bytes.length ≤ 3 := by
  intro es
  induction es with
  | nil => intro t m hm; cases hm
  | cons e rest ih =>
      intro t m hm
      simp only [sortedMsgs, List.mem_append] at hm
      rcases hm with hma | hmb
      · by_cases hty : e.type = .rest
        · rw [if_pos hty] at hma
          cases hma
        · rw [if_neg hty] at hma
          rcases List.mem_append.mp hma with hon | hoff
          · rcases List.mem_map.mp hon with ⟨n, _, rfl⟩
            rfl
          · rcases List.mem_map.mp hoff with ⟨n, _, rfl⟩
            rfl
      · exact ih (t + durTicksOf e) m hmb

theorem deltaEncode_length_le :
    ∀ (msgs : List MidiEvent) (last : ℤ),
      (∀ m ∈ msgs, m.bytes.length ≤ 3) →
      (deltaEncode msgs last).length ≤ 9 * msgs.length := by
  intro msgs
  induction msgs with
  | nil => intro last _; simp [deltaEncode]
  | cons m rest ih =>
      intro last hb
      have h1 := writeVarLen_length_le (m.tick - last).toNat
      have h2 := hb m (List.mem_cons_self _ _)
      have h3 := ih m.tick (fun m' hm' => hb m' (List.mem_cons_of_mem _ hm'))
      simp only [deltaEncode, List.length_append, List.length_cons]
      omega

theorem evSum_ge_length :
    ∀ (es : List ScoreEvent), (∀ e ∈ es, (1 : ℚ) ≤ e.durationBeats) →
      (es.length : ℚ) ≤ evSum es := by
  intro es
  induction es with
  | nil => intro _; simp [evSum]
  | cons e rest ih =>
      intro h
      have h1 := h e (List.mem_cons_self _ _)
      have h2 := ih (fun e' he' => h e' (List.mem_cons_of_mem _ he'))
      simp only [evSum, List.map_cons, List.sum_cons, List.length_cons] at h2 ⊢
      push_cast
      linarith

theorem sumDurTicks_cast :
    ∀ (es : List ScoreEvent),
      (∀ e ∈ es, ∃ k : ℕ, 2 ≤ k ∧ e.durationBeats = (k : ℚ) / 2) →
      (((es.map durTicksOf).sum : ℤ) : ℚ) = 480 * evSum es := by
  intro es
  induction es with
  | nil => intro _; simp [evSum]
  | cons e rest ih =>
      intro h
      obtain ⟨k, hk2, hkb⟩ := h e (List.mem_cons_self _ _)
      have h2 := ih (fun e' he' => h e' (List.mem_cons_of_mem _ he'))
      simp only [List.map_cons, List.sum_cons, evSum] at h2 ⊢
      push_cast
      push_cast at h2
      rw [durTicks_half e k hkb, hkb]
      push_cast
      rw [h2]
      ring

/-- C9 witness: the round trip at the concrete pitch 61 with the
default header. -/
theorem c9_witness :
    (0 : ℤ) ≤ 61 ∧ (61 : ℤ) ≤ 127 ∧
      (KEY_OFFSETS.lookup DEFAULT_HEADER.key).isSome = true ∧
      degreeToMidi (midiNoteToSpec 61 DEFAULT_HEADER).degree
        (midiNoteToSpec 61 DEFAULT_HEADER).octaveShift
        (midiNoteToSpec 61 DEFAULT_HEADER).accidental DEFAULT_HEADER = 61 :=
  ⟨by decide, by decide, by decide,
    c9_degreeToMidi_midiNoteToSpec_roundtrip 61 DEFAULT_HEADER
      (by decide) (by decide) (by decide)⟩

end MusicBox
